import Mathlib

/-!
# zsv-ruby : parser engine, row builder and options resolver

A shallow embedding of `ext/zsv/options.c`, `ext/zsv/row.c` and
`ext/zsv/parser.c`, followed by theorems about the embedded functions.

Conventions of the embedding

* C functions that mutate a struct through a pointer become functions that
  return the new struct.  A function that may `rb_raise` returns the state it
  leaves behind together with the exception (the raise is a `longjmp`, the
  struct keeps what was written before it).
* A Ruby `String` is its byte sequence (a list of byte values) and its
  encoding tag.  Bytes, `char` and `size_t` quantities are natural numbers;
  the one place where a signed value is converted to `size_t` is written with
  an explicit `% 2 ^ 64`.  The `size_t` counters are incremented once per row
  callback or cell and are not reduced modulo `2 ^ 64`.
* The zsv tokenizer and the Ruby runtime are external to the repository.
  The tokenizer is a black box: for a configuration and the bytes of the
  stream it produces a list of advance steps, each reporting rows to the row
  callback and returning a status.  It is a parameter (`Host`) of every
  definition that creates a tokenizer.
-/

namespace ZSV

/-! ## Ruby values -/

/-- An entry of the Ruby encoding table, identified by its index. -/
structure rb_encoding where
  index : Nat
  deriving DecidableEq

/-- The encoding returned by `rb_utf8_encoding()`. -/
def rb_utf8_encoding : rb_encoding := ⟨1⟩

/-- Ruby objects that are not containers: `nil`, `true`, `false`, an
`Integer`, a `String` (bytes and encoding tag), a `Symbol`, an `Encoding`. -/
inductive Scalar
  | qnil
  | qtrue
  | qfalse
  | fixnum (n : Int)
  | str (bytes : List Nat) (enc : rb_encoding)
  | sym (name : String)
  | encoding (e : rb_encoding)
  deriving DecidableEq

/-- A Ruby `VALUE`: a scalar, an `Array` of scalars, or a `Hash` given by its
entries in insertion order. -/
inductive VALUE
  | scalar (s : Scalar)
  | ary (xs : List Scalar)
  | hash (kv : List (Scalar × Scalar))
  deriving DecidableEq

def Qnil : VALUE := .scalar .qnil
def Qfalse : VALUE := .scalar .qfalse
def Qtrue : VALUE := .scalar .qtrue

/-- The macro `NIL_P`. -/
def NIL_P (v : VALUE) : Bool := decide (v = Qnil)

/-- The macro `RTEST`: everything but `nil` and `false` is truthy. -/
def RTEST (v : VALUE) : Bool := !(decide (v = Qnil) || decide (v = Qfalse))

/-- The macro `SIZET2NUM`: the Ruby `Integer` of a `size_t`. -/
def SIZET2NUM (i : Nat) : Scalar := .fixnum (Int.ofNat i)

/-- Exceptions raised through `rb_raise`, `rb_sys_fail` and the conversion
macros. -/
inductive Raised
  | rb_eArgError
  | rb_eTypeError
  | rb_eRangeError
  | rb_eRuntimeError
  | rb_eNotImpError
  | rb_eIOError
  | rb_eSystemCallError
  | eMalformedCSVError
  deriving DecidableEq

deriving instance DecidableEq for Except

/-- The macro `NUM2INT` on the values of this universe: an `Integer` that
fits a C `int` converts, a larger one raises `RangeError`, a non-numeric
object raises `TypeError`. -/
def NUM2INT (v : VALUE) : Except Raised Int :=
  match v with
  | .scalar (.fixnum n) =>
      if -(2 ^ 31 : Int) ≤ n ∧ n < (2 ^ 31 : Int) then .ok n else .error .rb_eRangeError
  | _ => .error .rb_eTypeError

/-- The macro `NUM2SIZET` (`rb_num2ulong`) on the values of this universe: an
`Integer` in `[-2^63, 2^64)` converts to its residue modulo `2^64`, other
integers raise `RangeError`, a non-numeric object raises `TypeError`. -/
def NUM2SIZET (v : VALUE) : Except Raised Nat :=
  match v with
  | .scalar (.fixnum n) =>
      if -(2 ^ 63 : Int) ≤ n ∧ n < (2 ^ 64 : Int) then .ok (n % (2 ^ 64 : Int)).toNat
      else .error .rb_eRangeError
  | _ => .error .rb_eTypeError

/-- The C conversion `(size_t)i` of a signed integer on a 64-bit target. -/
def size_t_of_int (i : Int) : Nat := (i % (2 ^ 64 : Int)).toNat

/-- `rb_hash_lookup` on the entries of a Hash: the value stored under the
key, `nil` when the key is absent. -/
def rb_hash_lookup (kv : List (Scalar × VALUE)) (key : Scalar) : VALUE :=
  match kv with
  | [] => Qnil
  | (k, v) :: rest => if k = key then v else rb_hash_lookup rest key

/-- `rb_hash_aset` on the entries of a Hash: the value of an existing key is
replaced in place, a new key is appended. -/
def rb_hash_aset (kv : List (Scalar × Scalar)) (key val : Scalar) : List (Scalar × Scalar) :=
  match kv with
  | [] => [(key, val)]
  | (k, v) :: rest => if k = key then (k, val) :: rest else (k, v) :: rb_hash_aset rest key val

/-! ## The host: tokenizer, encoding table, file system -/

/-- Modelled from the spec: the status codes of the tokenizer (`zsv.h` is not
among the sources): "ok", "no more input", and any other code. -/
inductive zsv_status
  | zsv_status_ok
  | zsv_status_no_more_input
  | zsv_status_error (code : Nat)
  deriving DecidableEq

/-- A logical row as the tokenizer exposes it during the row callback:
`zsv_cell_count` cells, each a byte string (`zsv_get_cell`). -/
abbrev zsv_row := List (List Nat)

/-- What one call of `zsv_parse_more` does: the number of bytes it takes from
the stream, the rows for which it invokes the row callback, the status it
returns, and the rows a `zsv_finish` right after it would still flush. -/
structure zsv_step where
  nread : Nat
  rows : List zsv_row
  status : zsv_status
  pending : List zsv_row
  deriving DecidableEq

/-- The members of `struct zsv_opts` that the engine assigns a value taken
from its options.  The struct is zero-initialised (`= {0}`); besides
`delimiter` only the callback wiring (`row_handler`, `ctx`, `stream`) is
assigned. -/
structure zsv_opts where
  delimiter : Nat
  deriving DecidableEq

/-- The parts of the environment the extension calls into. -/
structure Host where
  /-- The tokenizer as a black box: its advance steps over a stream. -/
  zsv_tokenize : zsv_opts → List Nat → List zsv_step
  /-- The encoding registered under a name (`rb_enc_find`), if any. -/
  rb_enc_find : List Nat → Option rb_encoding
  /-- The content of the file at a path, if `fopen(path, "rb")` succeeds. -/
  fopen : List Nat → Option (List Nat)

/-- A `FILE *` stream: its bytes and the read position. -/
structure FILE where
  content : List Nat
  pos : Nat
  deriving DecidableEq

/-- A tokenizer handle (`zsv_parser`).  `script` are the advance steps still
to come and `pending` the rows a finish would flush now.  `reported`,
`parse_calls` and `finish_calls` record the history of the handle: the rows
handed to the row callback so far and the number of calls made on it. -/
structure zsv_scanner where
  opts : zsv_opts
  script : List zsv_step
  pending : List zsv_row
  reported : List zsv_row
  parse_calls : Nat
  finish_calls : Nat
  deriving DecidableEq

/-- `zsv_new` over a stream: the tokenizer will read from the current
position of the stream. -/
def zsv_new (host : Host) (zopts : zsv_opts) (stream : FILE) : zsv_scanner :=
  { opts := zopts
    script := host.zsv_tokenize zopts (stream.content.drop stream.pos)
    pending := []
    reported := []
    parse_calls := 0
    finish_calls := 0 }

/-- `rb_to_encoding`: an `Encoding` object is itself, a `String` is looked up
by name (`ArgumentError` when unknown), other objects raise `TypeError`. -/
def rb_to_encoding (host : Host) (v : VALUE) : Except Raised rb_encoding :=
  match v with
  | .scalar (.encoding e) => .ok e
  | .scalar (.str bytes _) =>
      match host.rb_enc_find bytes with
      | some e => .ok e
      | none => .error .rb_eArgError
  | _ => .error .rb_eTypeError

/-! ## options.c -/

/-- The struct `zsv_ruby_options_t` of `options.h`. -/
structure zsv_ruby_options_t where
  delimiter : Nat
  quote_char : Nat
  headers : Bool
  header_array : VALUE
  skip_lines : Int
  liberal_parsing : Bool
  encoding : rb_encoding
  buffer_size : Nat
  deriving DecidableEq

def id_headers : Scalar := .sym "headers"
def id_col_sep : Scalar := .sym "col_sep"
def id_quote_char : Scalar := .sym "quote_char"
def id_skip_lines : Scalar := .sym "skip_lines"
def id_encoding : Scalar := .sym "encoding"
def id_liberal_parsing : Scalar := .sym "liberal_parsing"
def id_buffer_size : Scalar := .sym "buffer_size"

/-- The defaults written by `zsv_options_init`. -/
def zsv_options_init : zsv_ruby_options_t :=
  { delimiter := 44
    quote_char := 34
    headers := false
    header_array := Qnil
    skip_lines := 0
    liberal_parsing := false
    encoding := rb_utf8_encoding
    buffer_size := 256 * 1024 }

/-- The argument `opts_hash`: `nil`, a `Hash` (its entries), or an object that
is neither. -/
inductive OptsHash
  | qnil
  | hash (kv : List (Scalar × VALUE))
  | other
  deriving DecidableEq

/-- The helper `get_option` on the entries of a non-nil options hash. -/
def get_option (kv : List (Scalar × VALUE)) (key : Scalar) (default_value : VALUE) : VALUE :=
  let val := rb_hash_lookup kv key
  if NIL_P val then default_value else val

/-- The `col_sep` block of `zsv_options_parse`. -/
def parse_col_sep (kv : List (Scalar × VALUE)) (opts : zsv_ruby_options_t) :
    Except Raised zsv_ruby_options_t :=
  let col_sep := get_option kv id_col_sep Qnil
  if NIL_P col_sep then .ok opts
  else
    match col_sep with
    | .scalar (.str bytes _) =>
        if bytes.length ≠ 1 then .error .rb_eArgError
        else .ok { opts with delimiter := bytes.headD 0 }
    | _ => .error .rb_eTypeError

/-- The `quote_char` block of `zsv_options_parse`. -/
def parse_quote_char (kv : List (Scalar × VALUE)) (opts : zsv_ruby_options_t) :
    Except Raised zsv_ruby_options_t :=
  let quote_char := get_option kv id_quote_char Qnil
  if NIL_P quote_char then .ok opts
  else
    match quote_char with
    | .scalar (.str bytes _) =>
        if bytes.length ≠ 1 then .error .rb_eArgError
        else .ok { opts with quote_char := bytes.headD 0 }
    | _ => .error .rb_eTypeError

/-- The `headers` block of `zsv_options_parse`. -/
def parse_headers (kv : List (Scalar × VALUE)) (opts : zsv_ruby_options_t) :
    zsv_ruby_options_t :=
  let headers := get_option kv id_headers Qfalse
  match headers with
  | .ary _ => { opts with headers := true, header_array := headers }
  | _ => { opts with headers := RTEST headers }

/-- The `skip_lines` block of `zsv_options_parse`. -/
def parse_skip_lines (kv : List (Scalar × VALUE)) (opts : zsv_ruby_options_t) :
    Except Raised zsv_ruby_options_t :=
  let skip_lines := get_option kv id_skip_lines (.scalar (.fixnum 0))
  match NUM2INT skip_lines with
  | .ok n => .ok { opts with skip_lines := n }
  | .error e => .error e

/-- The `liberal_parsing` block of `zsv_options_parse`. -/
def parse_liberal (kv : List (Scalar × VALUE)) (opts : zsv_ruby_options_t) :
    zsv_ruby_options_t :=
  let liberal := get_option kv id_liberal_parsing Qfalse
  { opts with liberal_parsing := RTEST liberal }

/-- The `encoding` block of `zsv_options_parse`. -/
def parse_encoding (host : Host) (kv : List (Scalar × VALUE)) (opts : zsv_ruby_options_t) :
    Except Raised zsv_ruby_options_t :=
  let encoding := get_option kv id_encoding Qnil
  if NIL_P encoding then .ok opts
  else
    match rb_to_encoding host encoding with
    | .ok e => .ok { opts with encoding := e }
    | .error e => .error e

/-- The `buffer_size` block of `zsv_options_parse`. -/
def parse_buffer_size (kv : List (Scalar × VALUE)) (opts : zsv_ruby_options_t) :
    Except Raised zsv_ruby_options_t :=
  let buffer_size := get_option kv id_buffer_size Qnil
  if NIL_P buffer_size then .ok opts
  else
    match NUM2SIZET buffer_size with
    | .ok n => .ok { opts with buffer_size := n }
    | .error e => .error e

/-- The function `zsv_options_parse`: defaults, then each option block in
source order; the first block that raises ends the resolution. -/
def zsv_options_parse (host : Host) (opts_hash : OptsHash) : Except Raised zsv_ruby_options_t :=
  match opts_hash with
  | .qnil => .ok zsv_options_init
  | .other => .error .rb_eTypeError
  | .hash kv =>
      match parse_col_sep kv zsv_options_init with
      | .error e => .error e
      | .ok o1 =>
        match parse_quote_char kv o1 with
        | .error e => .error e
        | .ok o2 =>
          match parse_skip_lines kv (parse_headers kv o2) with
          | .error e => .error e
          | .ok o3 =>
            match parse_encoding host kv (parse_liberal kv o3) with
            | .error e => .error e
            | .ok o4 => parse_buffer_size kv o4

/-! ## row.c -/

/-- The struct `zsv_row_builder_t`.  `cells` is the backing storage (all
`capacity` slots), `count` the number of cells of the current row.  The C
storage is not initialised; slots never written hold `qnil` here, and no
function reads a slot at or above `count`. -/
structure zsv_row_builder_t where
  cells : List Scalar
  count : Nat
  capacity : Nat
  headers : VALUE
  header_cache : List Scalar
  header_count : Nat
  encoding : rb_encoding
  deriving DecidableEq

def INITIAL_ROW_CAPACITY : Nat := 32

/-- The function `zsv_row_builder_new`. -/
def zsv_row_builder_new (encoding : rb_encoding) : zsv_row_builder_t :=
  { cells := List.replicate INITIAL_ROW_CAPACITY .qnil
    count := 0
    capacity := INITIAL_ROW_CAPACITY
    headers := Qnil
    header_cache := []
    header_count := 0
    encoding := encoding }

/-- The function `zsv_row_builder_reset`. -/
def zsv_row_builder_reset (builder : zsv_row_builder_t) : zsv_row_builder_t :=
  { builder with count := 0 }

/-- The loop `while (new_capacity < needed) new_capacity *= 2;`.  From a
positive capacity it ends within `needed` rounds, which is the fuel
`zsv_row_builder_ensure_capacity` gives it. -/
def double_capacity (fuel new_capacity needed : Nat) : Nat :=
  match fuel with
  | 0 => new_capacity
  | fuel + 1 =>
      if new_capacity < needed then double_capacity fuel (new_capacity * 2) needed
      else new_capacity

/-- The function `zsv_row_builder_ensure_capacity`; the reallocation keeps the
old slots and adds new ones. -/
def zsv_row_builder_ensure_capacity (builder : zsv_row_builder_t) (needed : Nat) :
    zsv_row_builder_t :=
  if needed ≤ builder.capacity then builder
  else
    let new_capacity := double_capacity needed builder.capacity needed
    { builder with
      cells := builder.cells ++ List.replicate (new_capacity - builder.cells.length) .qnil
      capacity := new_capacity }

/-- The function `zsv_row_builder_add_cell`: a frozen string with the
builder's encoding is stored in slot `count`. -/
def zsv_row_builder_add_cell (builder : zsv_row_builder_t) (data : List Nat) :
    zsv_row_builder_t :=
  let builder := zsv_row_builder_ensure_capacity builder (builder.count + 1)
  let str := Scalar.str data builder.encoding
  { builder with cells := builder.cells.set builder.count str, count := builder.count + 1 }

/-- The function `zsv_row_builder_to_array`. -/
def zsv_row_builder_to_array (builder : zsv_row_builder_t) : VALUE :=
  .ary (builder.cells.take builder.count)

/-- The first loop of `zsv_row_builder_to_hash`, `fuel` rounds from index
`i` on.  An index outside the header cache or the storage, which the loop
bounds exclude when `header_count` and `count` are in order, reads `qnil`. -/
def to_hash_matched (builder : zsv_row_builder_t) (hash : List (Scalar × Scalar))
    (fuel i : Nat) : List (Scalar × Scalar) :=
  match fuel with
  | 0 => hash
  | fuel + 1 =>
      to_hash_matched builder
        (rb_hash_aset hash (builder.header_cache.getD i .qnil) (builder.cells.getD i .qnil))
        fuel (i + 1)

/-- The second loop of `zsv_row_builder_to_hash`, `fuel` rounds from index
`i` on. -/
def to_hash_excess (builder : zsv_row_builder_t) (hash : List (Scalar × Scalar))
    (fuel i : Nat) : List (Scalar × Scalar) :=
  match fuel with
  | 0 => hash
  | fuel + 1 =>
      to_hash_excess builder
        (rb_hash_aset hash (SIZET2NUM i) (builder.cells.getD i .qnil))
        fuel (i + 1)

/-- The function `zsv_row_builder_to_hash`. -/
def zsv_row_builder_to_hash (builder : zsv_row_builder_t) : Except Raised VALUE :=
  if NIL_P builder.headers then .error .rb_eRuntimeError
  else
    let header_count := builder.header_count
    let cell_count := builder.count
    let hash : List (Scalar × Scalar) := []
    let matched := if cell_count < header_count then cell_count else header_count
    let hash := to_hash_matched builder hash matched 0
    let hash := to_hash_excess builder hash (cell_count - header_count) header_count
    .ok (.hash hash)

/-- The function `zsv_row_builder_set_headers`. -/
def zsv_row_builder_set_headers (builder : zsv_row_builder_t) (headers : VALUE) :
    Except Raised zsv_row_builder_t :=
  match headers with
  | .ary names =>
      .ok { builder with headers := headers, header_count := names.length, header_cache := names }
  | _ => .error .rb_eTypeError

/-! ## parser.c -/

/-- The struct `zsv_ruby_parser_t` of `parser.h`.  A `NULL` handle or stream
is `none`; `row_buffer` is the Ruby array of rows parsed and not yet
returned, front first. -/
structure zsv_ruby_parser_t where
  zsv : Option zsv_scanner
  file : Option FILE
  io : VALUE
  options : zsv_ruby_options_t
  row_builder : zsv_row_builder_t
  current_row : VALUE
  row_buffer : List VALUE
  headers : VALUE
  row_count : Nat
  lines_skipped : Nat
  header_row_processed : Bool
  closed : Bool
  eof_reached : Bool
  in_cleanup : Bool
  error_code : Int
  error_message : Option (List Nat)
  deriving DecidableEq

/-- The function `zsv_row_handler`, invoked by the tokenizer once per logical
row; `row` are the cells it exposes through `zsv_cell_count` and
`zsv_get_cell` during the call. -/
def zsv_row_handler (parser : zsv_ruby_parser_t) (row : zsv_row) :
    zsv_ruby_parser_t × Option Raised :=
  if parser.in_cleanup then (parser, none)
  else
    let builder := row.foldl zsv_row_builder_add_cell (zsv_row_builder_reset parser.row_builder)
    let parser := { parser with row_builder := builder }
    if parser.lines_skipped < size_t_of_int parser.options.skip_lines then
      ({ parser with lines_skipped := parser.lines_skipped + 1 }, none)
    else if parser.options.headers && NIL_P parser.options.header_array
        && !parser.header_row_processed then
      let headers := zsv_row_builder_to_array parser.row_builder
      match zsv_row_builder_set_headers parser.row_builder headers with
      | .error e => ({ parser with headers := headers }, some e)
      | .ok builder =>
          ({ parser with
              headers := headers, row_builder := builder, header_row_processed := true }, none)
    else if !NIL_P parser.headers then
      match zsv_row_builder_to_hash parser.row_builder with
      | .error e => (parser, some e)
      | .ok row =>
          ({ parser with
              row_buffer := parser.row_buffer ++ [row], row_count := parser.row_count + 1 }, none)
    else
      let row := zsv_row_builder_to_array parser.row_builder
      ({ parser with
          row_buffer := parser.row_buffer ++ [row], row_count := parser.row_count + 1 }, none)

/-- The row callback invoked for each row of a list in turn; a raise inside
the callback leaves the tokenizer and the remaining rows are not reported. -/
def run_callbacks (parser : zsv_ruby_parser_t) (rows : List zsv_row) :
    zsv_ruby_parser_t × Option Raised :=
  match rows with
  | [] => (parser, none)
  | row :: rest =>
      match zsv_row_handler parser row with
      | (parser, some e) => (parser, some e)
      | (parser, none) => run_callbacks parser rest

/-- The step the tokenizer takes at its next `zsv_parse_more`: the next
step of its script, and once the script is used up a step that reads
nothing, reports no row and returns "no more input". -/
def next_step (zsv : zsv_scanner) : zsv_step :=
  match zsv.script with
  | [] => { nread := 0, rows := [], status := .zsv_status_no_more_input, pending := zsv.pending }
  | step :: _ => step

/-- The handle after its next `zsv_parse_more`. -/
def scanner_advance (zsv : zsv_scanner) : zsv_scanner :=
  { zsv with
    script := zsv.script.tail
    pending := (next_step zsv).pending
    reported := zsv.reported ++ (next_step zsv).rows
    parse_calls := zsv.parse_calls + 1 }

/-- The handle after `zsv_finish`: the pending rows have been reported and
nothing is pending any more. -/
def scanner_finish (zsv : zsv_scanner) : zsv_scanner :=
  { zsv with
    pending := []
    reported := zsv.reported ++ zsv.pending
    finish_calls := zsv.finish_calls + 1 }

/-- The call `zsv_parse_more(parser->zsv)` on a live handle: the tokenizer
takes its next step, reading from the stream it shares with the engine, and
invokes the row callback for the rows of the step; the result is the state
of the engine, a raise out of the callback if any, and the status. -/
def zsv_parse_more (parser : zsv_ruby_parser_t) (zsv : zsv_scanner) :
    zsv_ruby_parser_t × Option Raised × zsv_status :=
  let step := next_step zsv
  let file := parser.file.map (fun f => { f with pos := f.pos + step.nread })
  let (parser, raised) :=
    run_callbacks { parser with zsv := some (scanner_advance zsv), file := file } step.rows
  (parser, raised, step.status)

/-- The call `zsv_finish(parser->zsv)` on a live handle: the rows still
pending are reported to the row callback. -/
def zsv_finish (parser : zsv_ruby_parser_t) (zsv : zsv_scanner) :
    zsv_ruby_parser_t × Option Raised :=
  run_callbacks { parser with zsv := some (scanner_finish zsv) } zsv.pending

/-- The function `zsv_parser_finish_safe`. -/
def zsv_parser_finish_safe (parser : zsv_ruby_parser_t) : zsv_ruby_parser_t × Option Raised :=
  match parser.zsv with
  | none => (parser, none)
  | some zsv => if !parser.in_cleanup then zsv_finish parser zsv else (parser, none)

/-- The function `zsv_parser_init_common`, on the zeroed struct whose `file`
(or `io`) the caller has set.  A raise aborts the construction. -/
def zsv_parser_init_common (host : Host) (parser : zsv_ruby_parser_t) (opts_hash : OptsHash) :
    Except Raised zsv_ruby_parser_t :=
  match zsv_options_parse host opts_hash with
  | .error e => .error e
  | .ok options =>
    let parser := { parser with
      options := options, row_builder := zsv_row_builder_new options.encoding }
    let zopts : zsv_opts := { delimiter := parser.options.delimiter }
    match parser.file with
    | none => .error .rb_eNotImpError
    | some file =>
      let parser := { parser with zsv := some (zsv_new host zopts file) }
      let installed : Except Raised zsv_ruby_parser_t :=
        if !NIL_P parser.options.header_array then
          match zsv_row_builder_set_headers parser.row_builder parser.options.header_array with
          | .error e => .error e
          | .ok builder =>
              .ok { parser with
                headers := parser.options.header_array
                row_builder := builder
                header_row_processed := true }
        else .ok { parser with headers := Qnil }
      match installed with
      | .error e => .error e
      | .ok parser =>
          .ok { parser with
            row_buffer := [], closed := false, eof_reached := false, in_cleanup := false
            current_row := Qnil }

/-- The struct right after `memset(parser, 0, sizeof(zsv_ruby_parser_t))`
(the all-zero `VALUE` is `Qfalse`); `options` and `row_builder` are written
by `zsv_parser_init_common` before they are read. -/
def zeroed_engine : zsv_ruby_parser_t :=
  { zsv := none, file := none, io := Qfalse
    options := zsv_options_init
    row_builder := zsv_row_builder_new rb_utf8_encoding
    current_row := Qfalse, row_buffer := [], headers := Qfalse
    row_count := 0, lines_skipped := 0, header_row_processed := false
    closed := false, eof_reached := false, in_cleanup := false
    error_code := 0, error_message := none }

/-- The function `zsv_parser_new_from_path`. -/
def zsv_parser_new_from_path (host : Host) (path : List Nat) (opts_hash : OptsHash) :
    Except Raised zsv_ruby_parser_t :=
  match host.fopen path with
  | none => .error .rb_eSystemCallError
  | some content =>
      zsv_parser_init_common host { zeroed_engine with file := some ⟨content, 0⟩ } opts_hash

/-- The function `zsv_parser_new_from_io`. -/
def zsv_parser_new_from_io (host : Host) (io : VALUE) (opts_hash : OptsHash) :
    Except Raised zsv_ruby_parser_t :=
  zsv_parser_init_common host { zeroed_engine with io := io } opts_hash

/-- The function `zsv_parser_new_from_string`; the memory stream over the
bytes of the string is taken to open. -/
def zsv_parser_new_from_string (host : Host) (string : VALUE) (opts_hash : OptsHash) :
    Except Raised zsv_ruby_parser_t :=
  match string with
  | .scalar (.str bytes _) =>
      zsv_parser_init_common host { zeroed_engine with file := some ⟨bytes, 0⟩ } opts_hash
  | _ => .error .rb_eTypeError

/-- The tail of `zsv_parser_shift`: the first buffered row, or `nil`. -/
def shift_front (parser : zsv_ruby_parser_t) : zsv_ruby_parser_t × Except Raised VALUE :=
  match parser.row_buffer with
  | row :: rest => ({ parser with row_buffer := rest }, .ok row)
  | [] => (parser, .ok Qnil)

/-- The part of `zsv_parser_shift` from `zsv_parse_more` on, for the live
handle `zsv`. -/
def shift_advance (parser : zsv_ruby_parser_t) (zsv : zsv_scanner) :
    zsv_ruby_parser_t × Except Raised VALUE :=
  match zsv_parse_more parser zsv with
  | (parser, some e, _) => (parser, .error e)
  | (parser, none, status) =>
    if status ≠ .zsv_status_ok ∧ status ≠ .zsv_status_no_more_input then
      (parser, .error .eMalformedCSVError)
    else if status = .zsv_status_no_more_input ∧ !parser.eof_reached then
      match zsv_parser_finish_safe parser with
      | (parser, some e) => (parser, .error e)
      | (parser, none) => shift_front { parser with eof_reached := true }
    else shift_front parser

/-- The function `zsv_parser_shift`.  With a `NULL` handle in an engine that
is not closed `zsv_parse_more` has no defined behaviour; the embedding
reports `RuntimeError` there (no constructor produces such an engine). -/
def zsv_parser_shift (parser : zsv_ruby_parser_t) : zsv_ruby_parser_t × Except Raised VALUE :=
  if parser.closed then (parser, .ok Qnil)
  else
    match parser.row_buffer with
    | row :: rest => ({ parser with row_buffer := rest }, .ok row)
    | [] =>
      if parser.eof_reached then (parser, .ok Qnil)
      else
        match parser.zsv with
        | none => (parser, .error .rb_eRuntimeError)
        | some zsv => shift_advance parser zsv

/-- The results of `n` successive calls of `zsv_parser_shift`, and the engine
after them. -/
def shift_n (n : Nat) (parser : zsv_ruby_parser_t) :
    List (Except Raised VALUE) × zsv_ruby_parser_t :=
  match n with
  | 0 => ([], parser)
  | n + 1 =>
      match zsv_parser_shift parser with
      | (parser, result) =>
          match shift_n n parser with
          | (results, parser) => (result :: results, parser)

/-- The rows among the results of shift calls: a raise and a `nil` deliver
no row. -/
def delivered (results : List (Except Raised VALUE)) : List VALUE :=
  results.filterMap (fun result =>
    match result with
    | .ok row => if NIL_P row then none else some row
    | .error _ => none)

/-- The loop of `zsv_parser_each`, at most `fuel` calls of
`zsv_parser_shift`: the rows yielded to the block, the engine afterwards, and
how the loop ended (`none`: out of fuel before `nil` was returned). -/
def each_loop (fuel : Nat) (parser : zsv_ruby_parser_t) (yielded : List VALUE) :
    List VALUE × zsv_ruby_parser_t × Option (Except Raised Unit) :=
  match fuel with
  | 0 => (yielded, parser, none)
  | fuel + 1 =>
      match zsv_parser_shift parser with
      | (parser, .error e) => (yielded, parser, some (.error e))
      | (parser, .ok row) =>
          if NIL_P row then (yielded, parser, some (.ok ()))
          else each_loop fuel parser (yielded ++ [row])

/-- The number of rows a handle can still report: those pending now, and for
each step to come its rows and what is pending after it. -/
def scanner_rows (zsv : Option zsv_scanner) : Nat :=
  match zsv with
  | none => 0
  | some zsv =>
      zsv.pending.length + (zsv.script.map (fun step => step.rows.length + step.pending.length)).sum

/-- A number of `zsv_parser_shift` calls within which `zsv_parser_each` has
ended: every call but the last returns a row, and each row returned was in
the buffer or is reported by the tokenizer later. -/
def each_fuel (parser : zsv_ruby_parser_t) : Nat :=
  parser.row_buffer.length + scanner_rows parser.zsv + 1

/-- The function `zsv_parser_each`. -/
def zsv_parser_each (parser : zsv_ruby_parser_t) :
    List VALUE × zsv_ruby_parser_t × Option (Except Raised Unit) :=
  each_loop (each_fuel parser) parser []

/-- The function `zsv_parser_rewind`. -/
def zsv_parser_rewind (host : Host) (parser : zsv_ruby_parser_t) :
    zsv_ruby_parser_t × Option Raised :=
  match parser.file with
  | none => (parser, some .rb_eIOError)
  | some file =>
    let file : FILE := { file with pos := 0 }
    let parser := { parser with file := some file }
    let finished : zsv_ruby_parser_t × Option Raised :=
      match parser.zsv with
      | none => (parser, none)
      | some zsv => zsv_finish parser zsv
    match finished with
    | (parser, some e) => (parser, some e)
    | (parser, none) =>
      let zopts : zsv_opts := { delimiter := parser.options.delimiter }
      ({ parser with
          zsv := some (zsv_new host zopts file)
          row_count := 0
          lines_skipped := 0
          header_row_processed := false
          eof_reached := false
          in_cleanup := false
          row_buffer := []
          current_row := Qnil }, none)

/-- The function `zsv_parser_close`. -/
def zsv_parser_close (parser : zsv_ruby_parser_t) : zsv_ruby_parser_t × Option Raised :=
  if parser.closed then (parser, none)
  else
    let parser := { parser with closed := true }
    let released : zsv_ruby_parser_t × Option Raised :=
      match parser.zsv with
      | none => (parser, none)
      | some _ =>
        match zsv_parser_finish_safe parser with
        | (parser, some e) => (parser, some e)
        | (parser, none) => ({ parser with in_cleanup := true, zsv := none }, none)
    match released with
    | (parser, some e) => (parser, some e)
    | (parser, none) => ({ parser with file := none }, none)

/-- The function `zsv_parser_headers`. -/
def zsv_parser_headers (parser : zsv_ruby_parser_t) : VALUE := parser.headers

/-- The function `zsv_parser_closed`. -/
def zsv_parser_closed (parser : zsv_ruby_parser_t) : Bool := parser.closed

/-- The function `zsv_parser_row_count`. -/
def zsv_parser_row_count (parser : zsv_ruby_parser_t) : Nat := parser.row_count

/-! ## Specification-side definitions -/

/-- The storage invariant of a row builder: `capacity` slots, at least one,
and the current row inside them. -/
def storage_ok (b : zsv_row_builder_t) : Prop :=
  b.cells.length = b.capacity ∧ 0 < b.capacity ∧ b.count ≤ b.capacity

instance (b : zsv_row_builder_t) : Decidable (storage_ok b) := by
  unfold storage_ok; infer_instance

/-- The cells of a row as Ruby strings tagged with an encoding. -/
def cells_of (enc : rb_encoding) (row : zsv_row) : List Scalar :=
  row.map (fun data => Scalar.str data enc)

/-- Filling a builder: `reset`, then one `add_cell` per cell of the row. -/
def fill_builder (b : zsv_row_builder_t) (row : zsv_row) : zsv_row_builder_t :=
  row.foldl zsv_row_builder_add_cell (zsv_row_builder_reset b)

/-- The entries of a Hash after inserting the pairs in order with `[]=`. -/
def hash_of_pairs (pairs : List (Scalar × Scalar)) : List (Scalar × Scalar) :=
  pairs.foldl (fun hash kv => rb_hash_aset hash kv.1 kv.2) []

/-- The cells from column `n` on, each under the Integer of its column. -/
def excess_pairs (n : Nat) (cells : List Scalar) : List (Scalar × Scalar) :=
  ((cells.drop n).enumFrom n).map (fun ic => (SIZET2NUM ic.1, ic.2))

/-- The mapping of a row: header names paired with the cells by column, then
the cells beyond the last header under their column number. -/
def row_to_hash (names cells : List Scalar) : VALUE :=
  .hash (hash_of_pairs (names.zip cells ++ excess_pairs names.length cells))

/-- The row builder invariant: storage in order, and the header cache holds
the names of the installed header array. -/
def builder_ok (b : zsv_row_builder_t) : Prop :=
  storage_ok b ∧ b.header_count = b.header_cache.length ∧
    (b.headers = Qnil ∨ b.headers = .ary b.header_cache)

instance (b : zsv_row_builder_t) : Decidable (builder_ok b) := by
  unfold builder_ok; infer_instance

/-- The configured skip count as the row callback compares it. -/
def skip_count (o : zsv_ruby_options_t) : Nat := size_t_of_int o.skip_lines

/-- The rows the engine is to deliver for the rows `R` the tokenizer has
reported: the first `skip_lines` rows are dropped; with an explicit header
list every further row becomes a mapping keyed by the list; with header mode
on the first further row is the header and the others become mappings keyed
by it; otherwise every further row becomes a sequence. -/
def expected_rows (o : zsv_ruby_options_t) (R : List zsv_row) : List VALUE :=
  let rows := R.drop (skip_count o)
  match o.header_array with
  | .ary names => rows.map (fun r => row_to_hash names (cells_of o.encoding r))
  | _ =>
    if o.headers then
      match rows with
      | [] => []
      | h :: rest =>
          rest.map (fun r => row_to_hash (cells_of o.encoding h) (cells_of o.encoding r))
    else rows.map (fun r => .ary (cells_of o.encoding r))

/-- The engine invariant between construction (or rewind) and close, for the
rows `R` reported to the row callback since then and the rows `d` already
returned by shift. -/
structure Track (R : List zsv_row) (d : List VALUE) (p : zsv_ruby_parser_t) : Prop where
  bok : builder_ok p.row_builder
  sync : p.row_builder.headers = p.headers
  enc : p.row_builder.encoding = p.options.encoding
  live : p.in_cleanup = false
  arr : p.options.header_array = Qnil ∨ ∃ names, p.options.header_array = .ary names
  skipped : p.lines_skipped = min (skip_count p.options) R.length
  hdr_explicit : ∀ names, p.options.header_array = .ary names → p.headers = .ary names
  hdr_on : p.options.header_array = Qnil → p.options.headers = true →
    p.header_row_processed = decide (skip_count p.options < R.length) ∧
    ∀ h rest, R.drop (skip_count p.options) = h :: rest →
      p.headers = .ary (cells_of p.options.encoding h)
  hdr_off : p.options.header_array = Qnil → p.options.headers = false → p.headers = Qnil
  out : d ++ p.row_buffer = expected_rows p.options R
  cnt : p.row_count = (expected_rows p.options R).length

/-- The fields of the engine the row callback never writes. -/
def same_control (p q : zsv_ruby_parser_t) : Prop :=
  q.zsv = p.zsv ∧ q.file = p.file ∧ q.io = p.io ∧ q.options = p.options ∧
  q.current_row = p.current_row ∧ q.closed = p.closed ∧ q.eof_reached = p.eof_reached ∧
  q.in_cleanup = p.in_cleanup ∧ q.error_code = p.error_code ∧
  q.error_message = p.error_message

/-- The fields of the engine that decide the control flow of shift. -/
def ctrl (p : zsv_ruby_parser_t) :
    Option zsv_scanner × Option FILE × zsv_ruby_options_t × Bool × Bool × Bool :=
  (p.zsv, p.file, p.options, p.closed, p.eof_reached, p.in_cleanup)

/-- Two open engines over the same tokenizer handle, stream and options that
both satisfy the engine invariant for the rows `d` already returned. -/
def Sim (d : List VALUE) (p q : zsv_ruby_parser_t) : Prop :=
  ctrl p = ctrl q ∧ p.closed = false ∧
    ∃ z, p.zsv = some z ∧ Track z.reported d p ∧ Track z.reported d q

/-- An open engine that satisfies the engine invariant for the rows `d`
already returned since construction or rewind. -/
def Open (d : List VALUE) (p : zsv_ruby_parser_t) : Prop := Sim d p p

/-- The options of an engine and the bytes of its stream. -/
def source (p : zsv_ruby_parser_t) : zsv_ruby_options_t × Option (List Nat) :=
  (p.options, p.file.map (fun f => f.content))

/-! ### Concrete inputs -/

/-- The bytes of an ASCII literal. -/
def ascii (s : String) : List Nat := s.toList.map Char.toNat

/-- A UTF-8 tagged Ruby string with the bytes of an ASCII literal. -/
def ustr (s : String) : Scalar := .str (ascii s) rb_utf8_encoding

/-- A tokenizer that reports all rows of a table in its first advance step
and nothing afterwards (the behaviour of zsv on an input smaller than its
read buffer that ends with a row terminator). -/
def one_chunk (rows : List zsv_row) : List zsv_step :=
  [{ nread := 0, rows := rows, status := .zsv_status_ok, pending := [] }]

/-- A host whose tokenizer reports the three rows `name,age`, `Ada,36`,
`Lin,29` in one chunk. -/
def people_host : Host :=
  { zsv_tokenize := fun _ _ =>
      one_chunk [[ascii "name", ascii "age"], [ascii "Ada", ascii "36"], [ascii "Lin", ascii "29"]]
    rb_enc_find := fun _ => none
    fopen := fun _ => none }

def people_source : VALUE := .scalar (ustr "name,age\nAda,36\nLin,29\n")

/-- The options `{headers: true}`. -/
def headers_true : OptsHash := .hash [(id_headers, Qtrue)]

/-- The engine `ZSV::Parser.new("name,age\nAda,36\nLin,29\n", headers: true)`. -/
def people_engine : zsv_ruby_parser_t :=
  match zsv_parser_new_from_string people_host people_source headers_true with
  | .ok p => p
  | .error _ => zeroed_engine

/-- The engine over `name,age / Ada,36 / Lin,29` closed after its first shift,
with the row of `Lin` still in its queue. -/
def closed_with_row : zsv_ruby_parser_t :=
  (zsv_parser_close (zsv_parser_shift people_engine).1).1

/-- A host whose tokenizer reports the row `a,b` and then fails with a status
that is neither "ok" nor "no more input". -/
def failing_host : Host :=
  { zsv_tokenize := fun _ _ =>
      [{ nread := 8, rows := [[ascii "a", ascii "b"]], status := .zsv_status_error 5,
         pending := [] }]
    rb_enc_find := fun _ => none
    fopen := fun _ => none }

/-- The engine `ZSV::Parser.new("a,b\n\"c,d", nil)` over `failing_host`. -/
def failing_engine : zsv_ruby_parser_t :=
  match zsv_parser_new_from_string failing_host (.scalar (ustr "a,b\n\"c,d")) .qnil with
  | .ok p => p
  | .error _ => zeroed_engine

/-- The tokenizer handle of `failing_engine`. -/
def failing_scanner : zsv_scanner :=
  zsv_new failing_host { delimiter := 44 } ⟨ascii "a,b\n\"c,d", 0⟩

/-- A row builder with the headers `["a","b"]` whose current row is
`["x","y","z"]`. -/
def abxyz_builder : zsv_row_builder_t :=
  match zsv_row_builder_set_headers
      (fill_builder (zsv_row_builder_new rb_utf8_encoding) [ascii "x", ascii "y", ascii "z"])
      (.ary [ustr "a", ustr "b"]) with
  | .ok b => b
  | .error _ => zsv_row_builder_new rb_utf8_encoding

/-- A host whose tokenizer reports the three rows `A,B`, `1,2`, `3,4` in one
chunk. -/
def ab_host : Host :=
  { zsv_tokenize := fun _ _ =>
      one_chunk [[ascii "A", ascii "B"], [ascii "1", ascii "2"], [ascii "3", ascii "4"]]
    rb_enc_find := fun _ => none
    fopen := fun _ => none }

/-- The engine `ZSV::Parser.new("A,B\n1,2\n3,4\n", skip_lines: 1, headers: true)`. -/
def ab_engine : zsv_ruby_parser_t :=
  match zsv_parser_new_from_string ab_host (.scalar (ustr "A,B\n1,2\n3,4\n"))
      (.hash [(id_skip_lines, .scalar (.fixnum 1)), (id_headers, Qtrue)]) with
  | .ok p => p
  | .error _ => zeroed_engine

/-- A host whose tokenizer reports the header row `a` and the longer row
`x,y` in one chunk. -/
def ragged_host : Host :=
  { zsv_tokenize := fun _ _ => one_chunk [[ascii "a"], [ascii "x", ascii "y"]]
    rb_enc_find := fun _ => none
    fopen := fun _ => none }

/-- The engine `ZSV::Parser.new("a\nx,y\n", headers: true)`. -/
def ragged_engine : zsv_ruby_parser_t :=
  match zsv_parser_new_from_string ragged_host (.scalar (ustr "a\nx,y\n")) headers_true with
  | .ok p => p
  | .error _ => zeroed_engine

/-- A host whose tokenizer reports the header row `name,age` in its first
advance step and the rows `Ada,36`, `Lin,29` in its second, both with status
"ok". -/
def chunked_host : Host :=
  { zsv_tokenize := fun _ _ =>
      [ { nread := 9, rows := [[ascii "name", ascii "age"]], status := .zsv_status_ok,
          pending := [] },
        { nread := 14, rows := [[ascii "Ada", ascii "36"], [ascii "Lin", ascii "29"]],
          status := .zsv_status_ok, pending := [] } ]
    rb_enc_find := fun _ => none
    fopen := fun _ => none }

/-- The engine over `chunked_host` with `headers: true`. -/
def chunked_engine : zsv_ruby_parser_t :=
  match zsv_parser_new_from_string chunked_host people_source headers_true with
  | .ok p => p
  | .error _ => zeroed_engine

/-- A host whose tokenizer reports no row in its first advance step (status
"ok") and the row `a,b` in its second. -/
def slow_host : Host :=
  { zsv_tokenize := fun _ _ =>
      [ { nread := 2, rows := [], status := .zsv_status_ok, pending := [] },
        { nread := 2, rows := [[ascii "a", ascii "b"]], status := .zsv_status_ok,
          pending := [] } ]
    rb_enc_find := fun _ => none
    fopen := fun _ => none }

/-- The engine over `slow_host` without options. -/
def slow_engine : zsv_ruby_parser_t :=
  match zsv_parser_new_from_string slow_host (.scalar (ustr "a,b\n")) .qnil with
  | .ok p => p
  | .error _ => zeroed_engine

/-- The rows an engine still has to hand out or may still receive: the length
of its queue and what its tokenizer handle can still report. -/
def pending_work (p : zsv_ruby_parser_t) : Nat :=
  p.row_buffer.length + scanner_rows p.zsv

/-! ### Options, field by field -/

/-- The value a one-byte option (`col_sep`, `quote_char`) resolves to from
what the options hash holds under its key: the default when absent, the byte
of a one-byte string, `ArgumentError` for another length, `TypeError` for
another object. -/
def resolve_byte (v : VALUE) (default_byte : Nat) : Except Raised Nat :=
  if NIL_P v then .ok default_byte
  else
    match v with
    | .scalar (.str bytes _) =>
        if bytes.length ≠ 1 then .error .rb_eArgError else .ok (bytes.headD 0)
    | _ => .error .rb_eTypeError

/-- The header flag and the explicit header array the `headers` option
resolves to. -/
def resolve_headers (v : VALUE) : Bool × VALUE :=
  match v with
  | .ary _ => (true, v)
  | _ => (RTEST v, Qnil)

/-- The value the `skip_lines` option resolves to. -/
def resolve_skip_lines (v : VALUE) : Except Raised Int :=
  NUM2INT (if NIL_P v then .scalar (.fixnum 0) else v)

/-- The value the `liberal_parsing` option resolves to. -/
def resolve_liberal (v : VALUE) : Bool := RTEST v

/-- The value the `encoding` option resolves to. -/
def resolve_encoding (host : Host) (v : VALUE) : Except Raised rb_encoding :=
  if NIL_P v then .ok rb_utf8_encoding else rb_to_encoding host v

/-- The value the `buffer_size` option resolves to. -/
def resolve_buffer_size (v : VALUE) : Except Raised Nat :=
  if NIL_P v then .ok (256 * 1024) else NUM2SIZET v

/-! ### Concrete inputs for the row builder and the row queue -/

/-- A row builder with the headers `["a","b","c"]` whose current row is
`["x"]`. -/
def abc_x_builder : zsv_row_builder_t :=
  match zsv_row_builder_set_headers (zsv_row_builder_new rb_utf8_encoding)
      (.ary [ustr "a", ustr "b", ustr "c"]) with
  | .ok b => fill_builder b [ascii "x"]
  | .error _ => zsv_row_builder_new rb_utf8_encoding

/-- A row of 33 cells, one more than the initial capacity of a row builder. -/
def wide_row : zsv_row := List.replicate 33 (ascii "w")

/-- The engine `ZSV::Parser.new("name,age\nAda,36\nLin,29\n")` without
options. -/
def people_plain_engine : zsv_ruby_parser_t :=
  match zsv_parser_new_from_string people_host people_source .qnil with
  | .ok p => p
  | .error _ => zeroed_engine

/-- The engine `people_plain_engine` after its first shift: the rows of `Ada`
and `Lin` are in its queue. -/
def people_queued_engine : zsv_ruby_parser_t := (zsv_parser_shift people_plain_engine).1

/-! ### Header modes -/

/-- The three header modes of the specification. -/
inductive header_mode
  | off
  | on
  | explicit (names : List Scalar)
  deriving DecidableEq

/-- The header mode of resolved options as the engine reads them: an explicit
list when `header_array` holds an Array (the engine installs it at
construction), otherwise on or off by the flag `headers`. -/
def header_mode_of (o : zsv_ruby_options_t) : header_mode :=
  match o.header_array with
  | .ary names => .explicit names
  | _ => if o.headers then .on else .off

/-- The engine
`ZSV::Parser.new("name,age\nAda,36\nLin,29\n", headers: ["n", "a"])`. -/
def people_named_engine : zsv_ruby_parser_t :=
  match zsv_parser_new_from_string people_host people_source
      (.hash [(id_headers, .ary [ustr "n", ustr "a"])]) with
  | .ok p => p
  | .error _ => zeroed_engine

/-! ### Options the engine resolves and never reads -/

/-- An engine with other values in the option fields `quote_char` and
`liberal_parsing`, everything else alike. -/
def with_quoting (q : Nat) (l : Bool) (p : zsv_ruby_parser_t) : zsv_ruby_parser_t :=
  { p with options := { p.options with quote_char := q, liberal_parsing := l } }

/-- The engine `ZSV::Parser.new("a,b\n\"c,d", liberal_parsing: true)` over
`failing_host`. -/
def liberal_engine : zsv_ruby_parser_t :=
  match zsv_parser_new_from_string failing_host (.scalar (ustr "a,b\n\"c,d"))
      (.hash [(id_liberal_parsing, Qtrue)]) with
  | .ok p => p
  | .error _ => zeroed_engine

/-- A host whose tokenizer splits the line `'a,b'` at the comma, the
apostrophe being an ordinary byte for it, and reports the row `'a`, `b'`. -/
def apostrophe_host : Host :=
  { zsv_tokenize := fun _ _ => one_chunk [[ascii "'a", ascii "b'"]]
    rb_enc_find := fun _ => none
    fopen := fun _ => none }

/-- The engine `ZSV::Parser.new("'a,b'\n", quote_char: "'")` over
`apostrophe_host`. -/
def apostrophe_engine : zsv_ruby_parser_t :=
  match zsv_parser_new_from_string apostrophe_host (.scalar (ustr "'a,b'\n"))
      (.hash [(id_quote_char, .scalar (ustr "'"))]) with
  | .ok p => p
  | .error _ => zeroed_engine

/-- The engine `ZSV::Parser.new("'a,b'\n", {})` over `apostrophe_host`. -/
def apostrophe_default_engine : zsv_ruby_parser_t :=
  match zsv_parser_new_from_string apostrophe_host (.scalar (ustr "'a,b'\n")) (.hash []) with
  | .ok p => p
  | .error _ => zeroed_engine

/-! ### Sequences of calls on a row builder -/

/-- A call on a row builder that touches its storage. -/
inductive builder_call
  | reset
  | add_cell (data : List Nat)
  deriving DecidableEq

/-- The builder after one call. -/
def apply_builder_call (b : zsv_row_builder_t) (c : builder_call) : zsv_row_builder_t :=
  match c with
  | .reset => zsv_row_builder_reset b
  | .add_cell data => zsv_row_builder_add_cell b data

/-- The builder after a sequence of calls, first call first. -/
def apply_builder_calls (b : zsv_row_builder_t) (calls : List builder_call) :
    zsv_row_builder_t :=
  calls.foldl apply_builder_call b

/-! ### Concrete input: a last row without terminator -/

/-- A host whose tokenizer, on the input `a,b` / `c,d` without a final line
end, reports the row `a,b` in its first advance step and holds the row `c,d`
for the finish step. -/
def unterminated_host : Host :=
  { zsv_tokenize := fun _ _ =>
      [{ nread := 7, rows := [[ascii "a", ascii "b"]], status := .zsv_status_ok,
         pending := [[ascii "c", ascii "d"]] }]
    rb_enc_find := fun _ => none
    fopen := fun _ => none }

/-- The engine `ZSV::Parser.new("a,b\nc,d")` over `unterminated_host`. -/
def unterminated_engine : zsv_ruby_parser_t :=
  match zsv_parser_new_from_string unterminated_host (.scalar (ustr "a,b\nc,d")) .qnil with
  | .ok p => p
  | .error _ => zeroed_engine

/-- The tokenizer handle of `unterminated_engine` after its first advance
step. -/
def unterminated_scanner : zsv_scanner :=
  scanner_advance (zsv_new unterminated_host { delimiter := 44 } ⟨ascii "a,b\nc,d", 0⟩)

/-! ### Sequences of calls on an engine -/

/-- The calls of the public interface that act on a constructed engine. -/
inductive engine_call
  | shift
  | each
  | rewind
  | close
  deriving DecidableEq

/-- The engine after one call, whether the call returned or raised. -/
def apply_call (host : Host) (p : zsv_ruby_parser_t) (c : engine_call) : zsv_ruby_parser_t :=
  match c with
  | .shift => (zsv_parser_shift p).1
  | .each => (zsv_parser_each p).2.1
  | .rewind => (zsv_parser_rewind host p).1
  | .close => (zsv_parser_close p).1

/-- The engine after a sequence of calls, first call first. -/
def apply_calls (host : Host) (p : zsv_ruby_parser_t) (calls : List engine_call) :
    zsv_ruby_parser_t :=
  calls.foldl (apply_call host) p

/-- A closed engine that has released its tokenizer handle and its stream. -/
def Released (p : zsv_ruby_parser_t) : Prop :=
  p.closed = true ∧ p.zsv = none ∧ p.file = none ∧ p.in_cleanup = true

/-- The states of an engine between calls: open and in order, or closed and
released. -/
def Settled (p : zsv_ruby_parser_t) : Prop := (∃ d, Open d p) ∨ Released p

/-! ### Headers before a header row is captured -/

/-- Between two states of an engine no header row was captured: if the
header-processed flag is off in the later state `q`, it was off in the earlier
state `p` and the headers are the same. -/
def header_kept (p q : zsv_ruby_parser_t) : Prop :=
  q.header_row_processed = false → q.headers = p.headers ∧ p.header_row_processed = false

/-- The engine `ZSV::Parser.new("name,age\nAda,36\nLin,29\n", skip_lines: -1, headers: true)`. -/
def people_minus_one_engine : zsv_ruby_parser_t :=
  match zsv_parser_new_from_string people_host people_source
      (.hash [(id_skip_lines, .scalar (.fixnum (-1))), (id_headers, Qtrue)]) with
  | .ok p => p
  | .error _ => zeroed_engine

/-- The tokenizer handle of an engine over `people_host` after its first
advance step. -/
def people_scanner : zsv_scanner :=
  scanner_advance
    (zsv_new people_host { delimiter := 44 } ⟨ascii "name,age\nAda,36\nLin,29\n", 0⟩)

/-- The engine `ZSV::Parser.new("a\nx,y\n", headers: ["a"])` over
`ragged_host`, whose tokenizer reports the rows `a` and `x,y`. -/
def ragged_named_engine : zsv_ruby_parser_t :=
  match zsv_parser_new_from_string ragged_host (.scalar (ustr "a\nx,y\n"))
      (.hash [(id_headers, .ary [ustr "a"])]) with
  | .ok p => p
  | .error _ => zeroed_engine

/-! ## Lemmas -/

theorem double_capacity_ge (needed : Nat) :
    ∀ (fuel c : Nat), needed ≤ c * 2 ^ fuel →
      needed ≤ double_capacity fuel c needed ∧ c ≤ double_capacity fuel c needed := by
  intro fuel
  induction fuel with
  | zero => intro c h; simpa [double_capacity] using h
  | succ n ih =>
    intro c h
    unfold double_capacity
    split
    · have h2 : needed ≤ (c * 2) * 2 ^ n := by
        rw [pow_succ] at h; nlinarith
      obtain ⟨h3, h4⟩ := ih (c * 2) h2
      exact ⟨h3, by omega⟩
    · exact ⟨by omega, le_refl _⟩

theorem ensure_capacity_spec (b : zsv_row_builder_t) (needed : Nat) (h : storage_ok b) :
    ∃ pad : List Scalar,
      zsv_row_builder_ensure_capacity b needed
        = { b with cells := b.cells ++ pad, capacity := b.capacity + pad.length } ∧
      needed ≤ b.capacity + pad.length := by
  obtain ⟨hlen, hpos, hcnt⟩ := h
  unfold zsv_row_builder_ensure_capacity
  split
  · exact ⟨[], by simp, by simpa using ‹needed ≤ b.capacity›⟩
  · have hge : needed ≤ b.capacity * 2 ^ needed := by
      have : needed < 2 ^ needed := Nat.lt_two_pow needed
      nlinarith
    obtain ⟨h1, h2⟩ := double_capacity_ge needed needed b.capacity hge
    refine ⟨List.replicate (double_capacity needed b.capacity needed - b.cells.length) .qnil, ?_, ?_⟩
    · simp only [List.length_replicate]
      rw [hlen]
      congr 1
      omega
    · simp only [List.length_replicate]; omega

theorem take_set_succ {α : Type} (x : α) :
    ∀ (l : List α) (n : Nat), n < l.length → (l.set n x).take (n + 1) = l.take n ++ [x] := by
  intro l
  induction l with
  | nil => intro n h; simp at h
  | cons a t ih =>
    intro n h
    cases n with
    | zero => simp
    | succ m =>
      simp only [List.set_cons_succ, List.take_succ_cons, List.cons_append, List.cons.injEq, true_and]
      exact ih m (by simpa using h)

theorem add_cell_spec (b : zsv_row_builder_t) (data : List Nat) (h : storage_ok b) :
    ∃ cells cap,
      zsv_row_builder_add_cell b data = { b with cells := cells, capacity := cap, count := b.count + 1 } ∧
      storage_ok { b with cells := cells, capacity := cap, count := b.count + 1 } ∧
      cells.take (b.count + 1) = b.cells.take b.count ++ [Scalar.str data b.encoding] := by
  obtain ⟨pad, he, hn⟩ := ensure_capacity_spec b (b.count + 1) h
  obtain ⟨hlen, hpos, hcnt⟩ := h
  refine ⟨(b.cells ++ pad).set b.count (Scalar.str data b.encoding), b.capacity + pad.length, ?_, ?_, ?_⟩
  · unfold zsv_row_builder_add_cell
    rw [he]
  · refine ⟨?_, ?_, ?_⟩
    · simp [hlen]
    · simp; omega
    · simpa using hn
  · rw [take_set_succ _ _ _ (by simp; omega)]
    rw [List.take_append_of_le_length (by omega)]

theorem foldl_add_cell_spec (row : zsv_row) :
    ∀ (b : zsv_row_builder_t), storage_ok b →
      ∃ cells cap,
        row.foldl zsv_row_builder_add_cell b
          = { b with cells := cells, capacity := cap, count := b.count + row.length } ∧
        storage_ok { b with cells := cells, capacity := cap, count := b.count + row.length } ∧
        cells.take (b.count + row.length) = b.cells.take b.count ++ cells_of b.encoding row := by
  induction row with
  | nil =>
    intro b h
    exact ⟨b.cells, b.capacity, by simp, by simpa using h, by simp [cells_of]⟩
  | cons d rest ih =>
    intro b h
    obtain ⟨c1, k1, e1, ok1, t1⟩ := add_cell_spec b d h
    obtain ⟨c2, k2, e2, ok2, t2⟩ := ih _ ok1
    refine ⟨c2, k2, ?_, ?_, ?_⟩
    · rw [List.foldl_cons, e1, e2]
      simp [Nat.add_assoc, Nat.add_comm 1]
    · simpa [Nat.add_assoc, Nat.add_comm 1] using ok2
    · simp only [List.length_cons]
      have : b.count + (rest.length + 1) = b.count + 1 + rest.length := by omega
      rw [this]
      simp only at t2
      rw [t2, t1]
      simp [cells_of]

theorem fill_builder_spec (b : zsv_row_builder_t) (row : zsv_row) (h : storage_ok b) :
    ∃ cells cap,
      fill_builder b row = { b with cells := cells, capacity := cap, count := row.length } ∧
      storage_ok { b with cells := cells, capacity := cap, count := row.length } ∧
      cells.take row.length = cells_of b.encoding row := by
  have h0 : storage_ok (zsv_row_builder_reset b) := by
    obtain ⟨h1, h2, _⟩ := h
    exact ⟨h1, h2, Nat.zero_le _⟩
  obtain ⟨c, k, e, ok, t⟩ := foldl_add_cell_spec row _ h0
  refine ⟨c, k, ?_, ?_, ?_⟩
  · unfold fill_builder
    rw [e]
    simp [zsv_row_builder_reset]
  · simpa [zsv_row_builder_reset] using ok
  · simpa [zsv_row_builder_reset] using t

theorem to_hash_matched_eq (b : zsv_row_builder_t) :
    ∀ (fuel i : Nat) (hash : List (Scalar × Scalar)),
      i + fuel ≤ b.header_cache.length → i + fuel ≤ b.cells.length →
      to_hash_matched b hash fuel i
        = (((b.header_cache.drop i).zip (b.cells.drop i)).take fuel).foldl
            (fun hash kv => rb_hash_aset hash kv.1 kv.2) hash := by
  intro fuel
  induction fuel with
  | zero => intro i hash _ _; simp [to_hash_matched]
  | succ n ih =>
    intro i hash h1 h2
    have hi1 : i < b.header_cache.length := by omega
    have hi2 : i < b.cells.length := by omega
    rw [to_hash_matched, ih (i + 1) _ (by omega) (by omega)]
    rw [List.drop_eq_getElem_cons hi1, List.drop_eq_getElem_cons hi2, List.zip_cons_cons,
      List.take_succ_cons, List.foldl_cons, List.getD_eq_getElem _ _ hi1,
      List.getD_eq_getElem _ _ hi2]

theorem to_hash_excess_eq (b : zsv_row_builder_t) :
    ∀ (fuel i : Nat) (hash : List (Scalar × Scalar)),
      i + fuel ≤ b.cells.length →
      to_hash_excess b hash fuel i
        = ((((b.cells.drop i).take fuel).enumFrom i).map (fun ic => (SIZET2NUM ic.1, ic.2))).foldl
            (fun hash kv => rb_hash_aset hash kv.1 kv.2) hash := by
  intro fuel
  induction fuel with
  | zero => intro i hash _; simp [to_hash_excess]
  | succ n ih =>
    intro i hash h
    have hi : i < b.cells.length := by omega
    rw [to_hash_excess, ih (i + 1) _ (by omega)]
    rw [List.drop_eq_getElem_cons hi, List.take_succ_cons, List.enumFrom_cons, List.map_cons,
      List.foldl_cons, List.getD_eq_getElem _ _ hi]

theorem zip_take_right {α β : Type} :
    ∀ (l1 : List α) (l2 : List β) (n : Nat), l1.zip (l2.take n) = (l1.zip l2).take n := by
  intro l1
  induction l1 with
  | nil => intro l2 n; simp
  | cons a t ih =>
    intro l2 n
    cases l2 with
    | nil => simp
    | cons c u =>
      cases n with
      | zero => simp
      | succ m => simp [ih]

/-- The mapping conversion on a builder whose header cache has
`header_count` names and whose current row lies inside the storage. -/
theorem to_hash_spec (b : zsv_row_builder_t) (hh : NIL_P b.headers = false)
    (hc : b.header_count = b.header_cache.length) (hn : b.count ≤ b.cells.length) :
    zsv_row_builder_to_hash b = .ok (row_to_hash b.header_cache (b.cells.take b.count)) := by
  unfold zsv_row_builder_to_hash
  simp only [hh, Bool.false_eq_true, if_false, row_to_hash, hash_of_pairs, List.foldl_append]
  congr 2
  have hm : (((b.header_cache.drop 0).zip (b.cells.drop 0)).take
      (if b.count < b.header_count then b.count else b.header_count))
      = b.header_cache.zip (b.cells.take b.count) := by
    rw [zip_take_right]
    simp only [List.drop_zero]
    rw [List.take_eq_take]
    simp only [List.length_zip]
    split <;> omega
  have he : to_hash_excess b
      (to_hash_matched b [] (if b.count < b.header_count then b.count else b.header_count) 0)
      (b.count - b.header_count) b.header_count
      = (excess_pairs b.header_cache.length (b.cells.take b.count)).foldl
          (fun hash kv => rb_hash_aset hash kv.1 kv.2)
          (to_hash_matched b [] (if b.count < b.header_count then b.count else b.header_count) 0) := by
    by_cases hlt : b.header_count ≤ b.count
    · rw [to_hash_excess_eq b _ _ _ (by omega)]
      unfold excess_pairs
      rw [List.drop_take, hc]
    · have h0 : b.count - b.header_count = 0 := by omega
      rw [h0]
      unfold excess_pairs
      have : List.drop b.header_cache.length (List.take b.count b.cells) = [] := by
        apply List.drop_eq_nil_of_le
        simp only [List.length_take]
        omega
      rw [this]
      simp [to_hash_excess]
  rw [he, to_hash_matched_eq b _ 0 [] (by split <;> omega) (by split <;> omega), hm]

theorem handler_cleanup (p : zsv_ruby_parser_t) (r : zsv_row) (hl : p.in_cleanup = true) :
    zsv_row_handler p r = (p, none) := by
  simp [zsv_row_handler, hl]

theorem handler_skip (p : zsv_ruby_parser_t) (r : zsv_row) (hl : p.in_cleanup = false)
    (hs : p.lines_skipped < skip_count p.options) :
    zsv_row_handler p r
      = ({ p with row_builder := fill_builder p.row_builder r,
                  lines_skipped := p.lines_skipped + 1 }, none) := by
  unfold skip_count at hs
  simp [zsv_row_handler, hl, hs, fill_builder]

theorem handler_capture (p : zsv_ruby_parser_t) (r : zsv_row) (hl : p.in_cleanup = false)
    (hs : ¬ p.lines_skipped < skip_count p.options) (hm : p.options.headers = true)
    (ha : p.options.header_array = Qnil) (hp : p.header_row_processed = false) :
    zsv_row_handler p r
      = ({ p with
            headers := zsv_row_builder_to_array (fill_builder p.row_builder r)
            row_builder :=
              { fill_builder p.row_builder r with
                headers := zsv_row_builder_to_array (fill_builder p.row_builder r)
                header_count := ((fill_builder p.row_builder r).cells.take
                  (fill_builder p.row_builder r).count).length
                header_cache := (fill_builder p.row_builder r).cells.take
                  (fill_builder p.row_builder r).count }
            header_row_processed := true }, none) := by
  unfold skip_count at hs
  simp [zsv_row_handler, hl, hs, hm, ha, hp, fill_builder, NIL_P, zsv_row_builder_to_array,
    zsv_row_builder_set_headers]

theorem handler_hash (p : zsv_ruby_parser_t) (r : zsv_row) (hl : p.in_cleanup = false)
    (hs : ¬ p.lines_skipped < skip_count p.options)
    (hc : (p.options.headers && NIL_P p.options.header_array && !p.header_row_processed) = false)
    (hh : NIL_P p.headers = false) (v : VALUE)
    (hv : zsv_row_builder_to_hash (fill_builder p.row_builder r) = .ok v) :
    zsv_row_handler p r
      = ({ p with row_builder := fill_builder p.row_builder r,
                  row_buffer := p.row_buffer ++ [v], row_count := p.row_count + 1 }, none) := by
  unfold skip_count at hs
  unfold fill_builder at hv
  simp [zsv_row_handler, hl, hs, hc, hh, fill_builder, hv]

theorem handler_array (p : zsv_ruby_parser_t) (r : zsv_row) (hl : p.in_cleanup = false)
    (hs : ¬ p.lines_skipped < skip_count p.options)
    (hc : (p.options.headers && NIL_P p.options.header_array && !p.header_row_processed) = false)
    (hh : NIL_P p.headers = true) :
    zsv_row_handler p r
      = ({ p with row_builder := fill_builder p.row_builder r,
                  row_buffer := p.row_buffer ++ [zsv_row_builder_to_array (fill_builder p.row_builder r)],
                  row_count := p.row_count + 1 }, none) := by
  unfold skip_count at hs
  simp [zsv_row_handler, hl, hs, hc, hh, fill_builder]

theorem same_control_refl (p : zsv_ruby_parser_t) : same_control p p := by
  simp [same_control]

theorem same_control_trans {p q r : zsv_ruby_parser_t} (h1 : same_control p q)
    (h2 : same_control q r) : same_control p r := by
  obtain ⟨a1, a2, a3, a4, a5, a6, a7, a8, a9, a10⟩ := h1
  obtain ⟨b1, b2, b3, b4, b5, b6, b7, b8, b9, b10⟩ := h2
  exact ⟨b1.trans a1, b2.trans a2, b3.trans a3, b4.trans a4, b5.trans a5, b6.trans a6,
    b7.trans a7, b8.trans a8, b9.trans a9, b10.trans a10⟩

theorem expected_rows_skip (o : zsv_ruby_options_t) (R : List zsv_row)
    (h : R.length ≤ skip_count o) : expected_rows o R = [] := by
  unfold expected_rows
  rw [List.drop_eq_nil_of_le h]
  split
  · simp
  · split <;> simp

theorem expected_rows_capture (o : zsv_ruby_options_t) (R : List zsv_row) (r : zsv_row)
    (ha : o.header_array = Qnil) (hm : o.headers = true) (h : R.length = skip_count o) :
    expected_rows o (R ++ [r]) = [] := by
  unfold expected_rows
  rw [List.drop_append_of_le_length (by omega), List.drop_eq_nil_of_le (by omega)]
  simp [ha, hm, Qnil]

theorem nil_p_ary (xs : List Scalar) : NIL_P (.ary xs) = false := by
  simp [NIL_P, Qnil]

theorem nil_p_eq_true {v : VALUE} : NIL_P v = true ↔ v = Qnil := by
  simp [NIL_P]

theorem nil_p_eq_false {v : VALUE} : NIL_P v = false ↔ v ≠ Qnil := by
  simp [NIL_P]

/-- One row callback under the invariant: no raise, and the invariant holds
for the reported rows extended by the row. -/
theorem handler_track (R : List zsv_row) (d : List VALUE) (p : zsv_ruby_parser_t)
    (r : zsv_row) (T : Track R d p) :
    ∃ q, zsv_row_handler p r = (q, none) ∧ Track (R ++ [r]) d q ∧ same_control p q := by
  obtain ⟨cells, cap, hfill, hst, htake⟩ := fill_builder_spec p.row_builder r T.bok.1
  have hbok := T.bok
  obtain ⟨hst0, hcnt0, hcache0⟩ := hbok
  by_cases hs : p.lines_skipped < skip_count p.options
  · -- the row is skipped
    have hlen : R.length < skip_count p.options := by
      have := T.skipped; omega
    refine ⟨_, handler_skip p r T.live hs, ?_, by simp [same_control]⟩
    have hE : expected_rows p.options (R ++ [r]) = expected_rows p.options R := by
      rw [expected_rows_skip _ _ (by simp; omega), expected_rows_skip _ _ (by omega)]
    refine ⟨?_, ?_, ?_, T.live, T.arr, ?_, T.hdr_explicit, ?_, T.hdr_off, ?_, ?_⟩
    · rw [hfill]; exact ⟨hst, hcnt0, hcache0⟩
    · rw [hfill]; exact T.sync
    · rw [hfill]; exact T.enc
    · have := T.skipped
      simp only [List.length_append, List.length_singleton]
      omega
    · intro ha hm
      obtain ⟨h1, _⟩ := T.hdr_on ha hm
      refine ⟨?_, ?_⟩
      · simp only [List.length_append, List.length_singleton]
        show p.header_row_processed = _
        rw [h1]
        simp only [decide_eq_decide]
        omega
      · intro h rest hd
        rw [List.drop_eq_nil_of_le (by simp; omega)] at hd
        cases hd
    · show d ++ p.row_buffer = _
      rw [hE]; exact T.out
    · show p.row_count = _
      rw [hE]; exact T.cnt
  · have hlen : skip_count p.options ≤ R.length := by
      have := T.skipped; omega
    have hskip : p.lines_skipped = skip_count p.options := by
      have := T.skipped; omega
    have hdrop : (R ++ [r]).drop (skip_count p.options)
        = R.drop (skip_count p.options) ++ [r] := List.drop_append_of_le_length hlen
    by_cases hc : (p.options.headers && NIL_P p.options.header_array
        && !p.header_row_processed) = true
    · -- the row is captured as the header row
      simp only [Bool.and_eq_true, Bool.not_eq_true', nil_p_eq_true] at hc
      obtain ⟨⟨hm, ha⟩, hp⟩ := hc
      obtain ⟨h1, _⟩ := T.hdr_on ha hm
      have hRK : R.length = skip_count p.options := by
        rw [hp] at h1
        have := of_decide_eq_false h1.symm
        omega
      refine ⟨_, handler_capture p r T.live hs hm ha hp, ?_, by simp [same_control]⟩
      have hE : expected_rows p.options (R ++ [r]) = expected_rows p.options R := by
        rw [expected_rows_capture _ _ _ ha hm hRK, expected_rows_skip _ _ (by omega)]
      have hcells : (fill_builder p.row_builder r).cells.take (fill_builder p.row_builder r).count
          = cells_of p.options.encoding r := by
        rw [hfill]; simp only; rw [htake, T.enc]
      refine ⟨?_, ?_, ?_, T.live, T.arr, ?_, ?_, ?_, ?_, ?_, ?_⟩
      · refine ⟨?_, rfl, Or.inr ?_⟩
        · rw [hfill]; exact hst
        · simp [zsv_row_builder_to_array]
      · rfl
      · show (fill_builder p.row_builder r).encoding = _
        rw [hfill]; exact T.enc
      · show p.lines_skipped = _
        simp only [List.length_append, List.length_singleton]
        omega
      · intro names hn
        rw [ha] at hn
        simp [Qnil] at hn
      · intro _ _
        refine ⟨?_, ?_⟩
        · simp only [List.length_append, List.length_singleton]
          show true = _
          symm
          simp only [decide_eq_true_eq]
          omega
        · intro h rest hd
          rw [hdrop, List.drop_eq_nil_of_le (by omega)] at hd
          simp only [List.nil_append, List.cons.injEq] at hd
          show zsv_row_builder_to_array (fill_builder p.row_builder r) = _
          unfold zsv_row_builder_to_array
          rw [hcells, hd.1]
      · intro _ hm2
        rw [hm] at hm2
        cases hm2
      · show d ++ p.row_buffer = _
        rw [hE]; exact T.out
      · show p.row_count = _
        rw [hE]; exact T.cnt
    · -- the row is a data row
      have hc' : (p.options.headers && NIL_P p.options.header_array
          && !p.header_row_processed) = false := by
        simpa using hc
      -- the value the row is exported as
      have hexp : ∃ v, expected_rows p.options (R ++ [r]) = expected_rows p.options R ++ [v] ∧
          ((NIL_P p.headers = false ∧
              zsv_row_builder_to_hash (fill_builder p.row_builder r) = .ok v) ∨
           (NIL_P p.headers = true ∧
              zsv_row_builder_to_array (fill_builder p.row_builder r) = v)) := by
        have hto_hash : NIL_P p.headers = false → ∀ names, p.headers = .ary names →
            zsv_row_builder_to_hash (fill_builder p.row_builder r)
              = .ok (row_to_hash names (cells_of p.options.encoding r)) := by
          intro hnil names hnames
          have hb : p.row_builder.headers = .ary names := by rw [T.sync, hnames]
          have hcache : p.row_builder.header_cache = names := by
            rcases hcache0 with h0 | h0
            · rw [h0] at hb; simp [Qnil] at hb
            · rw [h0] at hb; simpa using hb
          rw [hfill, to_hash_spec _ (by simp only; rw [T.sync]; exact hnil) (by simpa using hcnt0)
            (by simpa using (show r.length ≤ cells.length from by
              have := hst.1; have := hst.2.2; simp only at *; omega))]
          simp only
          rw [htake, hcache, T.enc]
        rcases T.arr with ha | ⟨names, ha⟩
        · by_cases hm : p.options.headers = true
          · -- header mode on, header already captured
            obtain ⟨h1, h2⟩ := T.hdr_on ha hm
            have hp : p.header_row_processed = true := by
              rw [hm, ha] at hc'
              simpa [NIL_P] using hc'
            have hlt : skip_count p.options < R.length := by
              rw [hp] at h1
              exact of_decide_eq_true h1.symm
            obtain ⟨h, rest, hd⟩ : ∃ h rest, R.drop (skip_count p.options) = h :: rest := by
              cases hd : R.drop (skip_count p.options) with
              | nil =>
                have := List.drop_eq_nil_iff.mp hd
                omega
              | cons h rest => exact ⟨h, rest, rfl⟩
            have hh := h2 h rest hd
            refine ⟨row_to_hash (cells_of p.options.encoding h) (cells_of p.options.encoding r),
              ?_, Or.inl ⟨by rw [hh]; exact nil_p_ary _, hto_hash (by rw [hh]; exact nil_p_ary _) _ hh⟩⟩
            unfold expected_rows
            simp only [hdrop, hd, ha, hm, Qnil, if_true, List.cons_append, List.map_append,
              List.map_cons, List.map_nil]
          · -- header mode off
            have hm' : p.options.headers = false := by simpa using hm
            have hh := T.hdr_off ha hm'
            refine ⟨.ary (cells_of p.options.encoding r), ?_, Or.inr ⟨by rw [hh]; rfl, ?_⟩⟩
            · unfold expected_rows
              simp only [hdrop, ha, hm', Qnil, Bool.false_eq_true, if_false, List.map_append,
                List.map_cons, List.map_nil]
            · unfold zsv_row_builder_to_array
              rw [hfill]; simp only; rw [htake, T.enc]
        · -- explicit header list
          have hh := T.hdr_explicit names ha
          refine ⟨row_to_hash names (cells_of p.options.encoding r), ?_,
            Or.inl ⟨by rw [hh]; exact nil_p_ary _, hto_hash (by rw [hh]; exact nil_p_ary _) _ hh⟩⟩
          unfold expected_rows
          simp only [hdrop, ha, List.map_append, List.map_cons, List.map_nil]
      obtain ⟨v, hE, hv⟩ := hexp
      have hT : ∀ q : zsv_ruby_parser_t,
          q = { p with row_builder := fill_builder p.row_builder r,
                       row_buffer := p.row_buffer ++ [v], row_count := p.row_count + 1 } →
          Track (R ++ [r]) d q ∧ same_control p q := by
        intro q hq
        subst hq
        refine ⟨⟨?_, ?_, ?_, T.live, T.arr, ?_, T.hdr_explicit, ?_, T.hdr_off, ?_, ?_⟩,
          by simp [same_control]⟩
        · rw [hfill]; exact ⟨hst, hcnt0, hcache0⟩
        · rw [hfill]; exact T.sync
        · rw [hfill]; exact T.enc
        · show p.lines_skipped = _
          simp only [List.length_append, List.length_singleton]
          omega
        · intro ha hm
          obtain ⟨h1, h2⟩ := T.hdr_on ha hm
          refine ⟨?_, ?_⟩
          · show p.header_row_processed = _
            have hp : p.header_row_processed = true := by
              rw [hm, ha] at hc'
              simpa [NIL_P] using hc'
            rw [hp]
            symm
            simp only [List.length_append, List.length_singleton, decide_eq_true_eq]
            rw [hp] at h1
            have := of_decide_eq_true h1.symm
            omega
          · intro h rest hd
            rw [hdrop] at hd
            cases hd0 : R.drop (skip_count p.options) with
            | nil =>
              have hp : p.header_row_processed = true := by
                rw [hm, ha] at hc'
                simpa [NIL_P] using hc'
              rw [hp] at h1
              have := of_decide_eq_true h1.symm
              have := List.drop_eq_nil_iff.mp hd0
              omega
            | cons h0 rest0 =>
              rw [hd0] at hd
              simp only [List.cons_append, List.cons.injEq] at hd
              rw [← hd.1]
              exact h2 h0 rest0 hd0
        · show d ++ (p.row_buffer ++ [v]) = _
          rw [hE, ← List.append_assoc, T.out]
        · show p.row_count + 1 = _
          rw [hE, T.cnt]; simp
      rcases hv with ⟨hnil, hv⟩ | ⟨hnil, hv⟩
      · exact ⟨_, handler_hash p r T.live hs hc' hnil v hv, hT _ rfl⟩
      · have := handler_array p r T.live hs hc' hnil
        rw [hv] at this
        exact ⟨_, this, hT _ rfl⟩

theorem run_callbacks_track (rows : List zsv_row) :
    ∀ (R : List zsv_row) (d : List VALUE) (p : zsv_ruby_parser_t), Track R d p →
      ∃ q, run_callbacks p rows = (q, none) ∧ Track (R ++ rows) d q ∧ same_control p q := by
  induction rows with
  | nil =>
    intro R d p T
    exact ⟨p, rfl, by simpa using T, same_control_refl p⟩
  | cons r rest ih =>
    intro R d p T
    obtain ⟨q1, h1, T1, c1⟩ := handler_track R d p r T
    obtain ⟨q2, h2, T2, c2⟩ := ih (R ++ [r]) d q1 T1
    refine ⟨q2, ?_, ?_, same_control_trans c1 c2⟩
    · rw [run_callbacks, h1]; exact h2
    · simpa using T2

theorem ctrl_of_same_control {p q : zsv_ruby_parser_t} (h : same_control p q) :
    ctrl q = ctrl p := by
  obtain ⟨a1, a2, _, a4, _, a6, a7, a8, _, _⟩ := h
  simp [ctrl, a1, a2, a4, a6, a7, a8]

theorem parse_more_track (R : List zsv_row) (d : List VALUE) (p : zsv_ruby_parser_t)
    (z : zsv_scanner) (T : Track R d p) :
    ∃ q, zsv_parse_more p z = (q, none, (next_step z).status) ∧
      Track (R ++ (next_step z).rows) d q ∧
      ctrl q = (some (scanner_advance z),
        p.file.map (fun f => { f with pos := f.pos + (next_step z).nread }),
        p.options, p.closed, p.eof_reached, p.in_cleanup) := by
  have T0 : Track R d { p with
      zsv := some (scanner_advance z)
      file := p.file.map (fun f => { f with pos := f.pos + (next_step z).nread }) } :=
    ⟨T.bok, T.sync, T.enc, T.live, T.arr, T.skipped, T.hdr_explicit, T.hdr_on, T.hdr_off,
      T.out, T.cnt⟩
  obtain ⟨q, h1, T1, c1⟩ := run_callbacks_track (next_step z).rows R d _ T0
  refine ⟨q, ?_, T1, ?_⟩
  · simp only [zsv_parse_more, h1]
  · rw [ctrl_of_same_control c1]; rfl

theorem finish_track (R : List zsv_row) (d : List VALUE) (p : zsv_ruby_parser_t)
    (z : zsv_scanner) (T : Track R d p) :
    ∃ q, zsv_finish p z = (q, none) ∧ Track (R ++ z.pending) d q ∧
      ctrl q = (some (scanner_finish z), p.file, p.options, p.closed, p.eof_reached,
        p.in_cleanup) := by
  have T0 : Track R d { p with zsv := some (scanner_finish z) } :=
    ⟨T.bok, T.sync, T.enc, T.live, T.arr, T.skipped, T.hdr_explicit, T.hdr_on, T.hdr_off,
      T.out, T.cnt⟩
  obtain ⟨q, h1, T1, c1⟩ := run_callbacks_track z.pending R d _ T0
  refine ⟨q, ?_, T1, ?_⟩
  · simp only [zsv_finish, h1]
  · rw [ctrl_of_same_control c1]; rfl

theorem expected_rows_not_nil (o : zsv_ruby_options_t) (R : List zsv_row) (v : VALUE)
    (h : v ∈ expected_rows o R) : NIL_P v = false := by
  unfold expected_rows at h
  simp only at h
  split at h
  · obtain ⟨r, _, rfl⟩ := List.mem_map.mp h
    simp [row_to_hash, NIL_P, Qnil]
  · split at h
    · split at h
      · simp at h
      · obtain ⟨r, _, rfl⟩ := List.mem_map.mp h
        simp [row_to_hash, NIL_P, Qnil]
    · obtain ⟨r, _, rfl⟩ := List.mem_map.mp h
      simp [NIL_P, Qnil]

theorem track_buffer_eq {R : List zsv_row} {d : List VALUE} {p q : zsv_ruby_parser_t}
    (ho : p.options = q.options) (Tp : Track R d p) (Tq : Track R d q) :
    p.row_buffer = q.row_buffer := by
  have h1 := Tp.out
  have h2 := Tq.out
  rw [ho, ← h2] at h1
  exact List.append_cancel_left h1

theorem delivered_ok_row (v : VALUE) (h : NIL_P v = false) : delivered [.ok v] = [v] := by
  simp [delivered, h]

theorem delivered_ok_nil : delivered [.ok Qnil] = [] := by
  simp [delivered, NIL_P]

theorem delivered_error (e : Raised) : delivered [.error e] = [] := by
  simp [delivered]

theorem delivered_cons (r : Except Raised VALUE) (rs : List (Except Raised VALUE)) :
    delivered (r :: rs) = delivered [r] ++ delivered rs := by
  unfold delivered
  rw [← List.filterMap_append]
  rfl

/-- The tail of shift on two engines in step. -/
theorem front_sim (d : List VALUE) (p q : zsv_ruby_parser_t) (S : Sim d p q) :
    ∃ p1 q1 res, shift_front p = (p1, res) ∧ shift_front q = (q1, res) ∧
      Sim (d ++ delivered [res]) p1 q1 ∧ ctrl p1 = ctrl p ∧ (∃ v, res = .ok v) := by
  obtain ⟨hc, hcl, z, hz, Tp, Tq⟩ := S
  have ho : p.options = q.options := by
    have := congrArg (fun c => c.2.2.1) hc
    simpa [ctrl] using this
  have hb := track_buffer_eq ho Tp Tq
  cases hrb : p.row_buffer with
  | nil =>
    refine ⟨p, q, .ok Qnil, ?_, ?_, ?_, rfl, ⟨_, rfl⟩⟩
    · simp [shift_front, hrb]
    · simp [shift_front, ← hb, hrb]
    · rw [delivered_ok_nil, List.append_nil]
      exact ⟨hc, hcl, z, hz, Tp, Tq⟩
  | cons row rest =>
    have hrq : q.row_buffer = row :: rest := by rw [← hb, hrb]
    have hmem : row ∈ expected_rows p.options z.reported := by
      rw [← Tp.out, hrb]; simp
    have hnil := expected_rows_not_nil _ _ _ hmem
    refine ⟨{ p with row_buffer := rest }, { q with row_buffer := rest }, .ok row, ?_, ?_, ?_,
      rfl, ⟨_, rfl⟩⟩
    · simp [shift_front, hrb]
    · simp [shift_front, hrq]
    · rw [delivered_ok_row _ hnil]
      refine ⟨?_, hcl, z, hz, ?_, ?_⟩
      · simpa [ctrl] using hc
      · refine ⟨Tp.bok, Tp.sync, Tp.enc, Tp.live, Tp.arr, Tp.skipped, Tp.hdr_explicit,
          Tp.hdr_on, Tp.hdr_off, ?_, Tp.cnt⟩
        show (d ++ [row]) ++ rest = _
        rw [← Tp.out, hrb]; simp
      · refine ⟨Tq.bok, Tq.sync, Tq.enc, Tq.live, Tq.arr, Tq.skipped, Tq.hdr_explicit,
          Tq.hdr_on, Tq.hdr_off, ?_, Tq.cnt⟩
        show (d ++ [row]) ++ rest = _
        rw [← Tq.out, hrq]; simp

theorem sim_options {d : List VALUE} {p q : zsv_ruby_parser_t} (S : Sim d p q) :
    p.options = q.options := by
  have := congrArg (fun c => c.2.2.1) S.1
  simpa [ctrl] using this

theorem sim_eof {d : List VALUE} {p q : zsv_ruby_parser_t} (S : Sim d p q) :
    p.eof_reached = q.eof_reached := by
  have := congrArg (fun c => c.2.2.2.2.1) S.1
  simpa [ctrl] using this

theorem sim_file {d : List VALUE} {p q : zsv_ruby_parser_t} (S : Sim d p q) :
    p.file = q.file := by
  have := congrArg (fun c => c.2.1) S.1
  simpa [ctrl] using this

theorem sim_zsv {d : List VALUE} {p q : zsv_ruby_parser_t} (S : Sim d p q) :
    p.zsv = q.zsv := by
  have := congrArg (fun c => c.1) S.1
  simpa [ctrl] using this

theorem sim_closed {d : List VALUE} {p q : zsv_ruby_parser_t} (S : Sim d p q) :
    q.closed = false := by
  have := congrArg (fun c => c.2.2.2.1) S.1
  simp only [ctrl] at this
  rw [← this]; exact S.2.1

theorem sim_cleanup {d : List VALUE} {p q : zsv_ruby_parser_t} (S : Sim d p q) :
    p.in_cleanup = q.in_cleanup := by
  have := congrArg (fun c => c.2.2.2.2.2) S.1
  simpa [ctrl] using this

/-- Setting the EOF flag on two engines in step keeps them in step. -/
theorem sim_set_eof {d : List VALUE} {p q : zsv_ruby_parser_t} (S : Sim d p q) :
    Sim d { p with eof_reached := true } { q with eof_reached := true } := by
  obtain ⟨hc, hcl, z, hz, Tp, Tq⟩ := S
  refine ⟨?_, hcl, z, hz, ?_, ?_⟩
  · simp only [ctrl, Prod.mk.injEq] at hc ⊢
    obtain ⟨a1, a2, a3, a4, _, a6⟩ := hc
    exact ⟨a1, a2, a3, a4, trivial, a6⟩
  · exact ⟨Tp.bok, Tp.sync, Tp.enc, Tp.live, Tp.arr, Tp.skipped, Tp.hdr_explicit, Tp.hdr_on,
      Tp.hdr_off, Tp.out, Tp.cnt⟩
  · exact ⟨Tq.bok, Tq.sync, Tq.enc, Tq.live, Tq.arr, Tq.skipped, Tq.hdr_explicit, Tq.hdr_on,
      Tq.hdr_off, Tq.out, Tq.cnt⟩

/-- The advance step of the tokenizer on two engines in step. -/
theorem parse_more_sim (d : List VALUE) (p q : zsv_ruby_parser_t) (z : zsv_scanner)
    (S : Sim d p q) (hz : p.zsv = some z) :
    ∃ p1 q1, zsv_parse_more p z = (p1, none, (next_step z).status) ∧
      zsv_parse_more q z = (q1, none, (next_step z).status) ∧ Sim d p1 q1 ∧
      ctrl p1 = (some (scanner_advance z),
        p.file.map (fun f => { f with pos := f.pos + (next_step z).nread }),
        p.options, p.closed, p.eof_reached, p.in_cleanup) := by
  have ho := sim_options S
  have he := sim_eof S
  have hf := sim_file S
  have hcq := sim_closed S
  have hi := sim_cleanup S
  obtain ⟨_, hcl, z0, hz0, Tp, Tq⟩ := S
  rw [hz] at hz0
  cases hz0
  obtain ⟨p1, h1, T1, c1⟩ := parse_more_track z.reported d p z Tp
  obtain ⟨q1, h2, T2, c2⟩ := parse_more_track z.reported d q z Tq
  refine ⟨p1, q1, h1, h2, ⟨?_, ?_, scanner_advance z, ?_, ?_, ?_⟩, c1⟩
  · rw [c1, c2, ho, he, hf, hi, hcl, hcq]
  · have := congrArg (fun c => c.2.2.2.1) c1
    simp only [ctrl] at this
    rw [this]; exact hcl
  · have := congrArg (fun c => c.1) c1
    simpa [ctrl] using this
  · simpa [scanner_advance] using T1
  · simpa [scanner_advance] using T2

/-- The finish step on two engines in step. -/
theorem finish_safe_sim (d : List VALUE) (p q : zsv_ruby_parser_t) (S : Sim d p q) :
    ∃ p1 q1 z, zsv_parser_finish_safe p = (p1, none) ∧ zsv_parser_finish_safe q = (q1, none) ∧
      Sim d p1 q1 ∧ p.zsv = some z ∧
      ctrl p1 = (some (scanner_finish z), p.file, p.options, p.closed, p.eof_reached,
        p.in_cleanup) := by
  have ho := sim_options S
  have he := sim_eof S
  have hf := sim_file S
  have hcq := sim_closed S
  have hi := sim_cleanup S
  have hzq := sim_zsv S
  obtain ⟨_, hcl, z, hz, Tp, Tq⟩ := S
  obtain ⟨p1, h1, T1, c1⟩ := finish_track z.reported d p z Tp
  obtain ⟨q1, h2, T2, c2⟩ := finish_track z.reported d q z Tq
  refine ⟨p1, q1, z, ?_, ?_, ⟨?_, ?_, scanner_finish z, ?_, ?_, ?_⟩, hz, c1⟩
  · simp [zsv_parser_finish_safe, hz, Tp.live, h1]
  · simp [zsv_parser_finish_safe, ← hzq, hz, Tq.live, h2]
  · rw [c1, c2, ho, he, hf, hi, hcl, hcq]
  · have := congrArg (fun c => c.2.2.2.1) c1
    simp only [ctrl] at this
    rw [this]; exact hcl
  · have := congrArg (fun c => c.1) c1
    simpa [ctrl] using this
  · simpa [scanner_finish] using T1
  · simpa [scanner_finish] using T2

theorem source_of_ctrl {p q : zsv_ruby_parser_t} (h : ctrl q = ctrl p) : source q = source p := by
  simp only [ctrl, Prod.mk.injEq] at h
  obtain ⟨_, a2, a3, _⟩ := h
  simp [source, a2, a3]

theorem source_of_advance {p q : zsv_ruby_parser_t} {z : Option zsv_scanner} {n : Nat}
    {c e i : Bool}
    (h : ctrl q = (z, p.file.map (fun f => { f with pos := f.pos + n }), p.options, c, e, i)) :
    source q = source p := by
  simp only [ctrl, Prod.mk.injEq] at h
  obtain ⟨_, a2, a3, _⟩ := h
  simp only [source, a2, a3, Option.map_map, Prod.mk.injEq, true_and]
  cases p.file <;> rfl

theorem source_of_finish {p q : zsv_ruby_parser_t} {z : Option zsv_scanner} {c e i : Bool}
    (h : ctrl q = (z, p.file, p.options, c, e, i)) : source q = source p := by
  simp only [ctrl, Prod.mk.injEq] at h
  obtain ⟨_, a2, a3, _⟩ := h
  simp [source, a2, a3]

/-- The part of shift that advances the tokenizer, on two engines in step:
the same result, and the engines are in step afterwards. -/
theorem advance_sim (d : List VALUE) (p q : zsv_ruby_parser_t) (z : zsv_scanner)
    (S : Sim d p q) (hz : p.zsv = some z) :
    ∃ p1 q1 res, shift_advance p z = (p1, res) ∧ shift_advance q z = (q1, res) ∧
      Sim (d ++ delivered [res]) p1 q1 ∧ source p1 = source p ∧
      (∀ e, res = .error e → e = .eMalformedCSVError) := by
  obtain ⟨p1, q1, h1, h2, S1, c1⟩ := parse_more_sim d p q z S hz
  have he1 := sim_eof S1
  have ho1 : source p1 = source p := source_of_advance c1
  by_cases hst : (next_step z).status ≠ .zsv_status_ok ∧
      (next_step z).status ≠ .zsv_status_no_more_input
  · refine ⟨p1, q1, .error .eMalformedCSVError, ?_, ?_, ?_, ho1, ?_⟩
    · unfold shift_advance; rw [h1]; simp only; rw [if_pos hst]
    · unfold shift_advance; rw [h2]; simp only; rw [if_pos hst]
    · rw [delivered_error, List.append_nil]; exact S1
    · intro e he; cases he; rfl
  · by_cases hfin : (next_step z).status = .zsv_status_no_more_input ∧ (!p1.eof_reached) = true
    · obtain ⟨p2, q2, z2, f1, f2, S2, _, c2⟩ := finish_safe_sim d p1 q1 S1
      have ho2 : source p2 = source p1 := source_of_finish c2
      obtain ⟨p3, q3, res, g1, g2, S3, c3, ⟨v, hv⟩⟩ := front_sim d _ _ (sim_set_eof S2)
      have hfin' : (next_step z).status = .zsv_status_no_more_input ∧
          (!q1.eof_reached) = true := by rw [← he1]; exact hfin
      refine ⟨p3, q3, res, ?_, ?_, S3, ?_, ?_⟩
      · unfold shift_advance; rw [h1]; simp only; rw [if_neg hst, if_pos hfin, f1]
        simp only; exact g1
      · unfold shift_advance; rw [h2]; simp only; rw [if_neg hst, if_pos hfin', f2]
        simp only; exact g2
      · have h3 : source p3 = source p2 := by
          have := source_of_ctrl c3
          simpa [source] using this
        rw [h3, ho2, ho1]
      · intro e he; rw [hv] at he; cases he
    · obtain ⟨p3, q3, res, g1, g2, S3, c3, ⟨v, hv⟩⟩ := front_sim d _ _ S1
      have hfin' : ¬ ((next_step z).status = .zsv_status_no_more_input ∧
          (!q1.eof_reached) = true) := by rw [← he1]; exact hfin
      refine ⟨p3, q3, res, ?_, ?_, S3, ?_, ?_⟩
      · unfold shift_advance; rw [h1]; simp only; rw [if_neg hst, if_neg hfin]; exact g1
      · unfold shift_advance; rw [h2]; simp only; rw [if_neg hst, if_neg hfin']; exact g2
      · rw [source_of_ctrl c3, ho1]
      · intro e he; rw [hv] at he; cases he

/-- One shift on two engines in step: the same result, and the engines are
in step afterwards, with the row returned added to the rows delivered. -/
theorem shift_sim (d : List VALUE) (p q : zsv_ruby_parser_t) (S : Sim d p q) :
    ∃ p1 q1 res, zsv_parser_shift p = (p1, res) ∧ zsv_parser_shift q = (q1, res) ∧
      Sim (d ++ delivered [res]) p1 q1 ∧ source p1 = source p ∧
      (∀ e, res = .error e → e = .eMalformedCSVError) := by
  have hcq := sim_closed S
  have he := sim_eof S
  have hzq := sim_zsv S
  have hb : p.row_buffer = q.row_buffer := by
    obtain ⟨_, _, z, _, Tp, Tq⟩ := S
    exact track_buffer_eq (sim_options ⟨‹_›, ‹_›, z, ‹_›, Tp, Tq⟩) Tp Tq
  have hcl := S.2.1
  obtain ⟨z, hz, _, _⟩ := S.2.2
  cases hrb : p.row_buffer with
  | cons row rest =>
    obtain ⟨p1, q1, res, g1, g2, S1, c1, ⟨v, hv⟩⟩ := front_sim d p q S
    refine ⟨p1, q1, res, ?_, ?_, S1, ?_, ?_⟩
    · rw [← g1]; simp [zsv_parser_shift, shift_front, hcl, hrb]
    · rw [← g2]; simp [zsv_parser_shift, shift_front, hcq, ← hb, hrb]
    · exact source_of_ctrl c1
    · intro e he; rw [hv] at he; cases he
  | nil =>
    by_cases heof : p.eof_reached = true
    · refine ⟨p, q, .ok Qnil, ?_, ?_, ?_, rfl, ?_⟩
      · simp [zsv_parser_shift, hcl, hrb, heof]
      · simp [zsv_parser_shift, hcq, ← hb, hrb, ← he, heof]
      · rw [delivered_ok_nil, List.append_nil]; exact S
      · intro e he; cases he
    · obtain ⟨p1, q1, res, g1, g2, S1, o1, e1⟩ := advance_sim d p q z S hz
      refine ⟨p1, q1, res, ?_, ?_, S1, o1, e1⟩
      · rw [← g1]; simp [zsv_parser_shift, hcl, hrb, heof, hz]
      · rw [← g2]; simp [zsv_parser_shift, hcq, ← hb, hrb, ← he, heof, ← hzq, hz]

theorem expected_rows_nil (o : zsv_ruby_options_t) : expected_rows o [] = [] :=
  expected_rows_skip o [] (Nat.zero_le _)

theorem builder_new_ok (enc : rb_encoding) : builder_ok (zsv_row_builder_new enc) := by
  simp [builder_ok, storage_ok, zsv_row_builder_new, INITIAL_ROW_CAPACITY]

/-- What `zsv_parser_init_common` leaves behind when it does not raise: an
open engine in its initial state over a fresh tokenizer on the stream. -/
theorem init_common_open (host : Host) (f : FILE) (opts_hash : OptsHash)
    (p0 : zsv_ruby_parser_t)
    (h : zsv_parser_init_common host { zeroed_engine with file := some f } opts_hash = .ok p0) :
    Open [] p0 ∧
      ctrl p0 = (some (zsv_new host { delimiter := p0.options.delimiter } f), some f,
        p0.options, false, false, false) ∧
      zsv_options_parse host opts_hash = .ok p0.options ∧
      p0.row_buffer = [] ∧ p0.row_count = 0 ∧ p0.lines_skipped = 0 ∧
      p0.headers = p0.options.header_array ∧
      p0.header_row_processed = !NIL_P p0.options.header_array := by
  unfold zsv_parser_init_common at h
  cases ho : zsv_options_parse host opts_hash with
  | error e => rw [ho] at h; cases h
  | ok o =>
    rw [ho] at h
    simp only at h
    by_cases hn : NIL_P o.header_array = true
    · simp only [hn, Bool.not_true, Bool.false_eq_true, if_false] at h
      cases h
      have hq : o.header_array = Qnil := nil_p_eq_true.mp hn
      refine ⟨⟨rfl, rfl, _, rfl, ?_, ?_⟩, rfl, rfl, rfl, rfl, rfl, ?_, ?_⟩
      · refine ⟨builder_new_ok _, rfl, rfl, rfl, Or.inl hq, by simp [zeroed_engine, zsv_new], ?_,
          ?_, ?_, ?_, ?_⟩
        · intro names hnames
          rw [hq] at hnames; simp [Qnil] at hnames
        · intro _ _
          exact ⟨by simp [zeroed_engine, zsv_new], by intro h rest hd; simp [zsv_new] at hd⟩
        · intro _ _; rfl
        · simp [zsv_new, expected_rows_nil]
        · simp [zsv_new, expected_rows_nil, zeroed_engine]
      · refine ⟨builder_new_ok _, rfl, rfl, rfl, Or.inl hq, by simp [zeroed_engine, zsv_new], ?_,
          ?_, ?_, ?_, ?_⟩
        · intro names hnames
          rw [hq] at hnames; simp [Qnil] at hnames
        · intro _ _
          exact ⟨by simp [zeroed_engine, zsv_new], by intro h rest hd; simp [zsv_new] at hd⟩
        · intro _ _; rfl
        · simp [zsv_new, expected_rows_nil]
        · simp [zsv_new, expected_rows_nil, zeroed_engine]
      · exact hq.symm
      · simp [hn, zeroed_engine]
    · have hn' : NIL_P o.header_array = false := by simpa using hn
      simp only [hn', Bool.not_false, if_true] at h
      cases ha : o.header_array with
      | scalar s => rw [ha] at h; simp [zsv_row_builder_set_headers] at h
      | hash kv => rw [ha] at h; simp [zsv_row_builder_set_headers] at h
      | ary names =>
        rw [ha] at h
        simp only [zsv_row_builder_set_headers] at h
        cases h
        have T : Track [] []
            ({ zsv := some (zsv_new host { delimiter := o.delimiter } f), file := some f,
               io := zeroed_engine.io, options := o,
               row_builder := { zsv_row_builder_new o.encoding with
                 headers := .ary names, header_count := names.length, header_cache := names },
               current_row := Qnil, row_buffer := [], headers := .ary names,
               row_count := zeroed_engine.row_count, lines_skipped := zeroed_engine.lines_skipped,
               header_row_processed := true, closed := false, eof_reached := false,
               in_cleanup := false, error_code := zeroed_engine.error_code,
               error_message := zeroed_engine.error_message } : zsv_ruby_parser_t) := by
          refine ⟨?_, rfl, rfl, rfl, Or.inr ⟨names, ha⟩, by simp [zeroed_engine], ?_, ?_, ?_, ?_, ?_⟩
          · simp [builder_ok, storage_ok, zsv_row_builder_new, INITIAL_ROW_CAPACITY]
          · intro names' hnames
            simp only at hnames
            rw [ha] at hnames
            simp only [VALUE.ary.injEq] at hnames
            simp [hnames]
          · intro hq _
            simp only at hq
            rw [ha] at hq; simp [Qnil] at hq
          · intro hq _
            simp only at hq
            rw [ha] at hq; simp [Qnil] at hq
          · simp [expected_rows_nil]
          · simp [expected_rows_nil, zeroed_engine]
        refine ⟨⟨rfl, rfl, _, rfl, ?_, ?_⟩, ?_, rfl, rfl, rfl, rfl, ?_, ?_⟩
        · simpa [zsv_new] using T
        · simpa [zsv_new] using T
        · simp [ctrl]
        · simp [ha]
        · simp [ha, nil_p_ary]

/-- What `zsv_parser_rewind` does to an open engine over a stream: it does
not raise, and leaves an open engine in its initial state over a fresh
tokenizer on the stream repositioned to its start. -/
theorem rewind_open (host : Host) (d : List VALUE) (p : zsv_ruby_parser_t) (f : FILE)
    (S : Open d p) (hf : p.file = some f) :
    ∃ q, zsv_parser_rewind host p = (q, none) ∧ Open [] q ∧
      ctrl q = (some (zsv_new host { delimiter := p.options.delimiter } ⟨f.content, 0⟩),
        some ⟨f.content, 0⟩, p.options, false, false, false) ∧
      q.row_buffer = [] ∧ q.row_count = 0 ∧ q.lines_skipped = 0 ∧
      q.header_row_processed = false := by
  obtain ⟨_, hcl, z, hz, T, _⟩ := S
  have T0 : Track z.reported d { p with file := some ({ f with pos := 0 } : FILE) } :=
    ⟨T.bok, T.sync, T.enc, T.live, T.arr, T.skipped, T.hdr_explicit, T.hdr_on, T.hdr_off,
      T.out, T.cnt⟩
  obtain ⟨q1, h1, T1, c1⟩ := finish_track z.reported d _ z T0
  simp only [ctrl, Prod.mk.injEq] at c1
  obtain ⟨_, cf, co, cc, _, _⟩ := c1
  have hT : Track [] []
      { q1 with
        zsv := some (zsv_new host { delimiter := q1.options.delimiter } { f with pos := 0 })
        row_count := 0, lines_skipped := 0, header_row_processed := false
        eof_reached := false, in_cleanup := false, row_buffer := [], current_row := Qnil } := by
    refine ⟨T1.bok, T1.sync, T1.enc, rfl, T1.arr, by simp, T1.hdr_explicit, ?_, T1.hdr_off,
      by simp [expected_rows_nil], by simp [expected_rows_nil]⟩
    intro _ _
    exact ⟨by simp, by intro h rest hd; simp at hd⟩
  have hcl1 : q1.closed = false := by rw [‹q1.closed = _›]; exact hcl
  refine ⟨{ q1 with
        zsv := some (zsv_new host { delimiter := q1.options.delimiter } { f with pos := 0 })
        row_count := 0, lines_skipped := 0, header_row_processed := false
        eof_reached := false, in_cleanup := false, row_buffer := [], current_row := Qnil },
    ?_, ⟨rfl, hcl1, _, rfl, ?_, ?_⟩, ?_, rfl, rfl, rfl, rfl⟩
  · unfold zsv_parser_rewind
    rw [hz] at h1
    simp only [hf, hz, h1]
  · simpa [zsv_new] using hT
  · simpa [zsv_new] using hT
  · simp only [ctrl, co, hcl1, ‹q1.file = _›]

/-- Any number of shifts on two engines in step: the same results, and the
engines are in step afterwards. -/
theorem shift_n_sim (n : Nat) :
    ∀ (d : List VALUE) (p q : zsv_ruby_parser_t), Sim d p q →
      (shift_n n p).1 = (shift_n n q).1 ∧
      Sim (d ++ delivered (shift_n n p).1) (shift_n n p).2 (shift_n n q).2 ∧
      source (shift_n n p).2 = source p ∧
      (∀ e, .error e ∈ (shift_n n p).1 → e = .eMalformedCSVError) := by
  induction n with
  | zero =>
    intro d p q S
    refine ⟨rfl, ?_, rfl, ?_⟩
    · simpa [shift_n, delivered] using S
    · intro e he; simp [shift_n] at he
  | succ n ih =>
    intro d p q S
    obtain ⟨p1, q1, res, h1, h2, S1, o1, e1⟩ := shift_sim d p q S
    obtain ⟨r1, S2, o2, e2⟩ := ih _ p1 q1 S1
    simp only [shift_n, h1, h2]
    refine ⟨by rw [r1], ?_, by rw [o2, o1], ?_⟩
    · rw [delivered_cons, ← List.append_assoc]; exact S2
    · intro e he
      rcases List.mem_cons.mp he with h | h
      · exact e1 e h.symm
      · exact e2 e h

/-- The loop of each on two engines in step: the same rows yielded, the same
ending, and the engines are in step afterwards. -/
theorem each_loop_sim (fuel : Nat) :
    ∀ (d : List VALUE) (p q : zsv_ruby_parser_t) (acc : List VALUE), Sim d p q →
      (each_loop fuel p acc).1 = (each_loop fuel q acc).1 ∧
      (each_loop fuel p acc).2.2 = (each_loop fuel q acc).2.2 ∧
      ∃ l, (each_loop fuel p acc).1 = acc ++ l ∧
        Sim (d ++ l) (each_loop fuel p acc).2.1 (each_loop fuel q acc).2.1 := by
  induction fuel with
  | zero =>
    intro d p q acc S
    exact ⟨rfl, rfl, [], by simp [each_loop], by simpa [each_loop] using S⟩
  | succ n ih =>
    intro d p q acc S
    obtain ⟨p1, q1, res, h1, h2, S1, _, _⟩ := shift_sim d p q S
    cases res with
    | error e =>
      simp only [each_loop, h1, h2]
      refine ⟨trivial, trivial, [], by simp, ?_⟩
      simpa [delivered_error] using S1
    | ok row =>
      by_cases hnil : NIL_P row = true
      · simp only [each_loop, h1, h2, hnil, if_true]
        refine ⟨trivial, trivial, [], by simp, ?_⟩
        have : delivered [Except.ok row] = [] := by simp [delivered, hnil]
        simpa [this] using S1
      · have hnil' : NIL_P row = false := by simpa using hnil
        rw [delivered_ok_row _ hnil'] at S1
        obtain ⟨r1, r2, l, r3, S2⟩ := ih _ p1 q1 (acc ++ [row]) S1
        simp only [each_loop, h1, h2, hnil', Bool.false_eq_true, if_false]
        refine ⟨r1, r2, row :: l, ?_, ?_⟩
        · rw [r3]; simp
        · simpa using S2

theorem constructed_init (host : Host) (string : VALUE) (path : List Nat)
    (opts_hash : OptsHash) (p0 : zsv_ruby_parser_t)
    (h0 : zsv_parser_new_from_string host string opts_hash = .ok p0 ∨
      zsv_parser_new_from_path host path opts_hash = .ok p0) :
    ∃ content, zsv_parser_init_common host
      { zeroed_engine with file := some ⟨content, 0⟩ } opts_hash = .ok p0 := by
  rcases h0 with h | h
  · unfold zsv_parser_new_from_string at h
    split at h
    · exact ⟨_, h⟩
    · cases h
  · unfold zsv_parser_new_from_path at h
    split at h
    · cases h
    · exact ⟨_, h⟩

theorem sim_symm {d : List VALUE} {p q : zsv_ruby_parser_t} (S : Sim d p q) : Sim d q p := by
  have hcq := sim_closed S
  have hz := sim_zsv S
  obtain ⟨hc, _, z, hz0, Tp, Tq⟩ := S
  exact ⟨hc.symm, hcq, z, by rw [← hz]; exact hz0, Tq, Tp⟩

theorem sim_right {d : List VALUE} {p q : zsv_ruby_parser_t} (S : Sim d p q) : Open d q := by
  have hcq := sim_closed S
  have hz := sim_zsv S
  obtain ⟨hc, _, z, hz0, Tp, Tq⟩ := S
  exact ⟨rfl, hcq, z, by rw [← hz]; exact hz0, Tq, Tq⟩

theorem sim_left {d : List VALUE} {p q : zsv_ruby_parser_t} (S : Sim d p q) : Open d p := by
  obtain ⟨hc, hcl, z, hz0, Tp, Tq⟩ := S
  exact ⟨rfl, hcl, z, hz0, Tp, Tp⟩

/-- An engine after a rewind and a freshly constructed engine over the same
source are in step. -/
theorem rewind_sim_fresh (host : Host) (content : List Nat) (opts_hash : OptsHash)
    (p0 : zsv_ruby_parser_t) (n : Nat)
    (h0 : zsv_parser_init_common host
      { zeroed_engine with file := some ⟨content, 0⟩ } opts_hash = .ok p0) :
    ∃ q, zsv_parser_rewind host (shift_n n p0).2 = (q, none) ∧ Sim [] q p0 ∧
      q.row_count = 0 ∧ q.lines_skipped = 0 ∧ q.header_row_processed = false ∧
      q.row_buffer = [] ∧ p0.row_buffer = [] := by
  obtain ⟨O0, c0, _, hb0, _⟩ := init_common_open host _ opts_hash p0 h0
  obtain ⟨_, Sn, hs, _⟩ := shift_n_sim n [] p0 p0 O0
  have On : Open ([] ++ delivered (shift_n n p0).1) (shift_n n p0).2 := Sn
  have hsrc : source p0 = (p0.options, some content) := by
    simp only [ctrl, Prod.mk.injEq] at c0
    simp [source, c0.2.1]
  rw [hsrc] at hs
  simp only [source, Prod.mk.injEq] at hs
  obtain ⟨hso, hsf⟩ := hs
  obtain ⟨f, hf, hfc⟩ : ∃ f, (shift_n n p0).2.file = some f ∧ f.content = content := by
    cases hfile : (shift_n n p0).2.file with
    | none => rw [hfile] at hsf; simp at hsf
    | some f => rw [hfile] at hsf; exact ⟨f, rfl, by simpa using hsf⟩
  obtain ⟨q, hq, Oq, cq, hb, hc, hl, hp⟩ := rewind_open host _ _ f On hf
  refine ⟨q, hq, ?_, hc, hl, hp, hb, hb0⟩
  have hcc : ctrl q = ctrl p0 := by rw [cq, c0, hso, hfc]
  obtain ⟨_, hqc, zq, hzq, Tq, _⟩ := Oq
  obtain ⟨_, _, z0, hz0, T0, _⟩ := O0
  have hzz : zq = z0 := by
    have h1 := congrArg (fun c => c.1) hcc
    simp only [ctrl] at h1
    rw [hzq, hz0] at h1
    exact Option.some.inj h1
  subst hzz
  exact ⟨hcc, hqc, zq, hzq, Tq, T0⟩

theorem sim_each_fuel {d : List VALUE} {p q : zsv_ruby_parser_t} (S : Sim d p q) :
    each_fuel p = each_fuel q := by
  have hz := sim_zsv S
  have hb : p.row_buffer = q.row_buffer := by
    have ho := sim_options S
    obtain ⟨_, _, z, _, Tp, Tq⟩ := S
    exact track_buffer_eq ho Tp Tq
  simp [each_fuel, hz, hb]

/-- Once header mode has captured its header row (or when headers are
explicit or off) two engines in step answer the headers query alike. -/
theorem sim_headers {d : List VALUE} {p q : zsv_ruby_parser_t} (S : Sim d p q)
    (h : p.options.header_array = Qnil → p.options.headers = true →
      p.header_row_processed = true) :
    p.headers = q.headers ∧
      (p.options.header_array = Qnil → p.options.headers = true →
        q.header_row_processed = true) := by
  have ho := sim_options S
  obtain ⟨_, _, z, _, Tp, Tq⟩ := S
  rcases Tp.arr with ha | ⟨names, ha⟩
  · by_cases hm : p.options.headers = true
    · have hp := h ha hm
      obtain ⟨p1, p2⟩ := Tp.hdr_on ha hm
      obtain ⟨q1, q2⟩ := Tq.hdr_on (ho ▸ ha) (ho ▸ hm)
      rw [hp] at p1
      have hlt := of_decide_eq_true p1.symm
      obtain ⟨h, rest, hd⟩ : ∃ h rest, z.reported.drop (skip_count p.options) = h :: rest := by
        cases hd : z.reported.drop (skip_count p.options) with
        | nil =>
          have := List.drop_eq_nil_iff.mp hd
          omega
        | cons h rest => exact ⟨h, rest, rfl⟩
      refine ⟨?_, ?_⟩
      · rw [p2 h rest hd, q2 h rest (ho ▸ hd), ho]
      · intro _ _
        rw [q1, ← ho]
        exact decide_eq_true hlt
    · have hm' : p.options.headers = false := by simpa using hm
      refine ⟨?_, ?_⟩
      · rw [Tp.hdr_off ha hm', Tq.hdr_off (ho ▸ ha) (ho ▸ hm')]
      · intro _ hm2; rw [hm'] at hm2; cases hm2
  · refine ⟨?_, ?_⟩
    · rw [Tp.hdr_explicit names ha, Tq.hdr_explicit names (ho ▸ ha)]
    · intro hq; rw [ha] at hq; simp [Qnil] at hq

theorem handler_hash_raise (p : zsv_ruby_parser_t) (r : zsv_row) (hl : p.in_cleanup = false)
    (hs : ¬ p.lines_skipped < skip_count p.options)
    (hc : (p.options.headers && NIL_P p.options.header_array && !p.header_row_processed) = false)
    (hh : NIL_P p.headers = false) (e : Raised)
    (hv : zsv_row_builder_to_hash (fill_builder p.row_builder r) = .error e) :
    zsv_row_handler p r = ({ p with row_builder := fill_builder p.row_builder r }, some e) := by
  unfold skip_count at hs
  unfold fill_builder at hv
  simp [zsv_row_handler, hl, hs, hc, hh, fill_builder, hv]

/-- The row callback writes none of the control fields, whatever the state. -/
theorem handler_control (p : zsv_ruby_parser_t) (r : zsv_row) :
    same_control p (zsv_row_handler p r).1 := by
  by_cases hl : p.in_cleanup = true
  · rw [handler_cleanup p r hl]; exact same_control_refl p
  · have hl' : p.in_cleanup = false := by simpa using hl
    by_cases hs : p.lines_skipped < skip_count p.options
    · rw [handler_skip p r hl' hs]; simp [same_control]
    · by_cases hc : (p.options.headers && NIL_P p.options.header_array
          && !p.header_row_processed) = true
      · simp only [Bool.and_eq_true, Bool.not_eq_true', nil_p_eq_true] at hc
        obtain ⟨⟨hm, ha⟩, hp⟩ := hc
        rw [handler_capture p r hl' hs hm ha hp]; simp [same_control]
      · have hc' : (p.options.headers && NIL_P p.options.header_array
            && !p.header_row_processed) = false := by simpa using hc
        by_cases hh : NIL_P p.headers = true
        · rw [handler_array p r hl' hs hc' hh]; simp [same_control]
        · have hh' : NIL_P p.headers = false := by simpa using hh
          cases hv : zsv_row_builder_to_hash (fill_builder p.row_builder r) with
          | ok v => rw [handler_hash p r hl' hs hc' hh' v hv]; simp [same_control]
          | error e => rw [handler_hash_raise p r hl' hs hc' hh' e hv]; simp [same_control]

/-- A sequence of row callbacks writes none of the control fields. -/
theorem run_callbacks_control (rows : List zsv_row) :
    ∀ p : zsv_ruby_parser_t, same_control p (run_callbacks p rows).1 := by
  induction rows with
  | nil => intro p; exact same_control_refl p
  | cons r rest ih =>
    intro p
    have h1 := handler_control p r
    rw [run_callbacks]
    rcases hr : zsv_row_handler p r with ⟨q, _ | e⟩
    · simp only
      rw [hr] at h1
      exact same_control_trans h1 (ih q)
    · simp only
      rw [hr] at h1
      exact h1

/-- The finish step writes none of the control fields but the handle. -/
theorem finish_safe_control (p : zsv_ruby_parser_t) :
    (zsv_parser_finish_safe p).1.closed = p.closed ∧
    (zsv_parser_finish_safe p).1.file = p.file ∧
    (zsv_parser_finish_safe p).1.in_cleanup = p.in_cleanup ∧
    (zsv_parser_finish_safe p).1.eof_reached = p.eof_reached ∧
    (zsv_parser_finish_safe p).1.options = p.options := by
  unfold zsv_parser_finish_safe
  cases hz : p.zsv with
  | none => simp
  | some z =>
    simp only
    split
    · unfold zsv_finish
      obtain ⟨_, a2, _, a4, _, a6, a7, a8, _, _⟩ :=
        run_callbacks_control z.pending { p with zsv := some (scanner_finish z) }
      exact ⟨a6, a2, a8, a7, a4⟩
    · simp

theorem close_of_closed (p : zsv_ruby_parser_t) (h : p.closed = true) :
    zsv_parser_close p = (p, none) := by
  simp [zsv_parser_close, h]

theorem close_closed (s : zsv_ruby_parser_t) : (zsv_parser_close s).1.closed = true := by
  unfold zsv_parser_close
  by_cases hc : s.closed = true
  · simp [hc]
  · simp only [hc, Bool.false_eq_true, if_false]
    have hfin := (finish_safe_control { s with closed := true }).1
    revert hfin
    generalize zsv_parser_finish_safe { s with closed := true } = res
    intro hfin
    cases s.zsv with
    | none => rfl
    | some z =>
      rcases res with ⟨q, _ | e⟩
      · simpa using hfin
      · simpa using hfin

/-! ### Options resolution, block by block -/

theorem parse_col_sep_frame (kv : List (Scalar × VALUE)) (o o' : zsv_ruby_options_t)
    (h : parse_col_sep kv o = .ok o') : o' = { o with delimiter := o'.delimiter } := by
  unfold parse_col_sep at h
  simp only at h
  split at h
  · cases h; rfl
  · split at h
    · split at h
      · cases h
      · cases h; rfl
    · cases h

theorem parse_quote_char_frame (kv : List (Scalar × VALUE)) (o o' : zsv_ruby_options_t)
    (h : parse_quote_char kv o = .ok o') : o' = { o with quote_char := o'.quote_char } := by
  unfold parse_quote_char at h
  simp only at h
  split at h
  · cases h; rfl
  · split at h
    · split at h
      · cases h
      · cases h; rfl
    · cases h

theorem parse_headers_frame (kv : List (Scalar × VALUE)) (o : zsv_ruby_options_t) :
    parse_headers kv o
      = { o with headers := (parse_headers kv o).headers,
                 header_array := (parse_headers kv o).header_array } := by
  unfold parse_headers
  simp only
  split <;> rfl

theorem parse_skip_lines_frame (kv : List (Scalar × VALUE)) (o o' : zsv_ruby_options_t)
    (h : parse_skip_lines kv o = .ok o') : o' = { o with skip_lines := o'.skip_lines } := by
  unfold parse_skip_lines at h
  simp only at h
  split at h
  · cases h; rfl
  · cases h

theorem parse_liberal_frame (kv : List (Scalar × VALUE)) (o : zsv_ruby_options_t) :
    parse_liberal kv o = { o with liberal_parsing := (parse_liberal kv o).liberal_parsing } := by
  rfl

theorem parse_encoding_frame (host : Host) (kv : List (Scalar × VALUE))
    (o o' : zsv_ruby_options_t) (h : parse_encoding host kv o = .ok o') :
    o' = { o with encoding := o'.encoding } := by
  unfold parse_encoding at h
  simp only at h
  split at h
  · cases h; rfl
  · split at h
    · cases h; rfl
    · cases h

theorem parse_buffer_size_frame (kv : List (Scalar × VALUE)) (o o' : zsv_ruby_options_t)
    (h : parse_buffer_size kv o = .ok o') : o' = { o with buffer_size := o'.buffer_size } := by
  unfold parse_buffer_size at h
  simp only at h
  split at h
  · cases h; rfl
  · split at h
    · cases h; rfl
    · cases h

/-- A successful resolution of an options hash, as the chain of its blocks. -/
theorem options_parse_ok (host : Host) (kv : List (Scalar × VALUE)) (o : zsv_ruby_options_t)
    (h : zsv_options_parse host (.hash kv) = .ok o) :
    ∃ o1 o2 o3 o4, parse_col_sep kv zsv_options_init = .ok o1 ∧
      parse_quote_char kv o1 = .ok o2 ∧
      parse_skip_lines kv (parse_headers kv o2) = .ok o3 ∧
      parse_encoding host kv (parse_liberal kv o3) = .ok o4 ∧
      parse_buffer_size kv o4 = .ok o := by
  unfold zsv_options_parse at h
  simp only at h
  cases h1 : parse_col_sep kv zsv_options_init with
  | error e => rw [h1] at h; cases h
  | ok o1 =>
    rw [h1] at h
    simp only at h
    cases h2 : parse_quote_char kv o1 with
    | error e => rw [h2] at h; cases h
    | ok o2 =>
      rw [h2] at h
      simp only at h
      cases h3 : parse_skip_lines kv (parse_headers kv o2) with
      | error e => rw [h3] at h; cases h
      | ok o3 =>
        rw [h3] at h
        simp only at h
        cases h4 : parse_encoding host kv (parse_liberal kv o3) with
        | error e => rw [h4] at h; cases h
        | ok o4 =>
          rw [h4] at h
          simp only at h
          exact ⟨o1, o2, o3, o4, rfl, h2, h3, h4, h⟩

theorem options_parse_delimiter (host : Host) (kv : List (Scalar × VALUE))
    (o o1 : zsv_ruby_options_t) (h : zsv_options_parse host (.hash kv) = .ok o)
    (h1 : parse_col_sep kv zsv_options_init = .ok o1) : o.delimiter = o1.delimiter := by
  obtain ⟨a1, a2, a3, a4, e1, e2, e3, e4, e5⟩ := options_parse_ok host kv o h
  rw [h1] at e1
  cases e1
  rw [parse_buffer_size_frame kv _ _ e5, parse_encoding_frame host kv _ _ e4,
    parse_liberal_frame, parse_skip_lines_frame kv _ _ e3, parse_headers_frame,
    parse_quote_char_frame kv _ _ e2]

theorem options_parse_quote_char (host : Host) (kv : List (Scalar × VALUE))
    (o o1 o2 : zsv_ruby_options_t) (h : zsv_options_parse host (.hash kv) = .ok o)
    (h1 : parse_col_sep kv zsv_options_init = .ok o1)
    (h2 : parse_quote_char kv o1 = .ok o2) : o.quote_char = o2.quote_char := by
  obtain ⟨a1, a2, a3, a4, e1, e2, e3, e4, e5⟩ := options_parse_ok host kv o h
  rw [h1] at e1
  cases e1
  rw [h2] at e2
  cases e2
  rw [parse_buffer_size_frame kv _ _ e5, parse_encoding_frame host kv _ _ e4,
    parse_liberal_frame, parse_skip_lines_frame kv _ _ e3, parse_headers_frame]

theorem parse_col_sep_string (kv : List (Scalar × VALUE)) (o : zsv_ruby_options_t)
    (bytes : List Nat) (enc : rb_encoding)
    (h : rb_hash_lookup kv id_col_sep = .scalar (.str bytes enc)) :
    parse_col_sep kv o
      = if bytes.length ≠ 1 then .error .rb_eArgError
        else .ok { o with delimiter := bytes.headD 0 } := by
  simp [parse_col_sep, get_option, h, NIL_P, Qnil]

theorem parse_quote_char_string (kv : List (Scalar × VALUE)) (o : zsv_ruby_options_t)
    (bytes : List Nat) (enc : rb_encoding)
    (h : rb_hash_lookup kv id_quote_char = .scalar (.str bytes enc)) :
    parse_quote_char kv o
      = if bytes.length ≠ 1 then .error .rb_eArgError
        else .ok { o with quote_char := bytes.headD 0 } := by
  simp [parse_quote_char, get_option, h, NIL_P, Qnil]

/-- The options `{col_sep: ";", quote_char: "'"}`. -/
theorem options_semicolon_example (host : Host) :
    zsv_options_parse host
        (.hash [(id_col_sep, .scalar (ustr ";")), (id_quote_char, .scalar (ustr "'"))])
      = .ok { zsv_options_init with delimiter := 59, quote_char := 39 } := by
  simp [zsv_options_parse, parse_col_sep, parse_quote_char, parse_headers, parse_skip_lines,
    parse_liberal, parse_encoding, parse_buffer_size, get_option, rb_hash_lookup, NIL_P,
    RTEST, NUM2INT, id_skip_lines, id_col_sep, id_quote_char, id_headers, id_liberal_parsing,
    id_encoding, id_buffer_size, Qnil, Qfalse, zsv_options_init, ustr, ascii]

/-! ### No raise out of the row callback -/

theorem add_cell_headers (b : zsv_row_builder_t) (data : List Nat) :
    (zsv_row_builder_add_cell b data).headers = b.headers := by
  unfold zsv_row_builder_add_cell zsv_row_builder_ensure_capacity
  simp only
  split <;> rfl

theorem fill_builder_headers (b : zsv_row_builder_t) (row : zsv_row) :
    (fill_builder b row).headers = b.headers := by
  unfold fill_builder
  have key : ∀ (row : zsv_row) (b : zsv_row_builder_t),
      (row.foldl zsv_row_builder_add_cell b).headers = b.headers := by
    intro row
    induction row with
    | nil => intro b; rfl
    | cons d rest ih =>
      intro b
      rw [List.foldl_cons, ih, add_cell_headers]
  rw [key]
  rfl

theorem to_hash_ok_of_headers (b : zsv_row_builder_t) (h : NIL_P b.headers = false) :
    ∃ v, zsv_row_builder_to_hash b = .ok v := by
  unfold zsv_row_builder_to_hash
  simp [h]

/-- When the builder and the engine hold the same header array, the row
callback does not raise and they still hold the same header array after
it. -/
theorem handler_no_raise (p : zsv_ruby_parser_t) (r : zsv_row)
    (hs : p.row_builder.headers = p.headers) :
    (zsv_row_handler p r).2 = none ∧
      (zsv_row_handler p r).1.row_builder.headers = (zsv_row_handler p r).1.headers := by
  by_cases hl : p.in_cleanup = true
  · rw [handler_cleanup p r hl]; exact ⟨rfl, hs⟩
  · have hl' : p.in_cleanup = false := by simpa using hl
    by_cases hsk : p.lines_skipped < skip_count p.options
    · rw [handler_skip p r hl' hsk]
      exact ⟨rfl, by simp only [fill_builder_headers, hs]⟩
    · by_cases hc : (p.options.headers && NIL_P p.options.header_array
          && !p.header_row_processed) = true
      · simp only [Bool.and_eq_true, Bool.not_eq_true', nil_p_eq_true] at hc
        obtain ⟨⟨hm, ha⟩, hp⟩ := hc
        rw [handler_capture p r hl' hsk hm ha hp]
        exact ⟨rfl, rfl⟩
      · have hc' : (p.options.headers && NIL_P p.options.header_array
            && !p.header_row_processed) = false := by simpa using hc
        by_cases hh : NIL_P p.headers = true
        · rw [handler_array p r hl' hsk hc' hh]
          exact ⟨rfl, by simp only [fill_builder_headers, hs]⟩
        · have hh' : NIL_P p.headers = false := by simpa using hh
          obtain ⟨v, hv⟩ := to_hash_ok_of_headers (fill_builder p.row_builder r)
            (by rw [fill_builder_headers, hs]; exact hh')
          rw [handler_hash p r hl' hsk hc' hh' v hv]
          exact ⟨rfl, by simp only [fill_builder_headers, hs]⟩

theorem run_callbacks_no_raise (rows : List zsv_row) :
    ∀ p : zsv_ruby_parser_t, p.row_builder.headers = p.headers →
      (run_callbacks p rows).2 = none ∧
        (run_callbacks p rows).1.row_builder.headers = (run_callbacks p rows).1.headers := by
  induction rows with
  | nil => intro p hs; exact ⟨rfl, hs⟩
  | cons r rest ih =>
    intro p hs
    obtain ⟨h1, h2⟩ := handler_no_raise p r hs
    rw [run_callbacks]
    rcases hr : zsv_row_handler p r with ⟨q, _ | e⟩
    · simp only
      rw [hr] at h2
      exact ih q h2
    · rw [hr] at h1
      cases h1

theorem shift_front_ok (p : zsv_ruby_parser_t) : ∃ v, (shift_front p).2 = .ok v := by
  unfold shift_front
  split
  · exact ⟨_, rfl⟩
  · exact ⟨_, rfl⟩

/-! ### Hashes with pairwise distinct keys -/

theorem hash_aset_fresh (kv : List (Scalar × Scalar)) (k v : Scalar)
    (h : k ∉ kv.map Prod.fst) : rb_hash_aset kv k v = kv ++ [(k, v)] := by
  induction kv with
  | nil => rfl
  | cons e rest ih =>
    obtain ⟨k0, v0⟩ := e
    simp only [List.map_cons, List.mem_cons, not_or] at h
    have hne : ¬ k0 = k := fun heq => h.1 heq.symm
    simp only [rb_hash_aset, hne, if_false, List.cons_append, ih h.2]

theorem foldl_aset_nodup (l : List (Scalar × Scalar)) :
    ∀ acc : List (Scalar × Scalar), ((acc ++ l).map Prod.fst).Nodup →
      l.foldl (fun hash kv => rb_hash_aset hash kv.1 kv.2) acc = acc ++ l := by
  induction l with
  | nil => intro acc _; simp
  | cons e rest ih =>
    intro acc h
    have hk : e.1 ∉ acc.map Prod.fst := by
      simp only [List.map_append, List.map_cons] at h
      have := (List.nodup_append.mp h).2.2
      intro hmem
      exact this hmem (List.mem_cons_self _ _)
    rw [List.foldl_cons, hash_aset_fresh acc e.1 e.2 hk, ih]
    · simp
    · simpa using h

/-- Inserting pairs with pairwise distinct keys gives exactly the pairs. -/
theorem hash_of_pairs_nodup (l : List (Scalar × Scalar)) (h : (l.map Prod.fst).Nodup) :
    hash_of_pairs l = l := by
  unfold hash_of_pairs
  rw [foldl_aset_nodup l [] (by simpa using h)]
  rfl

theorem excess_pairs_keys (n : Nat) (cells : List Scalar) :
    (excess_pairs n cells).map Prod.fst
      = (List.range' n (cells.length - n)).map SIZET2NUM := by
  unfold excess_pairs
  rw [List.map_map]
  have : (Prod.fst ∘ fun ic : Nat × Scalar => (SIZET2NUM ic.1, ic.2)) = SIZET2NUM ∘ Prod.fst := rfl
  rw [this, ← List.map_map, List.enumFrom_map_fst, List.length_drop]

theorem sizet2num_injective : Function.Injective SIZET2NUM := by
  intro a b h
  simp only [SIZET2NUM, Scalar.fixnum.injEq] at h
  exact Int.ofNat.inj h

theorem map_fst_zip_take {α β : Type} :
    ∀ (l1 : List α) (l2 : List β), (l1.zip l2).map Prod.fst = l1.take l2.length := by
  intro l1
  induction l1 with
  | nil => intro l2; simp
  | cons a t ih =>
    intro l2
    cases l2 with
    | nil => simp
    | cons b u => simp [ih]

/-- With pairwise distinct header names, none of them an Integer, the mapping
of a row has the header pairs and the numbered excess cells as its entries. -/
theorem row_to_hash_distinct (names cells : List Scalar) (hd : names.Nodup)
    (hi : ∀ k ∈ names, ∀ i : Nat, k ≠ SIZET2NUM i) :
    row_to_hash names cells = .hash (names.zip cells ++ excess_pairs names.length cells) := by
  unfold row_to_hash
  rw [hash_of_pairs_nodup]
  rw [List.map_append, excess_pairs_keys]
  apply List.Nodup.append
  · rw [map_fst_zip_take]
    exact hd.sublist (List.take_sublist _ _)
  · exact (List.nodup_range' _ _).map sizet2num_injective
  · intro k hk1 hk2
    have hk : k ∈ names := by
      rw [map_fst_zip_take] at hk1
      exact List.mem_of_mem_take hk1
    obtain ⟨i, _, rfl⟩ := List.mem_map.mp hk2
    exact hi _ hk i rfl

theorem excess_pairs_length (n : Nat) (cells : List Scalar) :
    (excess_pairs n cells).length = cells.length - n := by
  simp [excess_pairs]

theorem excess_pairs_get (n : Nat) (cells : List Scalar) (i : Nat) (h1 : n ≤ i)
    (h2 : i < cells.length) :
    (excess_pairs n cells)[i - n]? = some (SIZET2NUM i, cells.getD i .qnil) := by
  unfold excess_pairs
  have hi : i - n < (cells.drop n).length := by simp; omega
  have h3 : n + (i - n) = i := by omega
  simp [List.getElem?_enumFrom, List.getElem?_drop, h3, List.getElem?_eq_getElem h2,
    List.getD_eq_getElem?_getD]

theorem zip_get (names cells : List Scalar) (i : Nat) (h1 : i < names.length)
    (h2 : i < cells.length) :
    (names.zip cells)[i]? = some (names.getD i .qnil, cells.getD i .qnil) := by
  simp [List.getElem?_zip_eq_some, List.getElem?_eq_getElem h1, List.getElem?_eq_getElem h2,
    List.getD_eq_getElem?_getD]

/-- A resolved skip-lines value fits a C `int`. -/
theorem options_parse_skip_range (host : Host) (opts_hash : OptsHash) (o : zsv_ruby_options_t)
    (h : zsv_options_parse host opts_hash = .ok o) :
    -(2 ^ 31 : Int) ≤ o.skip_lines ∧ o.skip_lines < (2 ^ 31 : Int) := by
  cases opts_hash with
  | qnil =>
    simp only [zsv_options_parse] at h
    cases h
    simp [zsv_options_init]
  | other => simp [zsv_options_parse] at h
  | hash kv =>
    obtain ⟨o1, o2, o3, o4, _, _, e3, e4, e5⟩ := options_parse_ok host kv o h
    have h3 : -(2 ^ 31 : Int) ≤ o3.skip_lines ∧ o3.skip_lines < (2 ^ 31 : Int) := by
      unfold parse_skip_lines at e3
      simp only at e3
      split at e3
      · rename_i n hn
        cases e3
        simp only
        unfold NUM2INT at hn
        split at hn
        · split at hn
          · cases hn; assumption
          · cases hn
        · cases hn
      · cases e3
    rw [parse_buffer_size_frame kv _ _ e5, parse_encoding_frame host kv _ _ e4,
      parse_liberal_frame]
    exact h3

theorem skip_count_of_nat (o : zsv_ruby_options_t) (k : Nat) (hk : o.skip_lines = Int.ofNat k)
    (hr : o.skip_lines < (2 ^ 31 : Int)) : skip_count o = k := by
  unfold skip_count size_t_of_int
  rw [hk] at hr ⊢
  have h1 : (Int.ofNat k) % (2 ^ 64 : Int) = Int.ofNat k := by
    apply Int.emod_eq_of_lt
    · exact Int.ofNat_nonneg k
    · have : (2 ^ 31 : Int) < 2 ^ 64 := by norm_num
      omega
  rw [h1]
  rfl

/-- What an open engine holds: the rows delivered and queued are the
expected rows for what the tokenizer has reported. -/
theorem open_out {d : List VALUE} {p : zsv_ruby_parser_t} (O : Open d p) :
    ∃ z, p.zsv = some z ∧ Track z.reported d p := by
  obtain ⟨_, _, z, hz, T, _⟩ := O
  exact ⟨z, hz, T⟩

theorem expected_rows_off (o : zsv_ruby_options_t) (R : List zsv_row)
    (ha : o.header_array = Qnil) (hm : o.headers = false) :
    expected_rows o R = (R.drop (skip_count o)).map (fun r => .ary (cells_of o.encoding r)) := by
  simp [expected_rows, ha, hm, Qnil]

theorem expected_rows_on (o : zsv_ruby_options_t) (R : List zsv_row) (h : zsv_row)
    (rest : List zsv_row) (ha : o.header_array = Qnil) (hm : o.headers = true)
    (hd : R.drop (skip_count o) = h :: rest) :
    expected_rows o R
      = rest.map (fun r => row_to_hash (cells_of o.encoding h) (cells_of o.encoding r)) := by
  simp [expected_rows, ha, hm, Qnil, hd]

/-- The row callbacks of a whole list of rows on a freshly constructed
engine. -/
theorem fresh_callbacks (host : Host) (content : List Nat) (opts_hash : OptsHash)
    (p0 : zsv_ruby_parser_t) (rows : List zsv_row)
    (h0 : zsv_parser_init_common host
      { zeroed_engine with file := some ⟨content, 0⟩ } opts_hash = .ok p0) :
    ∃ q, run_callbacks p0 rows = (q, none) ∧ Track rows [] q ∧ q.options = p0.options := by
  obtain ⟨O0, c0, _⟩ := init_common_open host _ opts_hash p0 h0
  obtain ⟨_, _, z, hz, T, _⟩ := O0
  have hzz : z.reported = [] := by
    simp only [ctrl, Prod.mk.injEq] at c0
    rw [c0.1] at hz
    cases hz
    rfl
  rw [hzz] at T
  obtain ⟨q, h1, T1, c1⟩ := run_callbacks_track rows [] [] p0 T
  exact ⟨q, h1, by simpa using T1, c1.2.2.2.1⟩

/-- Any number of shifts on a freshly constructed engine: it stays open, and
the rows delivered and queued are the expected rows for what the tokenizer
has reported. -/
theorem fresh_shifts (host : Host) (content : List Nat) (opts_hash : OptsHash)
    (p0 : zsv_ruby_parser_t) (n : Nat)
    (h0 : zsv_parser_init_common host
      { zeroed_engine with file := some ⟨content, 0⟩ } opts_hash = .ok p0) :
    ∃ z, (shift_n n p0).2.zsv = some z ∧
      Track z.reported (delivered (shift_n n p0).1) (shift_n n p0).2 ∧
      (shift_n n p0).2.options = p0.options := by
  obtain ⟨O0, _⟩ := init_common_open host _ opts_hash p0 h0
  obtain ⟨_, Sn, hs, _⟩ := shift_n_sim n [] p0 p0 O0
  obtain ⟨z, hz, T⟩ := open_out Sn
  refine ⟨z, hz, by simpa using T, ?_⟩
  have := congrArg Prod.fst hs
  simpa [source] using this

theorem excess_pairs_nil (n : Nat) (cells : List Scalar) (h : cells.length ≤ n) :
    excess_pairs n cells = [] := by
  unfold excess_pairs
  rw [List.drop_eq_nil_of_le h]
  rfl

theorem cells_of_not_integer (enc : rb_encoding) (row : zsv_row) :
    ∀ k ∈ cells_of enc row, ∀ i : Nat, k ≠ SIZET2NUM i := by
  intro k hk i
  obtain ⟨d, _, rfl⟩ := List.mem_map.mp hk
  simp [SIZET2NUM]

/-- The loop of each leaves the options and the stream content alone. -/
theorem each_loop_source (fuel : Nat) :
    ∀ (d : List VALUE) (p q : zsv_ruby_parser_t) (acc : List VALUE), Sim d p q →
      source (each_loop fuel p acc).2.1 = source p := by
  induction fuel with
  | zero => intro d p q acc _; rfl
  | succ n ih =>
    intro d p q acc S
    obtain ⟨p1, q1, res, h1, _, S1, hs, _⟩ := shift_sim d p q S
    cases res with
    | error e => simp only [each_loop, h1]; exact hs
    | ok row =>
      by_cases hnil : NIL_P row = true
      · simp only [each_loop, h1, hnil, if_true]; exact hs
      · have hnil' : NIL_P row = false := by simpa using hnil
        rw [delivered_ok_row _ hnil'] at S1
        simp only [each_loop, h1, hnil', Bool.false_eq_true, if_false]
        rw [ih _ p1 q1 _ S1, hs]

/-! ### Termination of each -/

theorem shift_front_zsv (p : zsv_ruby_parser_t) : (shift_front p).1.zsv = p.zsv := by
  unfold shift_front
  split <;> rfl

/-- The tokenizer handle after a shift on an open engine: untouched, advanced
once, or advanced once and finished. -/
theorem shift_scanner (d : List VALUE) (p : zsv_ruby_parser_t) (z : zsv_scanner)
    (O : Open d p) (hz : p.zsv = some z) :
    ∃ z1, (zsv_parser_shift p).1.zsv = some z1 ∧
      (z1 = z ∨ z1 = scanner_advance z ∨ z1 = scanner_finish (scanner_advance z)) := by
  have hcl := O.2.1
  cases hrb : p.row_buffer with
  | cons row rest =>
    refine ⟨z, ?_, Or.inl rfl⟩
    simp [zsv_parser_shift, hcl, hrb, hz]
  | nil =>
    by_cases heof : p.eof_reached = true
    · refine ⟨z, ?_, Or.inl rfl⟩
      simp [zsv_parser_shift, hcl, hrb, heof, hz]
    · have hshift : zsv_parser_shift p = shift_advance p z := by
        simp [zsv_parser_shift, hcl, hrb, heof, hz]
      rw [hshift]
      obtain ⟨p1, _, h1, _, S1, c1⟩ := parse_more_sim d p p z O hz
      have hz1 : p1.zsv = some (scanner_advance z) := by
        have := congrArg (fun c => c.1) c1
        simpa [ctrl] using this
      unfold shift_advance
      rw [h1]
      simp only
      by_cases hst : (next_step z).status ≠ .zsv_status_ok ∧
          (next_step z).status ≠ .zsv_status_no_more_input
      · rw [if_pos hst]
        exact ⟨_, hz1, Or.inr (Or.inl rfl)⟩
      · rw [if_neg hst]
        by_cases hfin : (next_step z).status = .zsv_status_no_more_input ∧
            (!p1.eof_reached) = true
        · rw [if_pos hfin]
          obtain ⟨p2, _, z2, f1, _, _, hz2, c2⟩ := finish_safe_sim d p1 p1 (sim_left S1)
          rw [hz1] at hz2
          cases hz2
          rw [f1]
          simp only
          rw [shift_front_zsv]
          have : p2.zsv = some (scanner_finish (scanner_advance z)) := by
            have := congrArg (fun c => c.1) c2
            simpa [ctrl] using this
          exact ⟨_, this, Or.inr (Or.inr rfl)⟩
        · rw [if_neg hfin, shift_front_zsv]
          exact ⟨_, hz1, Or.inr (Or.inl rfl)⟩

theorem scanner_rows_advance (z : zsv_scanner) :
    scanner_rows (some (scanner_advance z)) + (next_step z).rows.length
      ≤ scanner_rows (some z) := by
  obtain ⟨opts, script, pending, reported, pc, fc⟩ := z
  cases script with
  | nil => simp [scanner_rows, scanner_advance, next_step]
  | cons s rest =>
    simp only [scanner_rows, scanner_advance, next_step, List.tail_cons, List.map_cons,
      List.sum_cons]
    omega

theorem scanner_rows_finish (z : zsv_scanner) :
    scanner_rows (some (scanner_finish z)) + z.pending.length = scanner_rows (some z) := by
  unfold scanner_rows scanner_finish
  simp; omega

/-- Reporting further rows adds at most as many expected rows. -/
theorem expected_rows_length_le (o : zsv_ruby_options_t) (R X : List zsv_row) :
    (expected_rows o (R ++ X)).length ≤ (expected_rows o R).length + X.length := by
  unfold expected_rows
  simp only
  have hl : (List.drop (skip_count o) (R ++ X)).length
      ≤ (List.drop (skip_count o) R).length + X.length := by
    simp only [List.length_drop, List.length_append]; omega
  generalize List.drop (skip_count o) (R ++ X) = l1 at hl ⊢
  generalize List.drop (skip_count o) R = l2 at hl ⊢
  split
  · simpa using hl
  · split
    · cases l1 <;> cases l2 <;> simp at hl ⊢ <;> omega
    · simpa using hl

/-- A shift that returns a row leaves strictly less pending work. -/
theorem shift_progress (d : List VALUE) (p : zsv_ruby_parser_t) (O : Open d p)
    (row : VALUE) (hrow : (zsv_parser_shift p).2 = .ok row) (hnil : NIL_P row = false) :
    pending_work (zsv_parser_shift p).1 < pending_work p := by
  obtain ⟨p1, _, res, h1, _, S1, hs, _⟩ := shift_sim d p p O
  rw [h1] at hrow ⊢
  simp only at hrow
  subst hrow
  rw [delivered_ok_row _ hnil] at S1
  obtain ⟨z, hz, T⟩ := open_out O
  obtain ⟨z1, hz1, T1⟩ := open_out (sim_left S1)
  have ho : p1.options = p.options := by
    have := congrArg Prod.fst hs
    simpa [source] using this
  obtain ⟨z1', hz1', hcases⟩ := shift_scanner d p z O hz
  rw [h1] at hz1'
  simp only at hz1'
  rw [hz1] at hz1'
  cases hz1'
  have hout := congrArg List.length T.out
  have hout1 := congrArg List.length T1.out
  rw [ho] at hout1
  simp only [List.length_append, List.length_singleton] at hout hout1
  unfold pending_work
  simp only
  rw [hz, hz1]
  rcases hcases with h | h | h
  · subst h
    omega
  · have hR : z1.reported = z.reported ++ (next_step z).rows := by rw [h]; rfl
    rw [hR] at hout1
    have hle := expected_rows_length_le p.options z.reported (next_step z).rows
    have hsr := scanner_rows_advance z
    rw [← h] at hsr
    omega
  · have hR : z1.reported = z.reported ++ ((next_step z).rows ++ (scanner_advance z).pending) := by
      rw [h]; simp [scanner_finish, scanner_advance]
    rw [hR] at hout1
    have hle := expected_rows_length_le p.options z.reported
      ((next_step z).rows ++ (scanner_advance z).pending)
    have hsr := scanner_rows_advance z
    have hsf := scanner_rows_finish (scanner_advance z)
    rw [← h] at hsf
    simp only [List.length_append] at hle
    omega

/-- The loop of each ends within `pending_work + 1` shift calls on an open
engine: the fuel `zsv_parser_each` gives it is enough. -/
theorem each_loop_terminates (fuel : Nat) :
    ∀ (d : List VALUE) (p : zsv_ruby_parser_t) (acc : List VALUE), Open d p →
      pending_work p < fuel → (each_loop fuel p acc).2.2 ≠ none := by
  induction fuel with
  | zero => intro d p acc _ h; omega
  | succ n ih =>
    intro d p acc O hlt
    obtain ⟨p1, _, res, h1, _, S1, _, _⟩ := shift_sim d p p O
    cases res with
    | error e => simp [each_loop, h1]
    | ok row =>
      by_cases hnil : NIL_P row = true
      · simp [each_loop, h1, hnil]
      · have hnil' : NIL_P row = false := by simpa using hnil
        have hp := shift_progress d p O row (by rw [h1]) hnil'
        rw [h1] at hp
        simp only at hp
        rw [delivered_ok_row _ hnil'] at S1
        simp only [each_loop, h1, hnil', Bool.false_eq_true, if_false]
        exact ih _ p1 _ (sim_left S1) (by omega)

/-- On an open engine `zsv_parser_each` ends: with `nil` from shift or with a
raise, never by running out of fuel. -/
theorem each_terminates (d : List VALUE) (p : zsv_ruby_parser_t) (O : Open d p) :
    (zsv_parser_each p).2.2 ≠ none := by
  unfold zsv_parser_each
  exact each_loop_terminates _ d p [] O (by unfold each_fuel pending_work; omega)

/-! ### Options resolution in normal form -/

theorem parse_col_sep_normal (kv : List (Scalar × VALUE)) (o : zsv_ruby_options_t) :
    parse_col_sep kv o
      = match resolve_byte (rb_hash_lookup kv id_col_sep) o.delimiter with
        | .error e => .error e
        | .ok d => .ok { o with delimiter := d } := by
  unfold parse_col_sep resolve_byte get_option
  generalize rb_hash_lookup kv id_col_sep = v
  rcases v with s | xs | h
  · cases s <;> simp [NIL_P, Qnil]
    split <;> simp_all
  · simp [NIL_P, Qnil]
  · simp [NIL_P, Qnil]

theorem parse_quote_char_normal (kv : List (Scalar × VALUE)) (o : zsv_ruby_options_t) :
    parse_quote_char kv o
      = match resolve_byte (rb_hash_lookup kv id_quote_char) o.quote_char with
        | .error e => .error e
        | .ok q => .ok { o with quote_char := q } := by
  unfold parse_quote_char resolve_byte get_option
  generalize rb_hash_lookup kv id_quote_char = v
  rcases v with s | xs | h
  · cases s <;> simp [NIL_P, Qnil]
    split <;> simp_all
  · simp [NIL_P, Qnil]
  · simp [NIL_P, Qnil]

theorem parse_headers_normal (kv : List (Scalar × VALUE)) (o : zsv_ruby_options_t) :
    parse_headers kv o
      = match rb_hash_lookup kv id_headers with
        | .ary xs => { o with headers := true, header_array := .ary xs }
        | v => { o with headers := RTEST v } := by
  unfold parse_headers get_option
  generalize rb_hash_lookup kv id_headers = v
  rcases v with s | xs | h
  · cases s <;> simp [NIL_P, Qnil, Qfalse, RTEST]
  · simp [NIL_P, Qnil]
  · simp [NIL_P, Qnil]

theorem parse_skip_lines_normal (kv : List (Scalar × VALUE)) (o : zsv_ruby_options_t) :
    parse_skip_lines kv o
      = match resolve_skip_lines (rb_hash_lookup kv id_skip_lines) with
        | .error e => .error e
        | .ok s => .ok { o with skip_lines := s } := by
  unfold parse_skip_lines resolve_skip_lines get_option
  simp only
  cases NUM2INT (if NIL_P (rb_hash_lookup kv id_skip_lines) = true then
    VALUE.scalar (Scalar.fixnum 0) else rb_hash_lookup kv id_skip_lines) <;> rfl

theorem parse_liberal_normal (kv : List (Scalar × VALUE)) (o : zsv_ruby_options_t) :
    parse_liberal kv o
      = { o with liberal_parsing := resolve_liberal (rb_hash_lookup kv id_liberal_parsing) } := by
  unfold parse_liberal resolve_liberal get_option
  generalize rb_hash_lookup kv id_liberal_parsing = v
  rcases v with s | xs | h
  · cases s <;> simp [NIL_P, Qnil, Qfalse, RTEST]
  · simp [NIL_P, Qnil]
  · simp [NIL_P, Qnil]

theorem parse_encoding_normal (host : Host) (kv : List (Scalar × VALUE))
    (o : zsv_ruby_options_t) :
    parse_encoding host kv o
      = match (if NIL_P (rb_hash_lookup kv id_encoding) then .ok o.encoding
               else rb_to_encoding host (rb_hash_lookup kv id_encoding)) with
        | .error e => .error e
        | .ok enc => .ok { o with encoding := enc } := by
  unfold parse_encoding get_option
  generalize rb_hash_lookup kv id_encoding = v
  by_cases hn : NIL_P v = true
  · have hv : v = Qnil := nil_p_eq_true.mp hn
    subst hv
    simp [NIL_P, Qnil]
  · simp only [hn, Bool.false_eq_true, if_false]
    split <;> simp_all

theorem parse_buffer_size_normal (kv : List (Scalar × VALUE)) (o : zsv_ruby_options_t) :
    parse_buffer_size kv o
      = match (if NIL_P (rb_hash_lookup kv id_buffer_size) then .ok o.buffer_size
               else NUM2SIZET (rb_hash_lookup kv id_buffer_size)) with
        | .error e => .error e
        | .ok b => .ok { o with buffer_size := b } := by
  unfold parse_buffer_size get_option
  generalize rb_hash_lookup kv id_buffer_size = v
  by_cases hn : NIL_P v = true
  · have hv : v = Qnil := nil_p_eq_true.mp hn
    subst hv
    simp [NIL_P, Qnil]
  · simp only [hn, Bool.false_eq_true, if_false]
    split <;> simp_all


/-- Options resolution field by field: each resolved field is a function of
what the hash holds under the key of that field, and the first field that
raises, in source order, ends the resolution. -/
theorem options_parse_normal (host : Host) (kv : List (Scalar × VALUE)) :
    zsv_options_parse host (.hash kv) =
      match resolve_byte (rb_hash_lookup kv id_col_sep) 44 with
      | .error e => .error e
      | .ok d =>
        match resolve_byte (rb_hash_lookup kv id_quote_char) 34 with
        | .error e => .error e
        | .ok q =>
          match resolve_skip_lines (rb_hash_lookup kv id_skip_lines) with
          | .error e => .error e
          | .ok s =>
            match resolve_encoding host (rb_hash_lookup kv id_encoding) with
            | .error e => .error e
            | .ok enc =>
              match resolve_buffer_size (rb_hash_lookup kv id_buffer_size) with
              | .error e => .error e
              | .ok b =>
                .ok { delimiter := d, quote_char := q
                      headers := (resolve_headers (rb_hash_lookup kv id_headers)).1
                      header_array := (resolve_headers (rb_hash_lookup kv id_headers)).2
                      skip_lines := s
                      liberal_parsing := resolve_liberal (rb_hash_lookup kv id_liberal_parsing)
                      encoding := enc, buffer_size := b } := by
  unfold zsv_options_parse
  simp only [parse_col_sep_normal, parse_quote_char_normal, parse_skip_lines_normal,
    parse_encoding_normal, parse_buffer_size_normal, parse_liberal_normal]
  have hd : zsv_options_init.delimiter = 44 := rfl
  rw [hd]
  cases resolve_byte (rb_hash_lookup kv id_col_sep) 44 with
  | error e => rfl
  | ok d =>
    simp only
    have hq : zsv_options_init.quote_char = 34 := rfl
    rw [hq]
    cases resolve_byte (rb_hash_lookup kv id_quote_char) 34 with
    | error e => rfl
    | ok q =>
      simp only
      cases resolve_skip_lines (rb_hash_lookup kv id_skip_lines) with
      | error e => rfl
      | ok s =>
        simp only
        have he : resolve_encoding host (rb_hash_lookup kv id_encoding)
            = (if NIL_P (rb_hash_lookup kv id_encoding) then .ok rb_utf8_encoding
               else rb_to_encoding host (rb_hash_lookup kv id_encoding)) := rfl
        have henc : (parse_headers kv
            { zsv_options_init with delimiter := d, quote_char := q }).encoding
            = rb_utf8_encoding := by
          rw [parse_headers_frame]; rfl
        rw [he, henc]
        cases (if NIL_P (rb_hash_lookup kv id_encoding) then
            (Except.ok rb_utf8_encoding : Except Raised rb_encoding)
          else rb_to_encoding host (rb_hash_lookup kv id_encoding)) with
        | error e => rfl
        | ok enc =>
          simp only
          have hb : resolve_buffer_size (rb_hash_lookup kv id_buffer_size)
              = (if NIL_P (rb_hash_lookup kv id_buffer_size) then .ok (256 * 1024)
                 else NUM2SIZET (rb_hash_lookup kv id_buffer_size)) := rfl
          have hbuf : (parse_headers kv
              { zsv_options_init with delimiter := d, quote_char := q }).buffer_size
              = 256 * 1024 := by
            rw [parse_headers_frame]; rfl
          rw [hb, hbuf]
          cases (if NIL_P (rb_hash_lookup kv id_buffer_size) then
              (Except.ok (256 * 1024) : Except Raised Nat)
            else NUM2SIZET (rb_hash_lookup kv id_buffer_size)) with
          | error e => rfl
          | ok b =>
            simp only [Except.ok.injEq]
            rw [parse_headers_normal]
            unfold resolve_headers
            cases rb_hash_lookup kv id_headers with
            | scalar sc => rfl
            | ary xs => rfl
            | hash h => rfl

/-! ### The row queue is drained first -/

/-- Shift on an open engine with a non-empty queue. -/
theorem shift_of_queue (p : zsv_ruby_parser_t) (row : VALUE) (rest : List VALUE)
    (hc : p.closed = false) (hb : p.row_buffer = row :: rest) :
    zsv_parser_shift p = ({ p with row_buffer := rest }, .ok row) := by
  unfold zsv_parser_shift
  rw [hc, hb]
  rfl

/-- As many shifts as the queue of an open engine has rows, or fewer, return
the rows of the queue front first and change nothing but the queue. -/
theorem shift_n_drain (k : Nat) :
    ∀ p : zsv_ruby_parser_t, p.closed = false → k ≤ p.row_buffer.length →
      shift_n k p
        = ((p.row_buffer.take k).map Except.ok, { p with row_buffer := p.row_buffer.drop k }) := by
  induction k with
  | zero => intro p _ _; simp [shift_n]
  | succ k ih =>
    intro p hc hk
    cases hb : p.row_buffer with
    | nil => rw [hb] at hk; simp at hk
    | cons row rest =>
      rw [hb] at hk
      have hk' : k ≤ rest.length := by simpa using hk
      unfold shift_n
      rw [shift_of_queue p row rest hc hb]
      simp only
      rw [ih { p with row_buffer := rest } hc hk']
      simp

/-- A header name at a column the row does not reach is not among the names
of the columns the row has, when the names are pairwise distinct. -/
theorem not_mem_take_of_nodup (h : List Scalar) (hd : h.Nodup) (n i : Nat) (hn : n ≤ i)
    (hi : i < h.length) : h.getD i .qnil ∉ h.take n := by
  intro hm
  have hsplit : h = h.take n ++ h.drop n := (List.take_append_drop n h).symm
  rw [hsplit] at hd
  have hdis := (List.nodup_append.mp hd).2.2
  have hmem : h.getD i .qnil ∈ h.drop n := by
    have h1 : h.getD i .qnil = h[i] := by simp [List.getD, hi]
    rw [h1]
    have h2 : (h.drop n)[i - n]? = some h[i] := by
      rw [List.getElem?_drop]
      have : n + (i - n) = i := by omega
      rw [this]
      exact List.getElem?_eq_getElem hi
    exact List.getElem?_mem h2
  exact hdis hm hmem

/-- With headers installed the mapping conversion returns a Hash. -/
theorem to_hash_hash_of_headers (b : zsv_row_builder_t) (h : NIL_P b.headers = false) :
    ∃ kv, zsv_row_builder_to_hash b = .ok (.hash kv) := by
  unfold zsv_row_builder_to_hash
  rw [h]
  exact ⟨_, rfl⟩

/-! ### Options resolution: what each resolved field depends on -/

/-- A key that a Hash does not hold looks up as `nil`. -/
theorem lookup_absent (kv : List (Scalar × VALUE)) (key : Scalar)
    (h : key ∉ kv.map Prod.fst) : rb_hash_lookup kv key = Qnil := by
  induction kv with
  | nil => rfl
  | cons a rest ih =>
    obtain ⟨k, v⟩ := a
    simp only [List.map_cons, List.mem_cons, not_or] at h
    unfold rb_hash_lookup
    rw [if_neg (fun hk => h.1 hk.symm)]
    exact ih h.2

/-- When options resolution succeeds, every resolved field is what the
resolver of that field returns for the value the Hash holds under its key. -/
theorem options_parse_fields (host : Host) (kv : List (Scalar × VALUE))
    (o : zsv_ruby_options_t) (h : zsv_options_parse host (.hash kv) = .ok o) :
    resolve_byte (rb_hash_lookup kv id_col_sep) 44 = .ok o.delimiter ∧
    resolve_byte (rb_hash_lookup kv id_quote_char) 34 = .ok o.quote_char ∧
    o.headers = (resolve_headers (rb_hash_lookup kv id_headers)).1 ∧
    o.header_array = (resolve_headers (rb_hash_lookup kv id_headers)).2 ∧
    resolve_skip_lines (rb_hash_lookup kv id_skip_lines) = .ok o.skip_lines ∧
    o.liberal_parsing = resolve_liberal (rb_hash_lookup kv id_liberal_parsing) ∧
    resolve_encoding host (rb_hash_lookup kv id_encoding) = .ok o.encoding ∧
    resolve_buffer_size (rb_hash_lookup kv id_buffer_size) = .ok o.buffer_size := by
  rw [options_parse_normal] at h
  cases h1 : resolve_byte (rb_hash_lookup kv id_col_sep) 44 with
  | error e => rw [h1] at h; cases h
  | ok d =>
    cases h2 : resolve_byte (rb_hash_lookup kv id_quote_char) 34 with
    | error e => rw [h1, h2] at h; cases h
    | ok q =>
      cases h3 : resolve_skip_lines (rb_hash_lookup kv id_skip_lines) with
      | error e => rw [h1, h2, h3] at h; cases h
      | ok s =>
        cases h4 : resolve_encoding host (rb_hash_lookup kv id_encoding) with
        | error e => rw [h1, h2, h3, h4] at h; cases h
        | ok enc =>
          cases h5 : resolve_buffer_size (rb_hash_lookup kv id_buffer_size) with
          | error e => rw [h1, h2, h3, h4, h5] at h; cases h
          | ok bs =>
            rw [h1, h2, h3, h4, h5] at h
            simp only [Except.ok.injEq] at h
            subst h
            exact ⟨rfl, rfl, rfl, rfl, rfl, rfl, rfl, rfl⟩

/-- The converse of `options_parse_fields`: resolvers that all return make
the resolution return the record of their values. -/
theorem options_parse_of_fields (host : Host) (kv : List (Scalar × VALUE))
    (o : zsv_ruby_options_t)
    (h1 : resolve_byte (rb_hash_lookup kv id_col_sep) 44 = .ok o.delimiter)
    (h2 : resolve_byte (rb_hash_lookup kv id_quote_char) 34 = .ok o.quote_char)
    (h3 : o.headers = (resolve_headers (rb_hash_lookup kv id_headers)).1)
    (h4 : o.header_array = (resolve_headers (rb_hash_lookup kv id_headers)).2)
    (h5 : resolve_skip_lines (rb_hash_lookup kv id_skip_lines) = .ok o.skip_lines)
    (h6 : o.liberal_parsing = resolve_liberal (rb_hash_lookup kv id_liberal_parsing))
    (h7 : resolve_encoding host (rb_hash_lookup kv id_encoding) = .ok o.encoding)
    (h8 : resolve_buffer_size (rb_hash_lookup kv id_buffer_size) = .ok o.buffer_size) :
    zsv_options_parse host (.hash kv) = .ok o := by
  rw [options_parse_normal, h1, h2, h5, h7, h8]
  simp only
  rw [← h3, ← h4, ← h6]

/-- Truthiness: exactly `nil` and `false` are falsy. -/
theorem rtest_eq_false {v : VALUE} : RTEST v = false ↔ v = Qnil ∨ v = Qfalse := by
  simp only [RTEST, Bool.not_eq_false', Bool.or_eq_true, decide_eq_true_eq]

/-! ### A raise out of shift, and explicit header lists -/

/-- The iterated shift, one more call at the end. -/
theorem shift_n_succ_last (n : Nat) :
    ∀ p : zsv_ruby_parser_t,
      shift_n (n + 1) p
        = ((shift_n n p).1 ++ [(zsv_parser_shift (shift_n n p).2).2],
            (zsv_parser_shift (shift_n n p).2).1) := by
  induction n with
  | zero => intro p; simp [shift_n]
  | succ n ih =>
    intro p
    have h1 : shift_n (n + 1 + 1) p
        = ((zsv_parser_shift p).2 :: (shift_n (n + 1) (zsv_parser_shift p).1).1,
            (shift_n (n + 1) (zsv_parser_shift p).1).2) := by
      conv => lhs; unfold shift_n
    have h2 : shift_n (n + 1) p
        = ((zsv_parser_shift p).2 :: (shift_n n (zsv_parser_shift p).1).1,
            (shift_n n (zsv_parser_shift p).1).2) := by
      conv => lhs; unfold shift_n
    rw [h1, ih (zsv_parser_shift p).1, h2]
    simp

/-- When shift raises on an open engine in order, the queue was empty, EOF was
not reached, the exception is `MalformedCSVError`, the status of the advance
step was neither "ok" nor "no more input", and the engine is left as the row
callbacks of that step left it: open, in order, its handle advanced by one
step. -/
theorem shift_error_state (d : List VALUE) (p : zsv_ruby_parser_t) (O : Open d p)
    (e : Raised) (herr : (zsv_parser_shift p).2 = .error e) :
    ∃ z, p.zsv = some z ∧ p.row_buffer = [] ∧ p.eof_reached = false ∧
      e = .eMalformedCSVError ∧
      ((next_step z).status ≠ .zsv_status_ok ∧
        (next_step z).status ≠ .zsv_status_no_more_input) ∧
      (zsv_parser_shift p).1 = (zsv_parse_more p z).1 ∧
      Open d (zsv_parser_shift p).1 ∧
      (zsv_parser_shift p).1.zsv = some (scanner_advance z) ∧
      (zsv_parser_shift p).1.options = p.options := by
  have hcl := O.2.1
  obtain ⟨z, hz, _, _⟩ := O.2.2
  cases hrb : p.row_buffer with
  | cons row rest =>
    rw [shift_of_queue p row rest hcl hrb] at herr
    cases herr
  | nil =>
    by_cases heof : p.eof_reached = true
    · have : zsv_parser_shift p = (p, .ok Qnil) := by
        simp [zsv_parser_shift, hcl, hrb, heof]
      rw [this] at herr
      cases herr
    · have hs : zsv_parser_shift p = shift_advance p z := by
        simp [zsv_parser_shift, hcl, hrb, heof, hz]
      rw [hs] at herr ⊢
      obtain ⟨p1, q1, h1, _, S1, c1⟩ := parse_more_sim d p p z O hz
      have O1 : Open d p1 := sim_left S1
      by_cases hst : (next_step z).status ≠ .zsv_status_ok ∧
          (next_step z).status ≠ .zsv_status_no_more_input
      · have ha : shift_advance p z = (p1, .error .eMalformedCSVError) := by
          unfold shift_advance; rw [h1]; simp only; rw [if_pos hst]
        rw [ha] at herr ⊢
        simp only [Except.error.injEq] at herr
        refine ⟨z, hz, rfl, by simpa using heof, herr.symm, hst, ?_, O1, ?_, ?_⟩
        · rw [h1]
        · have := congrArg (fun c => c.1) c1
          simpa [ctrl] using this
        · have := congrArg (fun c => c.2.2.1) c1
          simpa [ctrl] using this
      · exfalso
        by_cases hfin : (next_step z).status = .zsv_status_no_more_input ∧
            (!p1.eof_reached) = true
        · obtain ⟨p2, q2, z2, f1, _, S2, _, _⟩ := finish_safe_sim d p1 p1 O1
          obtain ⟨p3, q3, res, g1, _, _, _, ⟨v, hv⟩⟩ := front_sim d _ _ (sim_set_eof S2)
          have ha : shift_advance p z = (p3, res) := by
            unfold shift_advance; rw [h1]; simp only; rw [if_neg hst, if_pos hfin, f1]
            simp only; exact g1
          rw [ha, hv] at herr
          cases herr
        · obtain ⟨p3, q3, res, g1, _, _, _, ⟨v, hv⟩⟩ := front_sim d _ _ O1
          have ha : shift_advance p z = (p3, res) := by
            unfold shift_advance; rw [h1]; simp only; rw [if_neg hst, if_neg hfin]; exact g1
          rw [ha, hv] at herr
          cases herr

/-- No row is skipped when `skip_lines` is zero. -/
theorem skip_count_zero (o : zsv_ruby_options_t) (hk : o.skip_lines = 0) : skip_count o = 0 := by
  simp [skip_count, size_t_of_int, hk]

/-- The rows to deliver under an explicit header list. -/
theorem expected_rows_explicit (o : zsv_ruby_options_t) (R : List zsv_row)
    (names : List Scalar) (ha : o.header_array = .ary names) :
    expected_rows o R
      = (R.drop (skip_count o)).map (fun r => row_to_hash names (cells_of o.encoding r)) := by
  simp [expected_rows, ha]

/-- The engine invariant under an explicit header list and no skipped lines:
every row reported so far has been delivered or is queued, as its mapping
against the list, and the list is what the headers query returns. -/
theorem track_explicit {R : List zsv_row} {d : List VALUE} {p : zsv_ruby_parser_t}
    (T : Track R d p) (H : List Scalar) (ha : p.options.header_array = .ary H)
    (hk : p.options.skip_lines = 0) :
    d ++ p.row_buffer = R.map (fun r => row_to_hash H (cells_of p.options.encoding r)) ∧
      p.headers = .ary H ∧ p.row_count = R.length := by
  have he := expected_rows_explicit p.options R H ha
  rw [skip_count_zero _ hk, List.drop_zero] at he
  refine ⟨by rw [T.out, he], T.hdr_explicit H ha, ?_⟩
  rw [T.cnt, he, List.length_map]

/-- The mapping of a row with no more cells than there are pairwise distinct
names. -/
theorem row_to_hash_short (names cells : List Scalar) (hd : names.Nodup)
    (hle : cells.length ≤ names.length) :
    row_to_hash names cells = .hash (names.zip cells) := by
  unfold row_to_hash
  rw [excess_pairs_nil names.length cells hle, List.append_nil, hash_of_pairs_nodup]
  rw [map_fst_zip_take]
  exact List.Nodup.sublist (List.take_sublist _ _) hd

/-! ### The engine never reads `quote_char` and `liberal_parsing` -/

/-- The row callback does the same whatever `quote_char` and
`liberal_parsing` hold. -/
theorem handler_quoting (q : Nat) (l : Bool) (p : zsv_ruby_parser_t) (r : zsv_row) :
    zsv_row_handler (with_quoting q l p) r
      = (with_quoting q l (zsv_row_handler p r).1, (zsv_row_handler p r).2) := by
  unfold zsv_row_handler with_quoting
  simp only
  split_ifs
  · rfl
  · rfl
  · split <;> rfl
  · split <;> rfl
  · rfl

theorem run_callbacks_quoting (q : Nat) (l : Bool) (rows : List zsv_row) :
    ∀ p : zsv_ruby_parser_t,
      run_callbacks (with_quoting q l p) rows
        = (with_quoting q l (run_callbacks p rows).1, (run_callbacks p rows).2) := by
  induction rows with
  | nil => intro p; rfl
  | cons row rest ih =>
    intro p
    unfold run_callbacks
    rw [handler_quoting]
    cases h : zsv_row_handler p row with
    | mk p1 raised =>
      cases raised with
      | some e => rfl
      | none => exact ih p1

theorem parse_more_quoting (q : Nat) (l : Bool) (p : zsv_ruby_parser_t) (z : zsv_scanner) :
    zsv_parse_more (with_quoting q l p) z
      = (with_quoting q l (zsv_parse_more p z).1, (zsv_parse_more p z).2) := by
  unfold zsv_parse_more
  have h := run_callbacks_quoting q l (next_step z).rows
    { p with zsv := some (scanner_advance z),
             file := p.file.map (fun f => { f with pos := f.pos + (next_step z).nread }) }
  simp only
  exact congrArg (fun x => (x.1, x.2, (next_step z).status)) h

theorem finish_quoting (q : Nat) (l : Bool) (p : zsv_ruby_parser_t) (z : zsv_scanner) :
    zsv_finish (with_quoting q l p) z
      = (with_quoting q l (zsv_finish p z).1, (zsv_finish p z).2) :=
  run_callbacks_quoting q l z.pending { p with zsv := some (scanner_finish z) }

theorem finish_safe_quoting (q : Nat) (l : Bool) (p : zsv_ruby_parser_t) :
    zsv_parser_finish_safe (with_quoting q l p)
      = (with_quoting q l (zsv_parser_finish_safe p).1, (zsv_parser_finish_safe p).2) := by
  unfold zsv_parser_finish_safe
  have hz : (with_quoting q l p).zsv = p.zsv := rfl
  have hi : (with_quoting q l p).in_cleanup = p.in_cleanup := rfl
  rw [hz, hi]
  cases p.zsv with
  | none => rfl
  | some z =>
    simp only
    split
    · exact finish_quoting q l p z
    · rfl

theorem shift_front_quoting (q : Nat) (l : Bool) (p : zsv_ruby_parser_t) :
    shift_front (with_quoting q l p)
      = (with_quoting q l (shift_front p).1, (shift_front p).2) := by
  unfold shift_front
  have hb : (with_quoting q l p).row_buffer = p.row_buffer := rfl
  rw [hb]
  cases p.row_buffer <;> rfl

theorem shift_advance_quoting (q : Nat) (l : Bool) (p : zsv_ruby_parser_t) (z : zsv_scanner) :
    shift_advance (with_quoting q l p) z
      = (with_quoting q l (shift_advance p z).1, (shift_advance p z).2) := by
  unfold shift_advance
  rw [parse_more_quoting]
  cases h : zsv_parse_more p z with
  | mk p1 rest =>
    obtain ⟨raised, status⟩ := rest
    cases raised with
    | some e => rfl
    | none =>
      simp only
      have he : (with_quoting q l p1).eof_reached = p1.eof_reached := rfl
      rw [he]
      split_ifs
      · rfl
      · rw [finish_safe_quoting]
        cases hf : zsv_parser_finish_safe p1 with
        | mk p2 raised2 =>
          cases raised2 with
          | some e => rfl
          | none => exact shift_front_quoting q l { p2 with eof_reached := true }
      · exact shift_front_quoting q l p1

/-- Shift returns the same and leaves the same engine whatever `quote_char`
and `liberal_parsing` hold. -/
theorem shift_quoting (q : Nat) (l : Bool) (p : zsv_ruby_parser_t) :
    zsv_parser_shift (with_quoting q l p)
      = (with_quoting q l (zsv_parser_shift p).1, (zsv_parser_shift p).2) := by
  have hc' : (with_quoting q l p).closed = p.closed := rfl
  have hb' : (with_quoting q l p).row_buffer = p.row_buffer := rfl
  have he' : (with_quoting q l p).eof_reached = p.eof_reached := rfl
  have hz' : (with_quoting q l p).zsv = p.zsv := rfl
  cases hc : p.closed with
  | true =>
    have h1 : zsv_parser_shift p = (p, .ok Qnil) := by simp [zsv_parser_shift, hc]
    have h2 : zsv_parser_shift (with_quoting q l p) = (with_quoting q l p, .ok Qnil) := by
      simp [zsv_parser_shift, hc', hc]
    rw [h1, h2]
  | false =>
    cases hb : p.row_buffer with
    | cons row rest =>
      rw [shift_of_queue p row rest hc hb,
        shift_of_queue (with_quoting q l p) row rest (hc'.trans hc) (hb'.trans hb)]
      rfl
    | nil =>
      by_cases heof : p.eof_reached = true
      · have h1 : zsv_parser_shift p = (p, .ok Qnil) := by
          simp [zsv_parser_shift, hc, hb, heof]
        have h2 : zsv_parser_shift (with_quoting q l p) = (with_quoting q l p, .ok Qnil) := by
          simp [zsv_parser_shift, hc', hb', he', hc, hb, heof]
        rw [h1, h2]
      · cases hz : p.zsv with
        | none =>
          have h1 : zsv_parser_shift p = (p, .error .rb_eRuntimeError) := by
            simp [zsv_parser_shift, hc, hb, heof, hz]
          have h2 : zsv_parser_shift (with_quoting q l p)
              = (with_quoting q l p, .error .rb_eRuntimeError) := by
            simp [zsv_parser_shift, hc', hb', he', hz', hc, hb, heof, hz]
          rw [h1, h2]
        | some z =>
          have h1 : zsv_parser_shift p = shift_advance p z := by
            simp [zsv_parser_shift, hc, hb, heof, hz]
          have h2 : zsv_parser_shift (with_quoting q l p)
              = shift_advance (with_quoting q l p) z := by
            simp [zsv_parser_shift, hc', hb', he', hz', hc, hb, heof, hz]
          rw [h1, h2]
          exact shift_advance_quoting q l p z

theorem shift_n_quoting (q : Nat) (l : Bool) (n : Nat) :
    ∀ p : zsv_ruby_parser_t,
      shift_n n (with_quoting q l p) = ((shift_n n p).1, with_quoting q l (shift_n n p).2) := by
  induction n with
  | zero => intro p; rfl
  | succ n ih =>
    intro p
    conv => lhs; unfold shift_n
    rw [shift_quoting]
    simp only
    rw [ih]
    conv => rhs; unfold shift_n

theorem each_loop_quoting (q : Nat) (l : Bool) (fuel : Nat) :
    ∀ (p : zsv_ruby_parser_t) (acc : List VALUE),
      each_loop fuel (with_quoting q l p) acc
        = ((each_loop fuel p acc).1, with_quoting q l (each_loop fuel p acc).2.1,
            (each_loop fuel p acc).2.2) := by
  induction fuel with
  | zero => intro p acc; rfl
  | succ fuel ih =>
    intro p acc
    unfold each_loop
    rw [shift_quoting]
    cases h : zsv_parser_shift p with
    | mk p1 res =>
      cases res with
      | error e => rfl
      | ok row =>
        simp only
        split_ifs
        · rfl
        · exact ih p1 _

/-- Rewind builds the same tokenizer handle and leaves the same engine
whatever `quote_char` and `liberal_parsing` hold. -/
theorem rewind_quoting (host : Host) (q : Nat) (l : Bool) (p : zsv_ruby_parser_t) :
    zsv_parser_rewind host (with_quoting q l p)
      = (with_quoting q l (zsv_parser_rewind host p).1, (zsv_parser_rewind host p).2) := by
  unfold zsv_parser_rewind
  have hf : (with_quoting q l p).file = p.file := rfl
  rw [hf]
  cases p.file with
  | none => rfl
  | some f =>
    simp only
    have e : ({ with_quoting q l p with file := some { f with pos := 0 } }
        : zsv_ruby_parser_t)
        = with_quoting q l { p with file := some { f with pos := 0 } } := rfl
    simp only [e]
    generalize ({ p with file := some { f with pos := 0 } } : zsv_ruby_parser_t) = p'
    have hz : (with_quoting q l p).zsv = p.zsv := rfl
    rw [hz]
    cases p.zsv with
    | none => rfl
    | some z =>
      simp only
      rw [finish_quoting]
      cases zsv_finish p' z with
      | mk p1 raised =>
        cases raised with
        | some e => rfl
        | none => rfl

theorem lookup_cons_ne (kv : List (Scalar × VALUE)) (k key : Scalar) (v : VALUE)
    (h : k ≠ key) : rb_hash_lookup ((k, v) :: kv) key = rb_hash_lookup kv key := by
  conv => lhs; unfold rb_hash_lookup
  rw [if_neg h]

theorem lookup_cons_eq (kv : List (Scalar × VALUE)) (k : Scalar) (v : VALUE) :
    rb_hash_lookup ((k, v) :: kv) k = v := by
  conv => lhs; unfold rb_hash_lookup
  rw [if_pos rfl]

/-- Supplying `liberal_parsing` changes the resolved flag and nothing else. -/
theorem options_parse_cons_liberal (host : Host) (kv : List (Scalar × VALUE)) (v : VALUE)
    (o : zsv_ruby_options_t) (h : zsv_options_parse host (.hash kv) = .ok o) :
    zsv_options_parse host (.hash ((id_liberal_parsing, v) :: kv))
      = .ok { o with liberal_parsing := RTEST v } := by
  obtain ⟨a1, a2, a3, a4, a5, _, a7, a8⟩ := options_parse_fields host kv o h
  apply options_parse_of_fields
  · rw [lookup_cons_ne _ _ _ _ (by decide)]; exact a1
  · rw [lookup_cons_ne _ _ _ _ (by decide)]; exact a2
  · rw [lookup_cons_ne _ _ _ _ (by decide)]; exact a3
  · rw [lookup_cons_ne _ _ _ _ (by decide)]; exact a4
  · rw [lookup_cons_ne _ _ _ _ (by decide)]; exact a5
  · rw [lookup_cons_eq]; rfl
  · rw [lookup_cons_ne _ _ _ _ (by decide)]; exact a7
  · rw [lookup_cons_ne _ _ _ _ (by decide)]; exact a8

/-- Supplying a one-byte `quote_char` changes the resolved quote character
and nothing else. -/
theorem options_parse_cons_quote_char (host : Host) (kv : List (Scalar × VALUE)) (q : Nat)
    (enc : rb_encoding) (o : zsv_ruby_options_t)
    (h : zsv_options_parse host (.hash kv) = .ok o) :
    zsv_options_parse host (.hash ((id_quote_char, .scalar (.str [q] enc)) :: kv))
      = .ok { o with quote_char := q } := by
  obtain ⟨a1, _, a3, a4, a5, a6, a7, a8⟩ := options_parse_fields host kv o h
  apply options_parse_of_fields
  · rw [lookup_cons_ne _ _ _ _ (by decide)]; exact a1
  · rw [lookup_cons_eq]; simp [resolve_byte, NIL_P, Qnil]
  · rw [lookup_cons_ne _ _ _ _ (by decide)]; exact a3
  · rw [lookup_cons_ne _ _ _ _ (by decide)]; exact a4
  · rw [lookup_cons_ne _ _ _ _ (by decide)]; exact a5
  · rw [lookup_cons_ne _ _ _ _ (by decide)]; exact a6
  · rw [lookup_cons_ne _ _ _ _ (by decide)]; exact a7
  · rw [lookup_cons_ne _ _ _ _ (by decide)]; exact a8

/-- Construction builds the same tokenizer handle and the same engine
whatever `quote_char` and `liberal_parsing` resolve to. -/
theorem init_common_quoting (host : Host) (p p0 : zsv_ruby_parser_t) (oh oh' : OptsHash)
    (q : Nat) (l : Bool) (h0 : zsv_parser_init_common host p oh = .ok p0)
    (ho : ∀ o, zsv_options_parse host oh = .ok o →
      zsv_options_parse host oh' = .ok { o with quote_char := q, liberal_parsing := l }) :
    zsv_parser_init_common host p oh' = .ok (with_quoting q l p0) := by
  unfold zsv_parser_init_common at h0 ⊢
  cases hp : zsv_options_parse host oh with
  | error e => rw [hp] at h0; cases h0
  | ok o =>
    rw [hp] at h0
    rw [ho o hp]
    simp only at h0 ⊢
    cases hfile : p.file with
    | none => rw [hfile] at h0; cases h0
    | some f =>
      rw [hfile] at h0
      simp only at h0 ⊢
      cases harr : o.header_array with
      | ary names =>
        simp only [harr, nil_p_ary, zsv_row_builder_set_headers, Bool.not_false, if_true,
          Except.ok.injEq] at h0 ⊢
        rw [← h0]
        simp [with_quoting, harr]
      | hash kv0 =>
        simp [harr, NIL_P, Qnil, zsv_row_builder_set_headers] at h0
      | scalar s =>
        by_cases hn : NIL_P (.scalar s) = true
        · simp only [harr, hn, Bool.not_true, Bool.false_eq_true, if_false,
            Except.ok.injEq] at h0 ⊢
          rw [← h0]
          simp [with_quoting, harr]
        · simp [harr, hn, zsv_row_builder_set_headers] at h0

theorem new_from_string_quoting (host : Host) (string : VALUE) (p0 : zsv_ruby_parser_t)
    (oh oh' : OptsHash) (q : Nat) (l : Bool)
    (h0 : zsv_parser_new_from_string host string oh = .ok p0)
    (ho : ∀ o, zsv_options_parse host oh = .ok o →
      zsv_options_parse host oh' = .ok { o with quote_char := q, liberal_parsing := l }) :
    zsv_parser_new_from_string host string oh' = .ok (with_quoting q l p0) := by
  unfold zsv_parser_new_from_string at h0 ⊢
  split at h0
  · exact init_common_quoting host _ p0 oh oh' q l h0 ho
  · cases h0

theorem new_from_path_quoting (host : Host) (path : List Nat) (p0 : zsv_ruby_parser_t)
    (oh oh' : OptsHash) (q : Nat) (l : Bool)
    (h0 : zsv_parser_new_from_path host path oh = .ok p0)
    (ho : ∀ o, zsv_options_parse host oh = .ok o →
      zsv_options_parse host oh' = .ok { o with quote_char := q, liberal_parsing := l }) :
    zsv_parser_new_from_path host path oh' = .ok (with_quoting q l p0) := by
  unfold zsv_parser_new_from_path at h0 ⊢
  split at h0
  · cases h0
  · exact init_common_quoting host _ p0 oh oh' q l h0 ho

/-- The options a constructed engine holds are the resolved ones. -/
theorem constructed_options (host : Host) (string : VALUE) (path : List Nat)
    (opts_hash : OptsHash) (p0 : zsv_ruby_parser_t)
    (h0 : zsv_parser_new_from_string host string opts_hash = .ok p0 ∨
      zsv_parser_new_from_path host path opts_hash = .ok p0) :
    zsv_options_parse host opts_hash = .ok p0.options := by
  obtain ⟨content, h0'⟩ := constructed_init host string path opts_hash p0 h0
  exact (init_common_open host _ opts_hash p0 h0').2.2.1

/-! ### Capacity of the row builder -/

/-- Doubling a positive capacity that is one slot short: one round. -/
theorem double_capacity_once (c : Nat) (h : 0 < c) :
    double_capacity (c + 1) c (c + 1) = 2 * c := by
  unfold double_capacity
  rw [if_pos (Nat.lt_succ_self c)]
  cases c with
  | zero => omega
  | succ n =>
    unfold double_capacity
    rw [if_neg (by omega)]
    omega

/-- The capacity loop returns the capacity it started from times a power of
two. -/
theorem double_capacity_pow (needed : Nat) :
    ∀ fuel c : Nat, ∃ j, double_capacity fuel c needed = c * 2 ^ j := by
  intro fuel
  induction fuel with
  | zero => intro c; exact ⟨0, by simp [double_capacity]⟩
  | succ n ih =>
    intro c
    unfold double_capacity
    split
    · obtain ⟨j, hj⟩ := ih (c * 2)
      exact ⟨j + 1, by rw [hj, pow_succ]; ring⟩
    · exact ⟨0, by simp⟩

/-- What `zsv_row_builder_ensure_capacity` does for one more cell on a builder
whose storage is in order: nothing while a slot is free, else the capacity is
doubled, the old slots kept. -/
theorem ensure_capacity_next (b : zsv_row_builder_t) (h : storage_ok b) :
    zsv_row_builder_ensure_capacity b (b.count + 1)
      = if b.count + 1 ≤ b.capacity then b
        else { b with cells := b.cells ++ List.replicate b.capacity .qnil,
                      capacity := 2 * b.capacity } := by
  obtain ⟨hlen, hpos, hcnt⟩ := h
  unfold zsv_row_builder_ensure_capacity
  by_cases hc : b.count + 1 ≤ b.capacity
  · rw [if_pos hc, if_pos hc]
  · rw [if_neg hc, if_neg hc]
    have he : b.count = b.capacity := by omega
    simp only
    rw [he, double_capacity_once b.capacity hpos, hlen]
    have : 2 * b.capacity - b.capacity = b.capacity := by omega
    rw [this]

/-- One `zsv_row_builder_add_cell` on a builder whose storage is in order:
the slot it writes is inside the storage, which is in order afterwards; the
capacity is unchanged while a slot is free and doubled otherwise. -/
theorem add_cell_capacity (b : zsv_row_builder_t) (data : List Nat) (h : storage_ok b) :
    storage_ok (zsv_row_builder_add_cell b data) ∧
    (zsv_row_builder_add_cell b data).count = b.count + 1 ∧
    b.count < (zsv_row_builder_add_cell b data).cells.length ∧
    (zsv_row_builder_add_cell b data).cells[b.count]? = some (Scalar.str data b.encoding) ∧
    (b.count + 1 ≤ b.capacity →
      (zsv_row_builder_add_cell b data).capacity = b.capacity) ∧
    (b.capacity < b.count + 1 →
      (zsv_row_builder_add_cell b data).capacity = 2 * b.capacity) := by
  have hn := ensure_capacity_next b h
  obtain ⟨hlen, hpos, hcnt⟩ := h
  unfold zsv_row_builder_add_cell
  simp only
  rw [hn]
  by_cases hc : b.count + 1 ≤ b.capacity
  · rw [if_pos hc]
    refine ⟨⟨by simp [hlen], hpos, hc⟩, rfl, by simp; omega, ?_, fun _ => rfl,
      fun h2 => by omega⟩
    exact List.getElem?_set_self (by rw [hlen]; omega)
  · rw [if_neg hc]
    refine ⟨⟨by simp [hlen]; omega, by simp; omega, by simp; omega⟩, rfl,
      by simp [hlen]; omega, ?_, fun h2 => absurd h2 hc, fun _ => rfl⟩
    exact List.getElem?_set_self (by simp [hlen]; omega)

/-- After any sequence of `reset` and `add_cell` calls on a new builder the
storage is in order and the capacity is 32 times a power of two. -/
theorem builder_calls_storage (calls : List builder_call) :
    ∀ b : zsv_row_builder_t, storage_ok b → (∃ k, b.capacity = 32 * 2 ^ k) →
      storage_ok (apply_builder_calls b calls) ∧
      (∃ k, (apply_builder_calls b calls).capacity = 32 * 2 ^ k) ∧
      b.capacity ≤ (apply_builder_calls b calls).capacity := by
  induction calls with
  | nil => intro b h hk; exact ⟨h, hk, le_refl _⟩
  | cons c rest ih =>
    intro b h hk
    have hstep : storage_ok (apply_builder_call b c) ∧
        (∃ k, (apply_builder_call b c).capacity = 32 * 2 ^ k) ∧
        b.capacity ≤ (apply_builder_call b c).capacity := by
      cases c with
      | reset =>
        exact ⟨⟨h.1, h.2.1, Nat.zero_le _⟩, hk, le_refl _⟩
      | add_cell data =>
        obtain ⟨s1, _, _, _, c1, c2⟩ := add_cell_capacity b data h
        refine ⟨s1, ?_, ?_⟩
        · by_cases hc : b.count + 1 ≤ b.capacity
          · obtain ⟨k, hk'⟩ := hk
            exact ⟨k, by show (zsv_row_builder_add_cell b data).capacity = _; rw [c1 hc, hk']⟩
          · obtain ⟨k, hk'⟩ := hk
            refine ⟨k + 1, ?_⟩
            show (zsv_row_builder_add_cell b data).capacity = _
            rw [c2 (by omega), hk', pow_succ]
            ring
        · show b.capacity ≤ (zsv_row_builder_add_cell b data).capacity
          by_cases hc : b.count + 1 ≤ b.capacity
          · rw [c1 hc]
          · rw [c2 (by omega)]; omega
    obtain ⟨r1, r2, r3⟩ := ih (apply_builder_call b c) hstep.1 hstep.2.1
    exact ⟨r1, r2, le_trans hstep.2.2 r3⟩

/-! ### The row callback during cleanup -/

/-- During cleanup the row callbacks for any rows change nothing. -/
theorem run_callbacks_cleanup (rows : List zsv_row) (p : zsv_ruby_parser_t)
    (hl : p.in_cleanup = true) : run_callbacks p rows = (p, none) := by
  induction rows with
  | nil => rfl
  | cons row rest ih =>
    unfold run_callbacks
    rw [handler_cleanup p row hl]
    exact ih

/-! ### What one row callback does to the queue and the row counter -/

/-- The row counter of an engine in order is the number of rows delivered
plus the length of the queue. -/
theorem track_count {R : List zsv_row} {d : List VALUE} {p : zsv_ruby_parser_t}
    (T : Track R d p) : p.row_count = d.length + p.row_buffer.length := by
  rw [T.cnt, ← T.out, List.length_append]

/-- A row that is neither skipped nor taken as header is exported and
appended to the queue, and the row counter goes up by one. -/
theorem handler_enqueue (p : zsv_ruby_parser_t) (r : zsv_row) (hl : p.in_cleanup = false)
    (hs : p.row_builder.headers = p.headers)
    (hsk : ¬ p.lines_skipped < skip_count p.options)
    (hc : (p.options.headers && NIL_P p.options.header_array
      && !p.header_row_processed) = false) :
    ∃ v, zsv_row_handler p r
        = ({ p with row_builder := fill_builder p.row_builder r,
                    row_buffer := p.row_buffer ++ [v], row_count := p.row_count + 1 }, none) ∧
      ((NIL_P p.headers = true ∧ v = zsv_row_builder_to_array (fill_builder p.row_builder r)) ∨
        (NIL_P p.headers = false ∧
          zsv_row_builder_to_hash (fill_builder p.row_builder r) = .ok v)) := by
  by_cases hh : NIL_P p.headers = true
  · exact ⟨_, handler_array p r hl hsk hc hh, Or.inl ⟨hh, rfl⟩⟩
  · have hh' : NIL_P p.headers = false := by simpa using hh
    obtain ⟨v, hv⟩ := to_hash_ok_of_headers (fill_builder p.row_builder r)
      (by rw [fill_builder_headers, hs]; exact hh')
    exact ⟨v, handler_hash p r hl hsk hc hh' v hv, Or.inr ⟨hh', hv⟩⟩

/-! ### The advance step that returns "no more input" -/

/-- Shift on an engine that has reached EOF does not touch the tokenizer
handle, the stream or the flags. -/
theorem shift_at_eof (p : zsv_ruby_parser_t) (he : p.eof_reached = true) :
    (zsv_parser_shift p).1.zsv = p.zsv ∧ (zsv_parser_shift p).1.eof_reached = true ∧
      (zsv_parser_shift p).1.file = p.file ∧ (zsv_parser_shift p).1.closed = p.closed := by
  cases hc : p.closed with
  | true =>
    have h : zsv_parser_shift p = (p, .ok Qnil) := by simp [zsv_parser_shift, hc]
    rw [h]; exact ⟨rfl, he, rfl, hc⟩
  | false =>
    cases hb : p.row_buffer with
    | cons row rest =>
      rw [shift_of_queue p row rest hc hb]
      exact ⟨rfl, he, rfl, hc⟩
    | nil =>
      have h : zsv_parser_shift p = (p, .ok Qnil) := by simp [zsv_parser_shift, hc, hb, he]
      rw [h]; exact ⟨rfl, he, rfl, hc⟩

theorem shift_n_at_eof (k : Nat) :
    ∀ p : zsv_ruby_parser_t, p.eof_reached = true →
      (shift_n k p).2.zsv = p.zsv ∧ (shift_n k p).2.eof_reached = true ∧
        (shift_n k p).2.file = p.file := by
  induction k with
  | zero => intro p he; exact ⟨rfl, he, rfl⟩
  | succ k ih =>
    intro p he
    obtain ⟨a1, a2, a3, _⟩ := shift_at_eof p he
    have h : shift_n (k + 1) p
        = ((zsv_parser_shift p).2 :: (shift_n k (zsv_parser_shift p).1).1,
            (shift_n k (zsv_parser_shift p).1).2) := by
      conv => lhs; unfold shift_n
    rw [h]
    obtain ⟨b1, b2, b3⟩ := ih (zsv_parser_shift p).1 a2
    exact ⟨b1.trans a1, b2, b3.trans a3⟩

/-- Shift on an open engine in order with an empty queue, EOF not reached,
whose advance step returns "no more input": the finish step runs on the
engine the advance step left, with the EOF flag not yet set, and shift returns
the front of the queue after it. -/
theorem shift_at_no_more_input (d : List VALUE) (p : zsv_ruby_parser_t) (z : zsv_scanner)
    (O : Open d p) (hz : p.zsv = some z) (hb : p.row_buffer = [])
    (he : p.eof_reached = false)
    (hst : (next_step z).status = .zsv_status_no_more_input) :
    ∃ p1 p2, zsv_parse_more p z = (p1, none, .zsv_status_no_more_input) ∧
      p1.eof_reached = false ∧ p1.in_cleanup = false ∧
      zsv_parser_finish_safe p1 = (p2, none) ∧
      zsv_finish p1 (scanner_advance z) = (p2, none) ∧
      p2.eof_reached = false ∧ p2.zsv = some (scanner_finish (scanner_advance z)) ∧
      p2.options = p.options ∧ Open d p2 ∧
      zsv_parser_shift p = shift_front { p2 with eof_reached := true } := by
  have hcl := O.2.1
  obtain ⟨p1, q1, h1, _, S1, c1⟩ := parse_more_sim d p p z O hz
  rw [hst] at h1
  have O1 : Open d p1 := sim_left S1
  simp only [ctrl, Prod.mk.injEq] at c1
  obtain ⟨c1z, _, c1o, _, c1e, _⟩ := c1
  obtain ⟨z1, hz1, T1⟩ := open_out O1
  obtain ⟨p2, q2, z2, f1, _, S2, hz2, c2⟩ := finish_safe_sim d p1 p1 O1
  rw [c1z] at hz2
  cases hz2
  simp only [ctrl, Prod.mk.injEq] at c2
  obtain ⟨c2z, _, c2o, _, c2e, _⟩ := c2
  have he1 : p1.eof_reached = false := by rw [c1e, he]
  have hfs : zsv_parser_finish_safe p1 = zsv_finish p1 (scanner_advance z) := by
    simp [zsv_parser_finish_safe, c1z, T1.live]
  refine ⟨p1, p2, h1, he1, T1.live, f1, by rw [← hfs, f1], by rw [c2e, he1], c2z,
    by rw [c2o, c1o], sim_left S2, ?_⟩
  have hs : zsv_parser_shift p = shift_advance p z := by
    simp [zsv_parser_shift, hcl, hb, he, hz]
  rw [hs]
  unfold shift_advance
  rw [h1]
  simp only
  rw [if_neg (by simp), if_pos (by simp [he1]), f1]

/-! ### Closed engines -/

/-- Close on an open engine in order: the finish step runs with cleanup off
and raises nothing, then the cleanup flag is set and the handle and the
stream are released. -/
theorem close_open (d : List VALUE) (p : zsv_ruby_parser_t) (O : Open d p) :
    ∃ z, p.zsv = some z ∧ p.in_cleanup = false ∧
      zsv_parser_close p
        = ({ (zsv_finish { p with closed := true } z).1 with
              in_cleanup := true, zsv := none, file := none }, none) ∧
      Released (zsv_parser_close p).1 := by
  have hcl := O.2.1
  obtain ⟨z, hz, T⟩ := open_out O
  have T' : Track z.reported d { p with closed := true } :=
    ⟨T.bok, T.sync, T.enc, T.live, T.arr, T.skipped, T.hdr_explicit, T.hdr_on, T.hdr_off,
      T.out, T.cnt⟩
  obtain ⟨q, hfin, _, cq⟩ := finish_track z.reported d { p with closed := true } z T'
  simp only [ctrl, Prod.mk.injEq] at cq
  obtain ⟨_, _, _, cqc, _, _⟩ := cq
  have hfin0 := hfin
  generalize hp' : ({ p with closed := true } : zsv_ruby_parser_t) = p' at hfin
  have h1 : p'.zsv = some z := by rw [← hp']; exact hz
  have h2 : p'.in_cleanup = false := by rw [← hp']; exact T.live
  have hfs : zsv_parser_finish_safe p' = (q, none) := by
    unfold zsv_parser_finish_safe
    rw [h1]
    simp only
    rw [h2]
    exact hfin
  have hclose : zsv_parser_close p
      = ({ q with in_cleanup := true, zsv := none, file := none }, none) := by
    unfold zsv_parser_close
    rw [if_neg (by rw [hcl]; simp)]
    simp only [hp', h1, hfs]
    simp only [hz]
  refine ⟨z, hz, T.live, by rw [hclose, hfin], ?_⟩
  rw [hclose]
  exact ⟨cqc, rfl, rfl, rfl⟩

/-- Each on a closed engine yields nothing and changes nothing. -/
theorem each_of_closed (p : zsv_ruby_parser_t) (h : p.closed = true) :
    zsv_parser_each p = ([], p, some (.ok ())) := by
  have hs : zsv_parser_shift p = (p, .ok Qnil) := by simp [zsv_parser_shift, h]
  unfold zsv_parser_each each_fuel
  unfold each_loop
  rw [hs]
  simp [NIL_P]

/-- One call keeps an engine open and in order, or closed and released. -/
theorem apply_call_settled (host : Host) (p : zsv_ruby_parser_t) (c : engine_call)
    (h : Settled p) : Settled (apply_call host p c) := by
  rcases h with ⟨d, O⟩ | R
  · cases c with
    | shift =>
      obtain ⟨p1, q1, res, h1, h2, S1, _⟩ := shift_sim d p p O
      refine Or.inl ⟨d ++ delivered [res], ?_⟩
      show Open _ (zsv_parser_shift p).1
      rw [h1]
      exact sim_left S1
    | each =>
      obtain ⟨_, _, l, _, S1⟩ := each_loop_sim (each_fuel p) d p p [] O
      exact Or.inl ⟨_, S1⟩
    | rewind =>
      cases hf : p.file with
      | none =>
        have hr : zsv_parser_rewind host p = (p, some .rb_eIOError) := by
          simp [zsv_parser_rewind, hf]
        refine Or.inl ⟨d, ?_⟩
        show Open d (zsv_parser_rewind host p).1
        rw [hr]
        exact O
      | some f =>
        obtain ⟨q, hq, Oq, _⟩ := rewind_open host d p f O hf
        refine Or.inl ⟨[], ?_⟩
        show Open [] (zsv_parser_rewind host p).1
        rw [hq]
        exact Oq
    | close =>
      obtain ⟨_, _, _, _, R⟩ := close_open d p O
      exact Or.inr R
  · obtain ⟨rc, rz, rf, ri⟩ := R
    have hsame : apply_call host p c = p := by
      cases c with
      | shift =>
        show (zsv_parser_shift p).1 = p
        simp [zsv_parser_shift, rc]
      | each =>
        show (zsv_parser_each p).2.1 = p
        rw [each_of_closed p rc]
      | rewind =>
        show (zsv_parser_rewind host p).1 = p
        simp [zsv_parser_rewind, rf]
      | close =>
        show (zsv_parser_close p).1 = p
        rw [close_of_closed p rc]
    rw [hsame]
    exact Or.inr ⟨rc, rz, rf, ri⟩

theorem apply_calls_settled (host : Host) (calls : List engine_call) :
    ∀ p : zsv_ruby_parser_t, Settled p → Settled (apply_calls host p calls) := by
  induction calls with
  | nil => intro p h; exact h
  | cons c rest ih =>
    intro p h
    exact ih (apply_call host p c) (apply_call_settled host p c h)

/-! ### A skip count no input reaches -/

theorem header_kept_refl (p : zsv_ruby_parser_t) : header_kept p p :=
  fun h => ⟨rfl, h⟩

theorem header_kept_trans {p q r : zsv_ruby_parser_t} (h1 : header_kept p q)
    (h2 : header_kept q r) : header_kept p r := by
  intro h
  obtain ⟨a1, a2⟩ := h2 h
  obtain ⟨b1, b2⟩ := h1 a2
  exact ⟨a1.trans b1, b2⟩

/-- The row callback changes the headers of the engine only when it sets the
header-processed flag. -/
theorem handler_header_kept (p : zsv_ruby_parser_t) (r : zsv_row) :
    header_kept p (zsv_row_handler p r).1 := by
  by_cases hl : p.in_cleanup = true
  · rw [handler_cleanup p r hl]; exact header_kept_refl p
  · have hl' : p.in_cleanup = false := by simpa using hl
    by_cases hs : p.lines_skipped < skip_count p.options
    · rw [handler_skip p r hl' hs]; exact fun h => ⟨rfl, h⟩
    · by_cases hc : (p.options.headers && NIL_P p.options.header_array
          && !p.header_row_processed) = true
      · simp only [Bool.and_eq_true, Bool.not_eq_true', nil_p_eq_true] at hc
        obtain ⟨⟨hm, ha⟩, hp⟩ := hc
        rw [handler_capture p r hl' hs hm ha hp]
        intro h
        cases h
      · have hc' : (p.options.headers && NIL_P p.options.header_array
            && !p.header_row_processed) = false := by simpa using hc
        by_cases hh : NIL_P p.headers = true
        · rw [handler_array p r hl' hs hc' hh]; exact fun h => ⟨rfl, h⟩
        · have hh' : NIL_P p.headers = false := by simpa using hh
          cases hv : zsv_row_builder_to_hash (fill_builder p.row_builder r) with
          | ok v => rw [handler_hash p r hl' hs hc' hh' v hv]; exact fun h => ⟨rfl, h⟩
          | error e => rw [handler_hash_raise p r hl' hs hc' hh' e hv]; exact fun h => ⟨rfl, h⟩

theorem run_callbacks_header_kept (rows : List zsv_row) :
    ∀ p : zsv_ruby_parser_t, header_kept p (run_callbacks p rows).1 := by
  induction rows with
  | nil => intro p; exact header_kept_refl p
  | cons r rest ih =>
    intro p
    have h1 := handler_header_kept p r
    rw [run_callbacks]
    rcases hr : zsv_row_handler p r with ⟨q, _ | e⟩
    · simp only
      rw [hr] at h1
      exact header_kept_trans h1 (ih q)
    · simp only
      rw [hr] at h1
      exact h1

theorem parse_more_header_kept (p : zsv_ruby_parser_t) (z : zsv_scanner) :
    header_kept p (zsv_parse_more p z).1 := by
  have h := run_callbacks_header_kept (next_step z).rows
    { p with zsv := some (scanner_advance z),
             file := p.file.map (fun f => { f with pos := f.pos + (next_step z).nread }) }
  exact h

theorem finish_header_kept (p : zsv_ruby_parser_t) (z : zsv_scanner) :
    header_kept p (zsv_finish p z).1 :=
  run_callbacks_header_kept z.pending { p with zsv := some (scanner_finish z) }

theorem finish_safe_header_kept (p : zsv_ruby_parser_t) :
    header_kept p (zsv_parser_finish_safe p).1 := by
  unfold zsv_parser_finish_safe
  cases p.zsv with
  | none => exact header_kept_refl p
  | some z =>
    simp only
    split
    · exact finish_header_kept p z
    · exact header_kept_refl p

theorem shift_front_header_kept (p : zsv_ruby_parser_t) :
    header_kept p (shift_front p).1 := by
  unfold shift_front
  cases p.row_buffer with
  | nil => exact header_kept_refl p
  | cons row rest => exact fun h => ⟨rfl, h⟩

theorem shift_advance_header_kept (p : zsv_ruby_parser_t) (z : zsv_scanner) :
    header_kept p (shift_advance p z).1 := by
  have h1 := parse_more_header_kept p z
  unfold shift_advance
  rcases hm : zsv_parse_more p z with ⟨p1, raised, status⟩
  rw [hm] at h1
  cases raised with
  | some e => exact h1
  | none =>
    simp only
    split_ifs
    · exact h1
    · have h2 := finish_safe_header_kept p1
      rcases hf : zsv_parser_finish_safe p1 with ⟨p2, _ | e⟩
      · rw [hf] at h2
        simp only
        have h3 := shift_front_header_kept { p2 with eof_reached := true }
        have h4 : header_kept p2 { p2 with eof_reached := true } := fun h => ⟨rfl, h⟩
        exact header_kept_trans h1 (header_kept_trans h2 (header_kept_trans h4 h3))
      · rw [hf] at h2
        exact header_kept_trans h1 h2
    · exact header_kept_trans h1 (shift_front_header_kept p1)

/-- Shift changes the headers of the engine only when the row callback
captures a header row. -/
theorem shift_header_kept (p : zsv_ruby_parser_t) :
    header_kept p (zsv_parser_shift p).1 := by
  cases hc : p.closed with
  | true =>
    have h : zsv_parser_shift p = (p, .ok Qnil) := by simp [zsv_parser_shift, hc]
    rw [h]; exact header_kept_refl p
  | false =>
    cases hb : p.row_buffer with
    | cons row rest =>
      rw [shift_of_queue p row rest hc hb]
      exact fun h => ⟨rfl, h⟩
    | nil =>
      by_cases he : p.eof_reached = true
      · have h : zsv_parser_shift p = (p, .ok Qnil) := by simp [zsv_parser_shift, hc, hb, he]
        rw [h]; exact header_kept_refl p
      · cases hz : p.zsv with
        | none =>
          have h : zsv_parser_shift p = (p, .error .rb_eRuntimeError) := by
            simp [zsv_parser_shift, hc, hb, he, hz]
          rw [h]; exact header_kept_refl p
        | some z =>
          have h : zsv_parser_shift p = shift_advance p z := by
            simp [zsv_parser_shift, hc, hb, he, hz]
          rw [h]; exact shift_advance_header_kept p z

theorem shift_n_header_kept (n : Nat) :
    ∀ p : zsv_ruby_parser_t, header_kept p (shift_n n p).2 := by
  induction n with
  | zero => intro p; exact header_kept_refl p
  | succ n ih =>
    intro p
    have h : shift_n (n + 1) p
        = ((zsv_parser_shift p).2 :: (shift_n n (zsv_parser_shift p).1).1,
            (shift_n n (zsv_parser_shift p).1).2) := by
      conv => lhs; unfold shift_n
    rw [h]
    exact header_kept_trans (shift_header_kept p) (ih _)

/-- A negative `skip_lines` in the range of a C `int`, converted to
`size_t`, is `2^64` plus its value. -/
theorem size_t_of_negative (s : Int) (h1 : -(2 ^ 31 : Int) ≤ s) (h2 : s < 0) :
    (size_t_of_int s : Int) = 2 ^ 64 + s := by
  unfold size_t_of_int
  have hm : s % (2 ^ 64 : Int) = 2 ^ 64 + s := by
    have h3 : (2 ^ 64 + s) % (2 ^ 64 : Int) = 2 ^ 64 + s := by
      apply Int.emod_eq_of_lt <;> omega
    rw [← h3]
    simp
  rw [hm]
  have : (0 : Int) ≤ 2 ^ 64 + s := by omega
  omega

/-- Rows that all lie below the skip count: the callbacks for them only fill
the row builder and count the rows as skipped. -/
theorem run_callbacks_all_skipped (rows : List zsv_row) :
    ∀ p : zsv_ruby_parser_t, p.in_cleanup = false →
      p.lines_skipped + rows.length ≤ skip_count p.options →
      run_callbacks p rows
        = ({ p with row_builder := rows.foldl fill_builder p.row_builder,
                    lines_skipped := p.lines_skipped + rows.length }, none) := by
  induction rows with
  | nil => intro p _ _; rfl
  | cons r rest ih =>
    intro p hl hle
    simp only [List.length_cons] at hle
    unfold run_callbacks
    rw [handler_skip p r hl (by omega)]
    simp only
    have h2 := ih { p with row_builder := fill_builder p.row_builder r,
                           lines_skipped := p.lines_skipped + 1 } hl
      (by show p.lines_skipped + 1 + rest.length ≤ skip_count p.options; omega)
    rw [h2]
    have e : p.lines_skipped + 1 + rest.length = p.lines_skipped + (rest.length + 1) := by
      omega
    simp only [List.foldl_cons, List.length_cons, e]

/-- A row that shift returns as a value other than `nil` is among the rows
delivered. -/
theorem mem_delivered (results : List (Except Raised VALUE)) (v : VALUE)
    (hm : .ok v ∈ results) (hn : NIL_P v = false) : v ∈ delivered results := by
  unfold delivered
  rw [List.mem_filterMap]
  exact ⟨.ok v, hm, by simp [hn]⟩

/-! ## Claims -/

/-- C1 as stated fails: with header mode on, header row `a` and data row
`x,y`, shift delivers `{"a"=>"x", 1=>"y"}`; the key `1` of this delivered
mapping is not one of the header row's values. -/
theorem header_mode_row_with_excess_cell :
    (zsv_parser_shift ragged_engine).2
      = .ok (.hash [(ustr "a", ustr "x"), (.fixnum 1, ustr "y")]) ∧
    zsv_parser_headers (zsv_parser_shift ragged_engine).1 = .ary [ustr "a"] ∧
    ¬ (∀ key ∈ [ustr "a", Scalar.fixnum 1], key ∈ [ustr "a"]) := by
  decide

/-- C1, amended: with header mode on (`headers: true`, no explicit list,
`skip_lines` 0), for every sequence of rows `r1..rn` reported by the
tokenizer to a freshly constructed engine, `r1` is not enqueued and never
delivered, the headers query returns `r1`'s cells, and the rows enqueued and
delivered (by any number of shift calls, and by each, which ends) are, in
order, the mapping conversions of `r2..rn` against `r1`: `r1[i]` paired with
the row's cell `i`, a cell beyond the length of `r1` under its Integer column
index.  For a row with no more cells than `r1`, when the values of `r1` are pairwise
distinct, the mapping is exactly `r1`'s values paired by column index with
the row's cells.  E.g. the input `name,age / Ada,36 / Lin,29` gives headers
`["name","age"]` and shift returns `{"name"=>"Ada","age"=>"36"}`, then
`{"name"=>"Lin","age"=>"29"}`, then `nil`. -/
theorem header_mode_first_row_is_header (host : Host) (string : VALUE) (path : List Nat)
    (opts_hash : OptsHash) (p0 : zsv_ruby_parser_t)
    (h0 : zsv_parser_new_from_string host string opts_hash = .ok p0 ∨
      zsv_parser_new_from_path host path opts_hash = .ok p0)
    (hm : p0.options.headers = true) (ha : p0.options.header_array = Qnil)
    (hk : p0.options.skip_lines = 0) :
    (∀ (r1 : zsv_row) (rest : List zsv_row), ∃ q, run_callbacks p0 (r1 :: rest) = (q, none) ∧
      zsv_parser_headers q = .ary (cells_of p0.options.encoding r1) ∧
      q.row_buffer = rest.map (fun r =>
        row_to_hash (cells_of p0.options.encoding r1) (cells_of p0.options.encoding r))) ∧
    (∀ n, ∃ z, (shift_n n p0).2.zsv = some z ∧
      (z.reported = [] → delivered (shift_n n p0).1 = []) ∧
      (∀ r1 rest, z.reported = r1 :: rest →
        zsv_parser_headers (shift_n n p0).2 = .ary (cells_of p0.options.encoding r1) ∧
        delivered (shift_n n p0).1 ++ (shift_n n p0).2.row_buffer
          = rest.map (fun r =>
            row_to_hash (cells_of p0.options.encoding r1) (cells_of p0.options.encoding r)))) ∧
    (zsv_parser_each p0).2.2 ≠ none ∧
    (∃ z, (zsv_parser_each p0).2.1.zsv = some z ∧
      (z.reported = [] → (zsv_parser_each p0).1 = []) ∧
      (∀ r1 rest, z.reported = r1 :: rest →
        (zsv_parser_each p0).1 ++ (zsv_parser_each p0).2.1.row_buffer
          = rest.map (fun r =>
            row_to_hash (cells_of p0.options.encoding r1) (cells_of p0.options.encoding r)))) ∧
    (∀ r1 r : zsv_row, (cells_of p0.options.encoding r1).Nodup → r.length ≤ r1.length →
      row_to_hash (cells_of p0.options.encoding r1) (cells_of p0.options.encoding r)
        = .hash ((cells_of p0.options.encoding r1).zip (cells_of p0.options.encoding r))) ∧
    ((shift_n 3 people_engine).1
        = [.ok (.hash [(ustr "name", ustr "Ada"), (ustr "age", ustr "36")]),
           .ok (.hash [(ustr "name", ustr "Lin"), (ustr "age", ustr "29")]), .ok Qnil] ∧
      zsv_parser_headers (shift_n 3 people_engine).2 = .ary [ustr "name", ustr "age"] ∧
      (zsv_parser_each people_engine).1
        = [.hash [(ustr "name", ustr "Ada"), (ustr "age", ustr "36")],
           .hash [(ustr "name", ustr "Lin"), (ustr "age", ustr "29")]] ∧
      (zsv_parser_each people_engine).2.2 = some (.ok ())) := by
  obtain ⟨content, hi⟩ := constructed_init host string path opts_hash p0 h0
  obtain ⟨O0, _, hparse, _⟩ := init_common_open host _ opts_hash p0 hi
  have hK : skip_count p0.options = 0 := by
    unfold skip_count size_t_of_int
    rw [hk]; rfl
  refine ⟨?_, ?_, each_terminates [] p0 O0, ?_, ?_, by decide⟩
  · intro r1 rest
    obtain ⟨q, hq, T, ho⟩ := fresh_callbacks host content opts_hash p0 (r1 :: rest) hi
    have hd : (r1 :: rest).drop (skip_count q.options) = r1 :: rest := by rw [ho, hK]; rfl
    have hout := T.out
    rw [expected_rows_on _ _ r1 rest (ho ▸ ha) (ho ▸ hm) hd, ho] at hout
    have hh := (T.hdr_on (ho ▸ ha) (ho ▸ hm)).2 r1 rest hd
    rw [ho] at hh
    exact ⟨q, hq, hh, by simpa using hout⟩
  · intro n
    obtain ⟨z, hz, T, ho⟩ := fresh_shifts host content opts_hash p0 n hi
    refine ⟨z, hz, ?_, ?_⟩
    · intro hR
      have hout := T.out
      rw [hR, expected_rows_nil] at hout
      exact (List.append_eq_nil.mp hout).1
    · intro r1 rest hR
      have hd : z.reported.drop (skip_count (shift_n n p0).2.options) = r1 :: rest := by
        rw [ho, hK, hR]; rfl
      have hout := T.out
      rw [expected_rows_on _ _ r1 rest (ho ▸ ha) (ho ▸ hm) hd, ho] at hout
      have hh := (T.hdr_on (ho ▸ ha) (ho ▸ hm)).2 r1 rest hd
      rw [ho] at hh
      exact ⟨hh, hout⟩
  · obtain ⟨_, _, l, hl, S⟩ := each_loop_sim (each_fuel p0) [] p0 p0 [] O0
    obtain ⟨z, hz, T⟩ := open_out S
    have hl' : (zsv_parser_each p0).1 = l := by
      unfold zsv_parser_each; rw [hl]; rfl
    have ho : (zsv_parser_each p0).2.1.options = p0.options := by
      have hs := each_loop_source (each_fuel p0) [] p0 p0 [] O0
      have := congrArg Prod.fst hs
      simpa [source, zsv_parser_each] using this
    refine ⟨z, hz, ?_, ?_⟩
    · intro hR
      have hout := T.out
      rw [hR, expected_rows_nil] at hout
      rw [hl']
      simpa using (List.append_eq_nil.mp hout).1
    · intro r1 rest hR
      have hd : z.reported.drop (skip_count (zsv_parser_each p0).2.1.options) = r1 :: rest := by
        rw [ho, hK, hR]; rfl
      have hout := T.out
      have T' : Track z.reported ([] ++ l) (zsv_parser_each p0).2.1 := T
      have hout' := T'.out
      rw [expected_rows_on _ _ r1 rest (ho ▸ ha) (ho ▸ hm) hd, ho] at hout'
      rw [hl']
      simpa using hout'
  · intro r1 r hd hle
    rw [row_to_hash_distinct _ _ hd (cells_of_not_integer _ _),
      excess_pairs_nil _ _ (by simpa [cells_of] using hle), List.append_nil]

/-- C1 amended, at a concrete input: the engine over
`name,age / Ada,36 / Lin,29` with `headers: true`. -/
theorem header_mode_first_row_is_header_witness :
    ((zsv_parser_new_from_string people_host people_source headers_true = .ok people_engine ∨
        zsv_parser_new_from_path people_host [] headers_true = .ok people_engine) ∧
      people_engine.options.headers = true ∧ people_engine.options.header_array = Qnil ∧
      people_engine.options.skip_lines = 0) ∧
    ∃ q, run_callbacks people_engine
        [[ascii "name", ascii "age"], [ascii "Ada", ascii "36"], [ascii "Lin", ascii "29"]]
        = (q, none) ∧
      zsv_parser_headers q = .ary [ustr "name", ustr "age"] ∧
      q.row_buffer = [.hash [(ustr "name", ustr "Ada"), (ustr "age", ustr "36")],
        .hash [(ustr "name", ustr "Lin"), (ustr "age", ustr "29")]] := by
  refine ⟨⟨Or.inl (by decide), by decide, by decide, by decide⟩, ?_⟩
  obtain ⟨q, hq, a, b⟩ :=
    (header_mode_first_row_is_header people_host people_source [] headers_true people_engine
      (Or.inl (by decide)) (by decide) (by decide) (by decide)).1
      [ascii "name", ascii "age"] [[ascii "Ada", ascii "36"], [ascii "Lin", ascii "29"]]
  refine ⟨q, hq, ?_, ?_⟩
  · rw [a]; decide
  · rw [b]; decide

/-- C2: for every skip count `k >= 0` and every sequence of rows reported by
the tokenizer to a freshly constructed engine without explicit headers, the
row callback discards exactly the first `min(k, n)` rows: the skip counter
ends at `min(k, n)`, none of these rows is enqueued, counted or taken as
header.  With headers off the enqueued rows are the sequences of
`r_{k+1}..r_n` and the row counter is their number; with headers on
`r_{k+1}` becomes the header row and `r_{k+2}..r_n` are enqueued as mappings
keyed by it.  The same holds for what shift delivers: after any number of
shift calls the rows delivered so far followed by the queue are these rows
for the rows the tokenizer has reported so far.  E.g. the rows `A,B`, `1,2`,
`3,4` with `skip_lines: 1, headers: true` make `["1","2"]` the header and
`{"1"=>"3","2"=>"4"}` the only data row. -/
theorem skip_lines_before_classification (host : Host) (string : VALUE) (path : List Nat)
    (opts_hash : OptsHash) (p0 : zsv_ruby_parser_t) (k : Nat)
    (h0 : zsv_parser_new_from_string host string opts_hash = .ok p0 ∨
      zsv_parser_new_from_path host path opts_hash = .ok p0)
    (hk : p0.options.skip_lines = Int.ofNat k) (ha : p0.options.header_array = Qnil) :
    (∀ rows : List zsv_row, ∃ q, run_callbacks p0 rows = (q, none) ∧
      q.lines_skipped = min k rows.length ∧
      (p0.options.headers = false →
        q.row_buffer = (rows.drop k).map (fun r => .ary (cells_of p0.options.encoding r)) ∧
        zsv_parser_row_count q = (rows.drop k).length ∧ zsv_parser_headers q = Qnil) ∧
      (p0.options.headers = true →
        (rows.length ≤ k →
          q.row_buffer = [] ∧ zsv_parser_row_count q = 0 ∧ q.header_row_processed = false) ∧
        (∀ h rest, rows.drop k = h :: rest →
          zsv_parser_headers q = .ary (cells_of p0.options.encoding h) ∧
          q.row_buffer = rest.map (fun r =>
            row_to_hash (cells_of p0.options.encoding h) (cells_of p0.options.encoding r)) ∧
          zsv_parser_row_count q = rest.length))) ∧
    (∀ n, ∃ z, (shift_n n p0).2.zsv = some z ∧
      (p0.options.headers = false →
        delivered (shift_n n p0).1 ++ (shift_n n p0).2.row_buffer
          = (z.reported.drop k).map (fun r => .ary (cells_of p0.options.encoding r))) ∧
      (p0.options.headers = true → ∀ h rest, z.reported.drop k = h :: rest →
        zsv_parser_headers (shift_n n p0).2 = .ary (cells_of p0.options.encoding h) ∧
        delivered (shift_n n p0).1 ++ (shift_n n p0).2.row_buffer
          = rest.map (fun r =>
            row_to_hash (cells_of p0.options.encoding h) (cells_of p0.options.encoding r)))) ∧
    ((run_callbacks ab_engine
        [[ascii "A", ascii "B"], [ascii "1", ascii "2"], [ascii "3", ascii "4"]]).1.headers
        = .ary [ustr "1", ustr "2"] ∧
      (run_callbacks ab_engine
        [[ascii "A", ascii "B"], [ascii "1", ascii "2"], [ascii "3", ascii "4"]]).1.row_buffer
        = [.hash [(ustr "1", ustr "3"), (ustr "2", ustr "4")]] ∧
      (shift_n 3 ab_engine).1
        = [.ok (.hash [(ustr "1", ustr "3"), (ustr "2", ustr "4")]), .ok Qnil, .ok Qnil] ∧
      zsv_parser_headers (shift_n 3 ab_engine).2 = .ary [ustr "1", ustr "2"]) := by
  obtain ⟨content, hi⟩ := constructed_init host string path opts_hash p0 h0
  obtain ⟨_, _, hparse, _⟩ := init_common_open host _ opts_hash p0 hi
  have hK : skip_count p0.options = k :=
    skip_count_of_nat _ k hk (options_parse_skip_range host opts_hash _ hparse).2
  refine ⟨?_, ?_, by decide⟩
  · intro rows
    obtain ⟨q, hq, T, ho⟩ := fresh_callbacks host content opts_hash p0 rows hi
    have hKq : skip_count q.options = k := by rw [ho]; exact hK
    have haq : q.options.header_array = Qnil := by rw [ho]; exact ha
    refine ⟨q, hq, ?_, ?_, ?_⟩
    · rw [T.skipped, hKq]
    · intro hm
      have hmq : q.options.headers = false := by rw [ho]; exact hm
      have hout := T.out
      rw [expected_rows_off _ _ haq hmq, hKq, ho] at hout
      have hcnt := T.cnt
      rw [expected_rows_off _ _ haq hmq, hKq] at hcnt
      exact ⟨by simpa using hout, by simpa [zsv_parser_row_count] using hcnt, T.hdr_off haq hmq⟩
    · intro hm
      have hmq : q.options.headers = true := by rw [ho]; exact hm
      obtain ⟨h1, h2⟩ := T.hdr_on haq hmq
      refine ⟨?_, ?_⟩
      · intro hle
        have hE : expected_rows q.options rows = [] :=
          expected_rows_skip _ _ (by rw [hKq]; exact hle)
        have hout := T.out
        have hcnt := T.cnt
        rw [hE] at hout hcnt
        refine ⟨by simpa using hout, by simpa [zsv_parser_row_count] using hcnt, ?_⟩
        rw [h1, hKq]
        exact decide_eq_false (by omega)
      · intro h rest hd
        have hdq : rows.drop (skip_count q.options) = h :: rest := by rw [hKq]; exact hd
        have hE := expected_rows_on _ _ h rest haq hmq hdq
        have hout := T.out
        have hcnt := T.cnt
        rw [hE] at hout hcnt
        rw [ho] at hout
        refine ⟨?_, by simpa using hout, by simpa [zsv_parser_row_count] using hcnt⟩
        have := h2 h rest hdq
        rw [ho] at this
        exact this
  · intro n
    obtain ⟨z, hz, T, ho⟩ := fresh_shifts host content opts_hash p0 n hi
    have hKq : skip_count (shift_n n p0).2.options = k := by rw [ho]; exact hK
    have haq : (shift_n n p0).2.options.header_array = Qnil := by rw [ho]; exact ha
    refine ⟨z, hz, ?_, ?_⟩
    · intro hm
      have hmq : (shift_n n p0).2.options.headers = false := by rw [ho]; exact hm
      have hout := T.out
      rw [expected_rows_off _ _ haq hmq, hKq, ho] at hout
      exact hout
    · intro hm h rest hd
      have hmq : (shift_n n p0).2.options.headers = true := by rw [ho]; exact hm
      have hdq : z.reported.drop (skip_count (shift_n n p0).2.options) = h :: rest := by
        rw [hKq]; exact hd
      have hout := T.out
      rw [expected_rows_on _ _ h rest haq hmq hdq, ho] at hout
      have := (T.hdr_on haq hmq).2 h rest hdq
      rw [ho] at this
      exact ⟨this, hout⟩

/-- C2 at a concrete input: the engine over `A,B / 1,2 / 3,4` with
`skip_lines: 1, headers: true`. -/
theorem skip_lines_before_classification_witness :
    ((zsv_parser_new_from_string ab_host (.scalar (ustr "A,B\n1,2\n3,4\n"))
        (.hash [(id_skip_lines, .scalar (.fixnum 1)), (id_headers, Qtrue)]) = .ok ab_engine ∨
      zsv_parser_new_from_path ab_host []
        (.hash [(id_skip_lines, .scalar (.fixnum 1)), (id_headers, Qtrue)]) = .ok ab_engine) ∧
      ab_engine.options.skip_lines = Int.ofNat 1 ∧ ab_engine.options.header_array = Qnil) ∧
    ∃ q, run_callbacks ab_engine
        [[ascii "A", ascii "B"], [ascii "1", ascii "2"], [ascii "3", ascii "4"]] = (q, none) ∧
      q.lines_skipped = 1 ∧ zsv_parser_headers q = .ary [ustr "1", ustr "2"] ∧
      q.row_buffer = [.hash [(ustr "1", ustr "3"), (ustr "2", ustr "4")]] ∧
      zsv_parser_row_count q = 1 := by
  refine ⟨⟨Or.inl (by decide), by decide, by decide⟩, ?_⟩
  obtain ⟨q, hq, h1, _, h3⟩ :=
    (skip_lines_before_classification ab_host (.scalar (ustr "A,B\n1,2\n3,4\n")) []
      (.hash [(id_skip_lines, .scalar (.fixnum 1)), (id_headers, Qtrue)]) ab_engine 1
      (Or.inl (by decide)) (by decide) (by decide)).1
      [[ascii "A", ascii "B"], [ascii "1", ascii "2"], [ascii "3", ascii "4"]]
  obtain ⟨a, b, c⟩ := (h3 (by decide)).2 [ascii "1", ascii "2"] [[ascii "3", ascii "4"]] rfl
  refine ⟨q, hq, by simpa using h1, ?_, ?_, by simpa using c⟩
  · rw [a]; decide
  · rw [b]; decide

/-- C3 as stated fails: for headers `["a","b"]` and the row `["x","y","z"]`
the mapping conversion returns `{"a"=>"x", "b"=>"y", 2=>"z"}`; the key of the
excess cell is the Integer `2`, not the string `"2"`. -/
theorem to_hash_excess_key_not_string :
    abxyz_builder.header_cache = [ustr "a", ustr "b"] ∧
    zsv_row_builder_to_array abxyz_builder = .ary [ustr "x", ustr "y", ustr "z"] ∧
    zsv_row_builder_to_hash abxyz_builder
      = .ok (.hash [(ustr "a", ustr "x"), (ustr "b", ustr "y"), (.fixnum 2, ustr "z")]) ∧
    zsv_row_builder_to_hash abxyz_builder
      ≠ .ok (.hash [(ustr "a", ustr "x"), (ustr "b", ustr "y"), (ustr "2", ustr "z")]) := by
  decide

/-- C3, amended: for every header list `h` and every current row `c` with
more cells than headers, the mapping conversion inserts `h[i] => c[i]` for
every `i < len(h)` and then every excess cell `c[i]`, `len(h) <= i < len(c)`,
under the key that is the Integer `i` (not a string), each insertion with the
semantics of `Hash#[]=`; when the header names are pairwise distinct and none
of them is an Integer the result has exactly these `len(c)` entries in this
order. -/
theorem to_hash_more_cells_than_headers (b : zsv_row_builder_t) (h c : List Scalar)
    (hh : NIL_P b.headers = false) (hcache : b.header_cache = h)
    (hcount : b.header_count = h.length) (hrow : b.cells.take b.count = c)
    (hn : b.count ≤ b.cells.length) (hlt : h.length < c.length) :
    zsv_row_builder_to_hash b
      = .ok (.hash (hash_of_pairs (h.zip c ++ excess_pairs h.length c))) ∧
    ((h.zip c).length = h.length ∧
      ∀ i, i < h.length → (h.zip c)[i]? = some (h.getD i .qnil, c.getD i .qnil)) ∧
    ((excess_pairs h.length c).length = c.length - h.length ∧
      ∀ i, h.length ≤ i → i < c.length →
        (excess_pairs h.length c)[i - h.length]? = some (.fixnum (Int.ofNat i), c.getD i .qnil)) ∧
    (h.Nodup → (∀ k ∈ h, ∀ i : Nat, k ≠ .fixnum (Int.ofNat i)) →
      zsv_row_builder_to_hash b = .ok (.hash (h.zip c ++ excess_pairs h.length c))) := by
  have hspec := to_hash_spec b hh (by rw [hcount, hcache]) hn
  rw [hrow, hcache] at hspec
  refine ⟨hspec, ⟨?_, ?_⟩, ⟨excess_pairs_length _ _, ?_⟩, ?_⟩
  · simp only [List.length_zip]; omega
  · intro i hi
    exact zip_get h c i hi (by omega)
  · intro i h1 h2
    exact excess_pairs_get _ _ i h1 h2
  · intro hd hi
    rw [hspec, row_to_hash_distinct h c hd hi]

/-- C3 amended, at a concrete input: headers `["a","b"]`, row `["x","y","z"]`. -/
theorem to_hash_more_cells_than_headers_witness :
    (NIL_P abxyz_builder.headers = false ∧
      abxyz_builder.header_cache = [ustr "a", ustr "b"] ∧
      abxyz_builder.header_count = [ustr "a", ustr "b"].length ∧
      abxyz_builder.cells.take abxyz_builder.count = [ustr "x", ustr "y", ustr "z"] ∧
      abxyz_builder.count ≤ abxyz_builder.cells.length ∧
      [ustr "a", ustr "b"].length < [ustr "x", ustr "y", ustr "z"].length) ∧
    zsv_row_builder_to_hash abxyz_builder
      = .ok (.hash (hash_of_pairs ([ustr "a", ustr "b"].zip [ustr "x", ustr "y", ustr "z"]
          ++ excess_pairs [ustr "a", ustr "b"].length [ustr "x", ustr "y", ustr "z"]))) :=
  ⟨by decide,
    (to_hash_more_cells_than_headers abxyz_builder [ustr "a", ustr "b"]
      [ustr "x", ustr "y", ustr "z"] (by decide) (by decide) (by decide) (by decide)
      (by decide) (by decide)).1⟩

/-- C4 (the code at the failing input): when the first advance step reports
only the header row (or no row at all) with status "ok", the first shift
returns `nil` although the input is not exhausted, so `each` ends without
yielding anything and without the EOF flag set; the data rows are reported by
the next advance step and later shift calls return them. -/
theorem each_stops_before_end_of_input :
    ((zsv_parser_each chunked_engine).1 = [] ∧
      (zsv_parser_each chunked_engine).2.2 = some (.ok ()) ∧
      (zsv_parser_each chunked_engine).2.1.eof_reached = false ∧
      (each_loop 100 chunked_engine []).1 = [] ∧
      (shift_n 4 chunked_engine).1
        = [.ok Qnil, .ok (.hash [(ustr "name", ustr "Ada"), (ustr "age", ustr "36")]),
           .ok (.hash [(ustr "name", ustr "Lin"), (ustr "age", ustr "29")]), .ok Qnil] ∧
      expected_rows chunked_engine.options
          [[ascii "name", ascii "age"], [ascii "Ada", ascii "36"], [ascii "Lin", ascii "29"]]
        = [.hash [(ustr "name", ustr "Ada"), (ustr "age", ustr "36")],
           .hash [(ustr "name", ustr "Lin"), (ustr "age", ustr "29")]]) ∧
    ((zsv_parser_each slow_engine).1 = [] ∧
      (zsv_parser_each slow_engine).2.2 = some (.ok ()) ∧
      (zsv_parser_each slow_engine).2.1.eof_reached = false ∧
      (shift_n 3 slow_engine).1 = [.ok Qnil, .ok (.ary [ustr "a", ustr "b"]), .ok Qnil]) := by
  decide

/-- C5: in every engine state that is closed, or in which EOF has been reached
and the row queue is empty, shift returns `nil` (end-of-stream) and leaves
the whole engine state unchanged, the tokenizer handle with its call counters
included, so the tokenizer is not invoked; hence any number of repeated shift
calls return `nil` each time and leave the state as it was.  A closed engine
does so even with rows still queued. -/
theorem shift_idempotent_at_end_of_stream (p : zsv_ruby_parser_t)
    (h : p.closed = true ∨ (p.eof_reached = true ∧ p.row_buffer = [])) :
    zsv_parser_shift p = (p, .ok Qnil) ∧
      ∀ n, shift_n n p = (List.replicate n (.ok Qnil), p) := by
  have h1 : zsv_parser_shift p = (p, .ok Qnil) := by
    unfold zsv_parser_shift
    rcases h with h | ⟨h, hb⟩
    · simp [h]
    · by_cases hc : p.closed = true
      · simp [hc]
      · simp [hc, hb, h]
  refine ⟨h1, ?_⟩
  intro n
  induction n with
  | zero => rfl
  | succ n ih => simp only [shift_n, h1, ih, List.replicate_succ]

/-- C5 at a concrete input: a closed engine with a row still queued. -/
theorem shift_idempotent_at_end_of_stream_witness :
    ((closed_with_row.closed = true ∨
        (closed_with_row.eof_reached = true ∧ closed_with_row.row_buffer = [])) ∧
      closed_with_row.row_buffer
        = [.hash [(ustr "name", ustr "Lin"), (ustr "age", ustr "29")]]) ∧
    (zsv_parser_shift closed_with_row = (closed_with_row, .ok Qnil) ∧
      ∀ n, shift_n n closed_with_row = (List.replicate n (.ok Qnil), closed_with_row)) :=
  ⟨⟨Or.inl (by decide), by decide⟩,
    shift_idempotent_at_end_of_stream closed_with_row (Or.inl (by decide))⟩

/-- C6: close is idempotent.  For every engine state, a second close returns
without raising and leaves the state the first close produced unchanged in
every field: `closed`, `in_cleanup`, the tokenizer handle (with its finish
counter, so finish is not invoked again, and not released again), the input
stream, the row queue and the counters. -/
theorem close_idempotent (s : zsv_ruby_parser_t) :
    zsv_parser_close (zsv_parser_close s).1 = ((zsv_parser_close s).1, none) ∧
      (zsv_parser_close s).1.closed = true :=
  ⟨close_of_closed _ (close_closed s), close_closed s⟩

/-- C7: on an engine built from a path or from an in-memory string, after any
number of shift calls, rewind does not raise and sets the row counter, the
skip-lines counter, the header-processed flag, the EOF flag and the cleanup
flag to zero/false and the row queue to empty; from then on every shift call
returns exactly what the same call returns on a freshly constructed engine
over the same source and options, so each ends, yields the same rows and
ends the same way; and in header mode without an explicit list the header row is
captured from the input again: the header-processed flag and, once it is set,
the answer of the headers query agree with the fresh engine. -/
theorem rewind_reproduces_fresh_parse (host : Host) (string : VALUE) (path : List Nat)
    (opts_hash : OptsHash) (p0 : zsv_ruby_parser_t) (n : Nat)
    (h0 : zsv_parser_new_from_string host string opts_hash = .ok p0 ∨
      zsv_parser_new_from_path host path opts_hash = .ok p0) :
    ∃ q, zsv_parser_rewind host (shift_n n p0).2 = (q, none) ∧
      (zsv_parser_row_count q = 0 ∧ q.lines_skipped = 0 ∧ q.header_row_processed = false ∧
        q.eof_reached = false ∧ q.in_cleanup = false ∧ q.row_buffer = []) ∧
      (∀ k, (shift_n k q).1 = (shift_n k p0).1) ∧
      ((zsv_parser_each q).1 = (zsv_parser_each p0).1 ∧
        (zsv_parser_each q).2.2 = (zsv_parser_each p0).2.2 ∧
        (zsv_parser_each q).2.2 ≠ none) ∧
      (p0.options.header_array = Qnil → p0.options.headers = true → ∀ k,
        (shift_n k q).2.header_row_processed = (shift_n k p0).2.header_row_processed ∧
        ((shift_n k p0).2.header_row_processed = true →
          zsv_parser_headers (shift_n k q).2 = zsv_parser_headers (shift_n k p0).2)) := by
  obtain ⟨content, hi⟩ := constructed_init host string path opts_hash p0 h0
  obtain ⟨q, hq, S, hc, hl, hp, hb, _⟩ := rewind_sim_fresh host content opts_hash p0 n hi
  obtain ⟨_, c0, _⟩ := init_common_open host _ opts_hash p0 hi
  have hcq : ctrl q = ctrl p0 := S.1
  rw [c0] at hcq
  simp only [ctrl, Prod.mk.injEq] at hcq
  obtain ⟨_, _, _, _, heof, hcleanup⟩ := hcq
  refine ⟨q, hq, ⟨hc, hl, hp, heof, hcleanup, hb⟩, ?_, ?_, ?_⟩
  · intro k
    exact (shift_n_sim k [] q p0 S).1
  · have ht := each_terminates [] q (sim_left S)
    obtain ⟨e1, e2, _⟩ := each_loop_sim (each_fuel q) [] q p0 [] S
    unfold zsv_parser_each at ht ⊢
    rw [← sim_each_fuel S]
    exact ⟨e1, e2, ht⟩
  · intro ha hm k
    obtain ⟨_, Sk, hsq, _⟩ := shift_n_sim k [] q p0 S
    obtain ⟨_, _, hs0, _⟩ := shift_n_sim k [] p0 p0 (sim_right S)
    have ho0 : (shift_n k p0).2.options = p0.options := by
      have := congrArg Prod.fst hs0
      simpa [source] using this
    have Sk' := sim_symm Sk
    have hok := sim_options Sk'
    have ha' : (shift_n k p0).2.options.header_array = Qnil := by rw [ho0]; exact ha
    have hm' : (shift_n k p0).2.options.headers = true := by rw [ho0]; exact hm
    refine ⟨?_, ?_⟩
    · obtain ⟨_, _, z, _, Tp, Tq⟩ := Sk'
      rw [(Tp.hdr_on ha' hm').1, (Tq.hdr_on (hok ▸ ha') (hok ▸ hm')).1, hok]
    · intro hproc
      exact ((sim_headers Sk' (fun _ _ => hproc)).1).symm

/-- C7 at a concrete input: the engine over `name,age / Ada,36 / Lin,29` with
`headers: true`, rewound after two shifts. -/
theorem rewind_reproduces_fresh_parse_witness :
    (zsv_parser_new_from_string people_host people_source headers_true = .ok people_engine ∨
      zsv_parser_new_from_path people_host [] headers_true = .ok people_engine) ∧
    ∃ q, zsv_parser_rewind people_host (shift_n 2 people_engine).2 = (q, none) ∧
      (zsv_parser_row_count q = 0 ∧ q.lines_skipped = 0 ∧ q.header_row_processed = false ∧
        q.eof_reached = false ∧ q.in_cleanup = false ∧ q.row_buffer = []) ∧
      (∀ k, (shift_n k q).1 = (shift_n k people_engine).1) ∧
      ((zsv_parser_each q).1 = (zsv_parser_each people_engine).1 ∧
        (zsv_parser_each q).2.2 = (zsv_parser_each people_engine).2.2 ∧
        (zsv_parser_each q).2.2 ≠ none) ∧
      (people_engine.options.header_array = Qnil → people_engine.options.headers = true → ∀ k,
        (shift_n k q).2.header_row_processed = (shift_n k people_engine).2.header_row_processed ∧
        ((shift_n k people_engine).2.header_row_processed = true →
          zsv_parser_headers (shift_n k q).2 = zsv_parser_headers (shift_n k people_engine).2)) :=
  ⟨Or.inl (by decide),
    rewind_reproduces_fresh_parse people_host people_source [] headers_true people_engine 2
      (Or.inl (by decide))⟩

/-- C8: options resolution fails whenever `col_sep` or `quote_char` is
supplied as a string whose byte length is not one (`ArgumentError`; for
`quote_char` an earlier failure of the `col_sep` block takes precedence).  A
value of exactly one byte passes the block of its field, which stores that
byte, and whenever the whole resolution succeeds the resolved delimiter and
quote character are those bytes; e.g. `{col_sep: ";", quote_char: "'"}`
resolves to delimiter 59 and quote character 39. -/
theorem options_parse_single_byte_fields (host : Host) (kv : List (Scalar × VALUE)) :
    (∀ bytes enc, rb_hash_lookup kv id_col_sep = .scalar (.str bytes enc) →
      bytes.length ≠ 1 → zsv_options_parse host (.hash kv) = .error .rb_eArgError) ∧
    (∀ bytes enc, rb_hash_lookup kv id_quote_char = .scalar (.str bytes enc) →
      bytes.length ≠ 1 →
      (∃ e, zsv_options_parse host (.hash kv) = .error e) ∧
      (∀ o1, parse_col_sep kv zsv_options_init = .ok o1 →
        zsv_options_parse host (.hash kv) = .error .rb_eArgError)) ∧
    (∀ b enc o, rb_hash_lookup kv id_col_sep = .scalar (.str [b] enc) →
      parse_col_sep kv o = .ok { o with delimiter := b }) ∧
    (∀ b enc o, rb_hash_lookup kv id_quote_char = .scalar (.str [b] enc) →
      parse_quote_char kv o = .ok { o with quote_char := b }) ∧
    (∀ b enc o, rb_hash_lookup kv id_col_sep = .scalar (.str [b] enc) →
      zsv_options_parse host (.hash kv) = .ok o → o.delimiter = b) ∧
    (∀ b enc o, rb_hash_lookup kv id_quote_char = .scalar (.str [b] enc) →
      zsv_options_parse host (.hash kv) = .ok o → o.quote_char = b) ∧
    zsv_options_parse host
        (.hash [(id_col_sep, .scalar (ustr ";")), (id_quote_char, .scalar (ustr "'"))])
      = .ok { zsv_options_init with delimiter := 59, quote_char := 39 } := by
  refine ⟨?_, ?_, ?_, ?_, ?_, ?_, options_semicolon_example host⟩
  · intro bytes enc h hl
    have := parse_col_sep_string kv zsv_options_init bytes enc h
    rw [if_pos hl] at this
    simp only [zsv_options_parse, this]
  · intro bytes enc h hl
    have hq : ∀ o1, parse_quote_char kv o1 = .error .rb_eArgError := by
      intro o1
      have := parse_quote_char_string kv o1 bytes enc h
      rw [if_pos hl] at this
      exact this
    refine ⟨?_, ?_⟩
    · cases h1 : parse_col_sep kv zsv_options_init with
      | error e => exact ⟨e, by simp only [zsv_options_parse, h1]⟩
      | ok o1 => exact ⟨.rb_eArgError, by simp only [zsv_options_parse, h1, hq o1]⟩
    · intro o1 h1
      simp only [zsv_options_parse, h1, hq o1]
  · intro b enc o h
    have := parse_col_sep_string kv o [b] enc h
    simpa using this
  · intro b enc o h
    have := parse_quote_char_string kv o [b] enc h
    simpa using this
  · intro b enc o h hp
    have h1 : parse_col_sep kv zsv_options_init
        = .ok { zsv_options_init with delimiter := b } := by
      have := parse_col_sep_string kv zsv_options_init [b] enc h
      simpa using this
    rw [options_parse_delimiter host kv o _ hp h1]
  · intro b enc o h hp
    obtain ⟨o1, o2, o3, o4, e1, e2, _⟩ := options_parse_ok host kv o hp
    have h2 : parse_quote_char kv o1 = .ok { o1 with quote_char := b } := by
      have := parse_quote_char_string kv o1 [b] enc h
      simpa using this
    rw [options_parse_quote_char host kv o o1 _ hp e1 h2]

/-- C9 (the code at the failing input): resolving `{skip_lines: -1}` does not
fail; it produces an options record whose skip-lines field is `-1`.  The same
holds for every negative value that fits a C `int`. -/
theorem options_parse_accepts_negative_skip_lines (host : Host) :
    zsv_options_parse host (.hash [(id_skip_lines, .scalar (.fixnum (-1)))])
      = .ok { zsv_options_init with skip_lines := -1 } ∧
    ∀ n : Int, -(2 ^ 31 : Int) ≤ n → n < 0 →
      zsv_options_parse host (.hash [(id_skip_lines, .scalar (.fixnum n))])
        = .ok { zsv_options_init with skip_lines := n } := by
  have key : ∀ n : Int, -(2 ^ 31 : Int) ≤ n → n < 0 →
      zsv_options_parse host (.hash [(id_skip_lines, .scalar (.fixnum n))])
        = .ok { zsv_options_init with skip_lines := n } := by
    intro n h1 h2
    have h1' : (-2147483648 : Int) ≤ n := by omega
    have h3 : n < (2147483648 : Int) := by omega
    simp [zsv_options_parse, parse_col_sep, parse_quote_char, parse_headers, parse_skip_lines,
      parse_liberal, parse_encoding, parse_buffer_size, get_option, rb_hash_lookup, NIL_P,
      RTEST, NUM2INT, id_skip_lines, id_col_sep, id_quote_char, id_headers, id_liberal_parsing,
      id_encoding, id_buffer_size, Qnil, Qfalse, h1', h3, zsv_options_init]
  exact ⟨key (-1) (by norm_num) (by norm_num), key⟩

/-- C10: a shift call that has to advance the tokenizer (engine not closed,
row queue empty, EOF not reached, tokenizer handle live, and the row builder
holding the engine's header array as it does in every constructed engine)
raises `MalformedCSVError` if and only if the status returned by that advance
step is neither "ok" nor "no more input"; for these two statuses it raises
nothing and returns a value. -/
theorem shift_raises_malformed_iff (p : zsv_ruby_parser_t) (z : zsv_scanner)
    (hc : p.closed = false) (hb : p.row_buffer = []) (he : p.eof_reached = false)
    (hz : p.zsv = some z) (hs : p.row_builder.headers = p.headers) :
    ((zsv_parser_shift p).2 = .error .eMalformedCSVError ↔
      ((zsv_parse_more p z).2.2 ≠ .zsv_status_ok ∧
        (zsv_parse_more p z).2.2 ≠ .zsv_status_no_more_input)) ∧
    (((zsv_parse_more p z).2.2 = .zsv_status_ok ∨
        (zsv_parse_more p z).2.2 = .zsv_status_no_more_input) →
      ∃ v, (zsv_parser_shift p).2 = .ok v) := by
  have hshift : zsv_parser_shift p = shift_advance p z := by
    simp [zsv_parser_shift, hc, hb, he, hz]
  obtain ⟨n1, s1⟩ := run_callbacks_no_raise (next_step z).rows
    { p with zsv := some (scanner_advance z),
             file := p.file.map (fun f => { f with pos := f.pos + (next_step z).nread }) } hs
  have hpm : zsv_parse_more p z
      = ((run_callbacks
          { p with zsv := some (scanner_advance z),
                   file := p.file.map (fun f => { f with pos := f.pos + (next_step z).nread }) }
          (next_step z).rows).1, none, (next_step z).status) := by
    unfold zsv_parse_more
    simp only
    rw [← n1]
  have hst : (zsv_parse_more p z).2.2 = (next_step z).status := by rw [hpm]
  rw [hshift, hst]
  generalize hq : (run_callbacks
      { p with zsv := some (scanner_advance z),
               file := p.file.map (fun f => { f with pos := f.pos + (next_step z).nread }) }
      (next_step z).rows).1 = q at hpm s1
  have hfin : ∃ q2, zsv_parser_finish_safe q = (q2, none) := by
    unfold zsv_parser_finish_safe
    cases q.zsv with
    | none => exact ⟨_, rfl⟩
    | some z2 =>
      simp only
      split
      · obtain ⟨n2, _⟩ := run_callbacks_no_raise z2.pending
          { q with zsv := some (scanner_finish z2) } s1
        unfold zsv_finish
        exact ⟨_, by rw [← n2]⟩
      · exact ⟨_, rfl⟩
  obtain ⟨q2, hq2⟩ := hfin
  unfold shift_advance
  rw [hpm]
  simp only
  by_cases hbad : (next_step z).status ≠ .zsv_status_ok ∧
      (next_step z).status ≠ .zsv_status_no_more_input
  · rw [if_pos hbad]
    refine ⟨⟨fun _ => hbad, fun _ => rfl⟩, ?_⟩
    intro h
    rcases h with h | h
    · exact absurd h hbad.1
    · exact absurd h hbad.2
  · rw [if_neg hbad]
    have hok : ∃ v, (if (next_step z).status = .zsv_status_no_more_input ∧
          (!q.eof_reached) = true then
        match zsv_parser_finish_safe q with
        | (parser, some e) => (parser, Except.error e)
        | (parser, none) => shift_front { parser with eof_reached := true }
      else shift_front q).2 = .ok v := by
      split
      · rw [hq2]
        exact shift_front_ok _
      · exact shift_front_ok _
    obtain ⟨v, hv⟩ := hok
    refine ⟨⟨?_, fun h => absurd h hbad⟩, fun _ => ⟨v, hv⟩⟩
    intro h
    rw [hv] at h
    cases h

/-- C10 at a concrete input: a fresh engine whose tokenizer fails on its first
advance step. -/
theorem shift_raises_malformed_iff_witness :
    (failing_engine.closed = false ∧ failing_engine.row_buffer = [] ∧
      failing_engine.eof_reached = false ∧ failing_engine.zsv = some failing_scanner ∧
      failing_engine.row_builder.headers = failing_engine.headers) ∧
    (((zsv_parser_shift failing_engine).2 = .error .eMalformedCSVError ↔
      ((zsv_parse_more failing_engine failing_scanner).2.2 ≠ .zsv_status_ok ∧
        (zsv_parse_more failing_engine failing_scanner).2.2 ≠ .zsv_status_no_more_input)) ∧
    (((zsv_parse_more failing_engine failing_scanner).2.2 = .zsv_status_ok ∨
        (zsv_parse_more failing_engine failing_scanner).2.2 = .zsv_status_no_more_input) →
      ∃ v, (zsv_parser_shift failing_engine).2 = .ok v)) :=
  ⟨by decide,
    shift_raises_malformed_iff failing_engine failing_scanner (by decide) (by decide)
      (by decide) (by decide) (by decide)⟩

/-- C14: for a header list `h` of pairwise distinct names and a current row
`c` with no more cells than `h` has names, the mapping conversion returns the
Hash whose entries are, in column order, `h[i] => c[i]` for `i < len(c)`: it
has exactly `len(c)` entries, its keys are the first `len(c)` names, a name
`h[i]` with `i >= len(c)` is not a key (nothing is filled in for it), and an
Integer that is not itself one of the names is not a key. -/
theorem to_hash_fewer_cells_than_headers (b : zsv_row_builder_t) (h c : List Scalar)
    (hh : NIL_P b.headers = false) (hcache : b.header_cache = h)
    (hcount : b.header_count = h.length) (hrow : b.cells.take b.count = c)
    (hn : b.count ≤ b.cells.length) (hd : h.Nodup) (hle : c.length ≤ h.length) :
    zsv_row_builder_to_hash b = .ok (.hash (h.zip c)) ∧
    (h.zip c).length = c.length ∧
    (∀ i, i < c.length → (h.zip c)[i]? = some (h.getD i .qnil, c.getD i .qnil)) ∧
    (h.zip c).map Prod.fst = h.take c.length ∧
    (∀ i, c.length ≤ i → i < h.length → h.getD i .qnil ∉ (h.zip c).map Prod.fst) ∧
    (∀ i : Nat, (∀ k ∈ h, k ≠ SIZET2NUM i) → SIZET2NUM i ∉ (h.zip c).map Prod.fst) := by
  have hkeys : (h.zip c).map Prod.fst = h.take c.length := map_fst_zip_take h c
  have hnd : ((h.zip c).map Prod.fst).Nodup := by
    rw [hkeys]; exact List.Nodup.sublist (List.take_sublist _ _) hd
  refine ⟨?_, ?_, ?_, hkeys, ?_, ?_⟩
  · have hc : b.header_count = b.header_cache.length := by rw [hcount, hcache]
    rw [to_hash_spec b hh hc hn, hcache, hrow]
    unfold row_to_hash
    rw [excess_pairs_nil h.length c hle, List.append_nil, hash_of_pairs_nodup _ hnd]
  · rw [List.length_zip]; omega
  · intro i hi
    exact zip_get h c i (by omega) hi
  · intro i h1 h2
    rw [hkeys]
    exact not_mem_take_of_nodup h hd c.length i h1 h2
  · intro i hi hm
    rw [hkeys] at hm
    exact hi _ (List.mem_of_mem_take hm) rfl

/-- C14 at the headers `["a","b","c"]` and the row `["x"]`: the mapping is
`{"a"=>"x"}`. -/
theorem to_hash_fewer_cells_than_headers_witness :
    (NIL_P abc_x_builder.headers = false ∧
      abc_x_builder.header_cache = [ustr "a", ustr "b", ustr "c"] ∧
      abc_x_builder.header_count = [ustr "a", ustr "b", ustr "c"].length ∧
      abc_x_builder.cells.take abc_x_builder.count = [ustr "x"] ∧
      abc_x_builder.count ≤ abc_x_builder.cells.length ∧
      [ustr "a", ustr "b", ustr "c"].Nodup ∧
      [ustr "x"].length ≤ [ustr "a", ustr "b", ustr "c"].length) ∧
    zsv_row_builder_to_hash abc_x_builder = .ok (.hash [(ustr "a", ustr "x")]) :=
  ⟨by decide,
    (to_hash_fewer_cells_than_headers abc_x_builder [ustr "a", ustr "b", ustr "c"] [ustr "x"]
      (by decide) (by decide) (by decide) (by decide) (by decide) (by decide) (by decide)).1⟩

/-- C15: the mapping conversion raises (`RuntimeError`, and no other
exception) exactly when the header array of the builder is `nil`, which is
the state of a new builder; a call of `zsv_row_builder_set_headers` that
returns (the argument is an Array, possibly empty) leaves a non-nil header
array, which resetting the builder and adding cells keep, so from then on
the conversion returns a Hash for every current row. -/
theorem to_hash_raises_iff_no_headers (b : zsv_row_builder_t) :
    (zsv_row_builder_to_hash b = .error .rb_eRuntimeError ↔ NIL_P b.headers = true) ∧
    ((∃ e, zsv_row_builder_to_hash b = .error e) ↔ NIL_P b.headers = true) ∧
    (NIL_P b.headers = false ↔ ∃ kv, zsv_row_builder_to_hash b = .ok (.hash kv)) ∧
    NIL_P (zsv_row_builder_new b.encoding).headers = true ∧
    (∀ names : List Scalar, ∃ b1,
      zsv_row_builder_set_headers b (.ary names) = .ok b1 ∧ NIL_P b1.headers = false ∧
      (∃ kv, zsv_row_builder_to_hash b1 = .ok (.hash kv)) ∧
      ∀ row : zsv_row, ∃ kv, zsv_row_builder_to_hash (fill_builder b1 row) = .ok (.hash kv)) ∧
    (∀ (v : VALUE) (b1 : zsv_row_builder_t), zsv_row_builder_set_headers b v = .ok b1 →
      ∃ names, v = .ary names ∧ b1.headers = .ary names) ∧
    (∀ data, (zsv_row_builder_add_cell b data).headers = b.headers) ∧
    (zsv_row_builder_reset b).headers = b.headers ∧
    zsv_row_builder_to_hash
        (fill_builder { zsv_row_builder_new rb_utf8_encoding with headers := .ary [] }
          [ascii "x", ascii "y"])
      = .ok (.hash [(.fixnum 0, ustr "x"), (.fixnum 1, ustr "y")]) := by
  have key : ∀ b : zsv_row_builder_t, NIL_P b.headers = true →
      zsv_row_builder_to_hash b = .error .rb_eRuntimeError := by
    intro b h
    unfold zsv_row_builder_to_hash
    rw [h]
    rfl
  refine ⟨⟨?_, key b⟩, ⟨?_, fun h => ⟨_, key b h⟩⟩, ⟨to_hash_hash_of_headers b, ?_⟩, rfl,
    ?_, ?_, add_cell_headers b, rfl, by decide⟩
  · intro he
    cases hb : NIL_P b.headers with
    | true => rfl
    | false =>
      obtain ⟨kv, hkv⟩ := to_hash_hash_of_headers b hb
      rw [hkv] at he
      cases he
  · rintro ⟨e, he⟩
    cases hb : NIL_P b.headers with
    | true => rfl
    | false =>
      obtain ⟨kv, hkv⟩ := to_hash_hash_of_headers b hb
      rw [hkv] at he
      cases he
  · rintro ⟨kv, hkv⟩
    cases hb : NIL_P b.headers with
    | false => rfl
    | true => rw [key b hb] at hkv; cases hkv
  · intro names
    refine ⟨_, rfl, nil_p_ary names, to_hash_hash_of_headers _ (nil_p_ary names), ?_⟩
    intro row
    apply to_hash_hash_of_headers
    rw [fill_builder_headers]
    exact nil_p_ary names
  · intro v b1 h
    cases v with
    | scalar s => simp [zsv_row_builder_set_headers] at h
    | hash kv => simp [zsv_row_builder_set_headers] at h
    | ary names =>
      refine ⟨names, rfl, ?_⟩
      simp only [zsv_row_builder_set_headers, Except.ok.injEq] at h
      rw [← h]

/-- C19: after `zsv_row_builder_reset` and one `zsv_row_builder_add_cell` per
byte string of a row, `zsv_row_builder_to_array` returns exactly those byte
strings, in the order added, each tagged with the encoding of the builder, for
every builder whose storage is in order, whatever row it held before; the
storage is in order afterwards and has room for the row, so it has grown when
the row is longer than the capacity was. -/
theorem to_array_after_reset_and_add_cells (b : zsv_row_builder_t) (row : zsv_row)
    (h : storage_ok b) :
    zsv_row_builder_to_array (row.foldl zsv_row_builder_add_cell (zsv_row_builder_reset b))
      = .ary (row.map (fun data => Scalar.str data b.encoding)) ∧
    (row.foldl zsv_row_builder_add_cell (zsv_row_builder_reset b)).count = row.length ∧
    storage_ok (row.foldl zsv_row_builder_add_cell (zsv_row_builder_reset b)) ∧
    row.length ≤ (row.foldl zsv_row_builder_add_cell (zsv_row_builder_reset b)).capacity := by
  obtain ⟨cells, cap, h1, h2, h3⟩ := fill_builder_spec b row h
  unfold fill_builder at h1
  rw [h1]
  refine ⟨?_, rfl, h2, h2.2.2⟩
  unfold zsv_row_builder_to_array
  simp only
  rw [h3]
  rfl

/-- C19 at a builder that holds the row `["x","y","z"]` in 32 slots and a new
row of 33 cells. -/
theorem to_array_after_reset_and_add_cells_witness :
    (storage_ok abxyz_builder ∧ abxyz_builder.capacity = 32 ∧ wide_row.length = 33 ∧
      zsv_row_builder_to_array abxyz_builder = .ary [ustr "x", ustr "y", ustr "z"]) ∧
    zsv_row_builder_to_array
        (wide_row.foldl zsv_row_builder_add_cell (zsv_row_builder_reset abxyz_builder))
      = .ary (wide_row.map (fun data => Scalar.str data abxyz_builder.encoding)) :=
  ⟨by decide, (to_array_after_reset_and_add_cells abxyz_builder wide_row (by decide)).1⟩

/-- C20: on an engine that is not closed and whose queue is `row :: rest`,
shift returns `row` and the engine differs from the one before only in its
queue, which is `rest`: the tokenizer handle (with its call counters), the
stream and the EOF flag are the same, whether or not EOF had been reached; and
as many shifts as the queue has rows, or fewer, return the rows of the queue
front first and leave everything but the queue as it was. -/
theorem shift_returns_front_of_queue (p : zsv_ruby_parser_t) (row : VALUE)
    (rest : List VALUE) (hc : p.closed = false) (hb : p.row_buffer = row :: rest) :
    zsv_parser_shift p = ({ p with row_buffer := rest }, .ok row) ∧
    (zsv_parser_shift p).1.zsv = p.zsv ∧ (zsv_parser_shift p).1.file = p.file ∧
    (zsv_parser_shift p).1.eof_reached = p.eof_reached ∧
    ∀ k, k ≤ (row :: rest).length →
      shift_n k p
        = (((row :: rest).take k).map Except.ok,
            { p with row_buffer := (row :: rest).drop k }) := by
  have h1 := shift_of_queue p row rest hc hb
  refine ⟨h1, ?_, ?_, ?_, ?_⟩
  · rw [h1]
  · rw [h1]
  · rw [h1]
  · intro k hk
    rw [← hb] at hk ⊢
    exact shift_n_drain k p hc hk

/-- C20 at the engine over `name,age / Ada,36 / Lin,29` without options after
its first shift: the rows of `Ada` and `Lin` are queued and the next shift
returns the row of `Ada`. -/
theorem shift_returns_front_of_queue_witness :
    (people_queued_engine.closed = false ∧
      people_queued_engine.row_buffer
        = .ary [ustr "Ada", ustr "36"] :: [.ary [ustr "Lin", ustr "29"]]) ∧
    zsv_parser_shift people_queued_engine
      = ({ people_queued_engine with row_buffer := [.ary [ustr "Lin", ustr "29"]] },
          .ok (.ary [ustr "Ada", ustr "36"])) :=
  ⟨by decide,
    (shift_returns_front_of_queue people_queued_engine (.ary [ustr "Ada", ustr "36"])
      [.ary [ustr "Lin", ustr "29"]] (by decide) (by decide)).1⟩

/-- C17: when options resolution returns, each resolved field whose key the
Hash does not hold, or holds with `nil`, has its default (delimiter `,`,
quote character `"`, headers off with no explicit list, skip-lines 0, liberal
parsing off, UTF-8, buffer size 262144); each resolved field depends only on
the value under its own key, so two configurations that differ in one field
resolve to records that differ at most in that field; and both `nil` and the
empty Hash resolve to exactly the record of the defaults. -/
theorem options_defaults_and_own_field (host : Host) (kv kv' : List (Scalar × VALUE))
    (o o' : zsv_ruby_options_t) (h : zsv_options_parse host (.hash kv) = .ok o)
    (h' : zsv_options_parse host (.hash kv') = .ok o') :
    ((rb_hash_lookup kv id_col_sep = Qnil → o.delimiter = 44) ∧
      (rb_hash_lookup kv id_quote_char = Qnil → o.quote_char = 34) ∧
      (rb_hash_lookup kv id_headers = Qnil → o.headers = false ∧ o.header_array = Qnil) ∧
      (rb_hash_lookup kv id_skip_lines = Qnil → o.skip_lines = 0) ∧
      (rb_hash_lookup kv id_liberal_parsing = Qnil → o.liberal_parsing = false) ∧
      (rb_hash_lookup kv id_encoding = Qnil → o.encoding = rb_utf8_encoding) ∧
      (rb_hash_lookup kv id_buffer_size = Qnil → o.buffer_size = 262144)) ∧
    (∀ key, key ∉ kv.map Prod.fst → rb_hash_lookup kv key = Qnil) ∧
    ((rb_hash_lookup kv' id_col_sep = rb_hash_lookup kv id_col_sep →
        o'.delimiter = o.delimiter) ∧
      (rb_hash_lookup kv' id_quote_char = rb_hash_lookup kv id_quote_char →
        o'.quote_char = o.quote_char) ∧
      (rb_hash_lookup kv' id_headers = rb_hash_lookup kv id_headers →
        o'.headers = o.headers ∧ o'.header_array = o.header_array) ∧
      (rb_hash_lookup kv' id_skip_lines = rb_hash_lookup kv id_skip_lines →
        o'.skip_lines = o.skip_lines) ∧
      (rb_hash_lookup kv' id_liberal_parsing = rb_hash_lookup kv id_liberal_parsing →
        o'.liberal_parsing = o.liberal_parsing) ∧
      (rb_hash_lookup kv' id_encoding = rb_hash_lookup kv id_encoding →
        o'.encoding = o.encoding) ∧
      (rb_hash_lookup kv' id_buffer_size = rb_hash_lookup kv id_buffer_size →
        o'.buffer_size = o.buffer_size)) ∧
    ((∀ key ∈ [id_col_sep, id_quote_char, id_headers, id_skip_lines, id_liberal_parsing,
          id_encoding, id_buffer_size], rb_hash_lookup kv key = Qnil) →
      o = zsv_options_init) ∧
    zsv_options_parse host .qnil = .ok zsv_options_init ∧
    zsv_options_parse host (.hash []) = .ok zsv_options_init ∧
    zsv_options_init
      = { delimiter := 44, quote_char := 34, headers := false, header_array := Qnil,
          skip_lines := 0, liberal_parsing := false, encoding := rb_utf8_encoding,
          buffer_size := 262144 } := by
  obtain ⟨a1, a2, a3, a4, a5, a6, a7, a8⟩ := options_parse_fields host kv o h
  obtain ⟨b1, b2, b3, b4, b5, b6, b7, b8⟩ := options_parse_fields host kv' o' h'
  have d1 : rb_hash_lookup kv id_col_sep = Qnil → o.delimiter = 44 := by
    intro hn; rw [hn] at a1; exact (Except.ok.inj a1).symm
  have d2 : rb_hash_lookup kv id_quote_char = Qnil → o.quote_char = 34 := by
    intro hn; rw [hn] at a2; exact (Except.ok.inj a2).symm
  have d3 : rb_hash_lookup kv id_headers = Qnil → o.headers = false ∧ o.header_array = Qnil := by
    intro hn; rw [hn] at a3 a4; exact ⟨a3, a4⟩
  have d4 : rb_hash_lookup kv id_skip_lines = Qnil → o.skip_lines = 0 := by
    intro hn; rw [hn] at a5; exact (Except.ok.inj a5).symm
  have d5 : rb_hash_lookup kv id_liberal_parsing = Qnil → o.liberal_parsing = false := by
    intro hn; rw [hn] at a6; exact a6
  have d6 : rb_hash_lookup kv id_encoding = Qnil → o.encoding = rb_utf8_encoding := by
    intro hn; rw [hn] at a7; exact (Except.ok.inj a7).symm
  have d7 : rb_hash_lookup kv id_buffer_size = Qnil → o.buffer_size = 262144 := by
    intro hn; rw [hn] at a8; exact (Except.ok.inj a8).symm
  refine ⟨⟨d1, d2, d3, d4, d5, d6, d7⟩, lookup_absent kv, ⟨?_, ?_, ?_, ?_, ?_, ?_, ?_⟩, ?_,
    rfl, rfl, rfl⟩
  · intro he; rw [he, a1] at b1; exact (Except.ok.inj b1).symm
  · intro he; rw [he, a2] at b2; exact (Except.ok.inj b2).symm
  · intro he; rw [he] at b3 b4; exact ⟨b3.trans a3.symm, b4.trans a4.symm⟩
  · intro he; rw [he, a5] at b5; exact (Except.ok.inj b5).symm
  · intro he; rw [he] at b6; exact b6.trans a6.symm
  · intro he; rw [he, a7] at b7; exact (Except.ok.inj b7).symm
  · intro he; rw [he, a8] at b8; exact (Except.ok.inj b8).symm
  · intro hall
    have e1 := d1 (hall _ (by simp))
    have e2 := d2 (hall _ (by simp))
    have e3 := d3 (hall _ (by simp))
    have e4 := d4 (hall _ (by simp))
    have e5 := d5 (hall _ (by simp))
    have e6 := d6 (hall _ (by simp))
    have e7 := d7 (hall _ (by simp))
    cases o
    simp only at e1 e2 e3 e4 e5 e6 e7
    obtain ⟨e3, e3'⟩ := e3
    subst e1 e2 e3 e3' e4 e5 e6 e7
    rfl

/-- C17 at the configurations `{skip_lines: 2}` and
`{col_sep: ";", skip_lines: 2}`: both resolve, the second differs from the
first in the delimiter only, and the fields of the first that are not
supplied have their defaults. -/
theorem options_defaults_and_own_field_witness :
    (zsv_options_parse people_host (.hash [(id_skip_lines, .scalar (.fixnum 2))])
        = .ok { zsv_options_init with skip_lines := 2 } ∧
      zsv_options_parse people_host
          (.hash [(id_col_sep, .scalar (ustr ";")), (id_skip_lines, .scalar (.fixnum 2))])
        = .ok { zsv_options_init with delimiter := 59, skip_lines := 2 }) ∧
    ((rb_hash_lookup [(id_skip_lines, .scalar (.fixnum 2))] id_col_sep = Qnil →
        ({ zsv_options_init with skip_lines := 2 }).delimiter = 44) ∧
      (rb_hash_lookup [(id_skip_lines, .scalar (.fixnum 2))] id_quote_char = Qnil →
        ({ zsv_options_init with skip_lines := 2 }).quote_char = 34) ∧
      (rb_hash_lookup [(id_skip_lines, .scalar (.fixnum 2))] id_headers = Qnil →
        ({ zsv_options_init with skip_lines := 2 }).headers = false ∧
        ({ zsv_options_init with skip_lines := 2 }).header_array = Qnil) ∧
      (rb_hash_lookup [(id_skip_lines, .scalar (.fixnum 2))] id_skip_lines = Qnil →
        ({ zsv_options_init with skip_lines := 2 }).skip_lines = 0) ∧
      (rb_hash_lookup [(id_skip_lines, .scalar (.fixnum 2))] id_liberal_parsing = Qnil →
        ({ zsv_options_init with skip_lines := 2 }).liberal_parsing = false) ∧
      (rb_hash_lookup [(id_skip_lines, .scalar (.fixnum 2))] id_encoding = Qnil →
        ({ zsv_options_init with skip_lines := 2 }).encoding = rb_utf8_encoding) ∧
      (rb_hash_lookup [(id_skip_lines, .scalar (.fixnum 2))] id_buffer_size = Qnil →
        ({ zsv_options_init with skip_lines := 2 }).buffer_size = 262144)) :=
  ⟨by decide,
    (options_defaults_and_own_field people_host [(id_skip_lines, .scalar (.fixnum 2))]
      [(id_col_sep, .scalar (ustr ";")), (id_skip_lines, .scalar (.fixnum 2))]
      { zsv_options_init with skip_lines := 2 }
      { zsv_options_init with delimiter := 59, skip_lines := 2 }
      (by decide) (by decide)).1⟩

/-- C18: when options resolution returns, the `headers` field is classified
in exactly one of three ways by the value the Hash holds under `:headers`: an
Array (the empty one included) gives the flag on and that Array as explicit
list; another truthy value gives the flag on and no explicit list; `false`,
`nil` or no entry gives the flag off and no explicit list.  The resolved
explicit list is always `nil` or an Array, and the defaults are mode off. -/
theorem headers_option_three_way (host : Host) (kv : List (Scalar × VALUE))
    (o : zsv_ruby_options_t) (h : zsv_options_parse host (.hash kv) = .ok o) :
    (∀ names, rb_hash_lookup kv id_headers = .ary names →
      o.headers = true ∧ o.header_array = .ary names ∧ header_mode_of o = .explicit names) ∧
    ((∀ names, rb_hash_lookup kv id_headers ≠ .ary names) →
      RTEST (rb_hash_lookup kv id_headers) = true →
      o.headers = true ∧ o.header_array = Qnil ∧ header_mode_of o = .on) ∧
    (RTEST (rb_hash_lookup kv id_headers) = false →
      o.headers = false ∧ o.header_array = Qnil ∧ header_mode_of o = .off) ∧
    (RTEST (rb_hash_lookup kv id_headers) = false ↔
      rb_hash_lookup kv id_headers = Qnil ∨ rb_hash_lookup kv id_headers = Qfalse) ∧
    (id_headers ∉ kv.map Prod.fst → rb_hash_lookup kv id_headers = Qnil) ∧
    (∀ names, RTEST (.ary names) = true) ∧
    (o.header_array = Qnil ∨ ∃ names, o.header_array = .ary names) ∧
    (zsv_options_parse host .qnil = .ok zsv_options_init ∧
      header_mode_of zsv_options_init = .off) := by
  obtain ⟨_, _, a3, a4, _⟩ := options_parse_fields host kv o h
  have hmode : ∀ v : VALUE, o.headers = (resolve_headers v).1 →
      o.header_array = (resolve_headers v).2 →
      (∀ names, v = .ary names →
        o.headers = true ∧ o.header_array = .ary names ∧ header_mode_of o = .explicit names) ∧
      ((∀ names, v ≠ .ary names) → RTEST v = true →
        o.headers = true ∧ o.header_array = Qnil ∧ header_mode_of o = .on) ∧
      (RTEST v = false → o.headers = false ∧ o.header_array = Qnil ∧ header_mode_of o = .off) ∧
      (o.header_array = Qnil ∨ ∃ names, o.header_array = .ary names) := by
    intro v h1 h2
    cases v with
    | ary xs =>
      simp only [resolve_headers] at h1 h2
      refine ⟨?_, ?_, ?_, Or.inr ⟨xs, h2⟩⟩
      · intro names hn
        cases hn
        exact ⟨h1, h2, by simp [header_mode_of, h2]⟩
      · intro hne; exact absurd rfl (hne xs)
      · intro hr; simp [RTEST, Qnil, Qfalse] at hr
    | scalar s =>
      simp only [resolve_headers] at h1 h2
      refine ⟨?_, ?_, ?_, Or.inl h2⟩
      · intro names hn; cases hn
      · intro _ hr
        rw [hr] at h1
        exact ⟨h1, h2, by simp [header_mode_of, h1, h2, Qnil]⟩
      · intro hr
        rw [hr] at h1
        exact ⟨h1, h2, by simp [header_mode_of, h1, h2, Qnil]⟩
    | hash kv0 =>
      simp only [resolve_headers] at h1 h2
      refine ⟨?_, ?_, ?_, Or.inl h2⟩
      · intro names hn; cases hn
      · intro _ hr
        rw [hr] at h1
        exact ⟨h1, h2, by simp [header_mode_of, h1, h2, Qnil]⟩
      · intro hr
        rw [hr] at h1
        exact ⟨h1, h2, by simp [header_mode_of, h1, h2, Qnil]⟩
  obtain ⟨m1, m2, m3, m4⟩ := hmode _ a3 a4
  exact ⟨m1, m2, m3, rtest_eq_false, lookup_absent kv id_headers,
    fun names => by simp [RTEST, Qnil, Qfalse], m4, rfl, rfl⟩

/-- C18 at the configuration `{headers: []}`: the empty Array is an explicit
header list. -/
theorem headers_option_three_way_witness :
    zsv_options_parse people_host (.hash [(id_headers, .ary [])])
        = .ok { zsv_options_init with headers := true, header_array := .ary [] } ∧
    header_mode_of { zsv_options_init with headers := true, header_array := .ary [] }
      = .explicit [] :=
  ⟨by decide,
    ((headers_option_three_way people_host [(id_headers, .ary [])]
      { zsv_options_init with headers := true, header_array := .ary [] } (by decide)).1 []
        (by decide)).2.2⟩

/-- C16: when a shift call on a constructed engine (after any number of
earlier shift calls) raises `MalformedCSVError`, the queue was empty before
the call and the engine is left exactly as the row callbacks of that advance
step left it: not closed, and its queue holds, in input order, the rows to
deliver for the rows the tokenizer reported in that step (the rows delivered
before are those for the rows reported earlier).  As many following shift
calls as the queue has rows, or fewer, return these rows front first and
change nothing but the queue, so the tokenizer is not invoked.  E.g. over a
tokenizer that reports `a,b` and fails, three shifts give the raise, the row
`["a","b"]`, and `nil`. -/
theorem rows_before_malformed_error_stay_queued (host : Host) (string : VALUE)
    (path : List Nat) (opts_hash : OptsHash) (p0 : zsv_ruby_parser_t) (n : Nat)
    (h0 : zsv_parser_new_from_string host string opts_hash = .ok p0 ∨
      zsv_parser_new_from_path host path opts_hash = .ok p0)
    (herr : (zsv_parser_shift (shift_n n p0).2).2 = .error .eMalformedCSVError) :
    (∃ z, (shift_n n p0).2.zsv = some z ∧ (shift_n n p0).2.row_buffer = [] ∧
      (zsv_parser_shift (shift_n n p0).2).1 = (zsv_parse_more (shift_n n p0).2 z).1 ∧
      (zsv_parser_shift (shift_n n p0).2).1.zsv = some (scanner_advance z) ∧
      (zsv_parser_shift (shift_n n p0).2).1.closed = false ∧
      delivered (shift_n n p0).1 = expected_rows p0.options z.reported ∧
      expected_rows p0.options (z.reported ++ (next_step z).rows)
        = expected_rows p0.options z.reported
            ++ (zsv_parser_shift (shift_n n p0).2).1.row_buffer) ∧
    (∀ k, k ≤ (zsv_parser_shift (shift_n n p0).2).1.row_buffer.length →
      shift_n k (zsv_parser_shift (shift_n n p0).2).1
        = (((zsv_parser_shift (shift_n n p0).2).1.row_buffer.take k).map Except.ok,
            { (zsv_parser_shift (shift_n n p0).2).1 with
              row_buffer := (zsv_parser_shift (shift_n n p0).2).1.row_buffer.drop k })) ∧
    (shift_n 3 failing_engine).1
      = [.error .eMalformedCSVError, .ok (.ary [ustr "a", ustr "b"]), .ok Qnil] := by
  obtain ⟨content, h0'⟩ := constructed_init host string path opts_hash p0 h0
  obtain ⟨O0, _⟩ := init_common_open host _ opts_hash p0 h0'
  obtain ⟨_, Sn, hs, _⟩ := shift_n_sim n [] p0 p0 O0
  rw [List.nil_append] at Sn
  have hopt : (shift_n n p0).2.options = p0.options := by
    have := congrArg Prod.fst hs
    simpa [source] using this
  obtain ⟨z, hz, hb, _, _, _, hstate, O1, hz1, ho1⟩ :=
    shift_error_state _ _ Sn _ herr
  obtain ⟨z', hz', T⟩ := open_out Sn
  rw [hz] at hz'
  cases hz'
  obtain ⟨z1, hz1', T1⟩ := open_out O1
  rw [hz1] at hz1'
  cases hz1'
  have hout := T.out
  rw [hb, List.append_nil, hopt] at hout
  have hout1 := T1.out
  rw [ho1, hopt, hout] at hout1
  refine ⟨⟨z, hz, hb, hstate, hz1, O1.2.1, hout, hout1.symm⟩, ?_, by decide⟩
  intro k hk
  exact shift_n_drain k _ O1.2.1 hk

/-- C16 at the engine over the input `a,b` / `"c,d` whose tokenizer reports
the row `a,b` and fails: the first shift raises `MalformedCSVError`, and the
row `["a","b"]` is then in the queue. -/
theorem rows_before_malformed_error_stay_queued_witness :
    ((zsv_parser_new_from_string failing_host (.scalar (ustr "a,b\n\"c,d")) .qnil
          = .ok failing_engine ∨
        zsv_parser_new_from_path failing_host [] .qnil = .ok failing_engine) ∧
      (zsv_parser_shift (shift_n 0 failing_engine).2).2 = .error .eMalformedCSVError ∧
      (zsv_parser_shift (shift_n 0 failing_engine).2).1.row_buffer
        = [.ary [ustr "a", ustr "b"]]) ∧
    ∀ k, k ≤ (zsv_parser_shift (shift_n 0 failing_engine).2).1.row_buffer.length →
      shift_n k (zsv_parser_shift (shift_n 0 failing_engine).2).1
        = (((zsv_parser_shift (shift_n 0 failing_engine).2).1.row_buffer.take k).map
              Except.ok,
            { (zsv_parser_shift (shift_n 0 failing_engine).2).1 with
              row_buffer :=
                (zsv_parser_shift (shift_n 0 failing_engine).2).1.row_buffer.drop k }) :=
  ⟨⟨Or.inl (by decide), by decide, by decide⟩,
    (rows_before_malformed_error_stay_queued failing_host (.scalar (ustr "a,b\n\"c,d")) []
      .qnil failing_engine 0 (Or.inl (by decide)) (by decide)).2.1⟩

/-- C13 as stated fails: with the explicit header list `["a"]` and
`skip_lines` 0, the rows `a` and `x,y` are both delivered, none is consumed as
header and the headers query returns `["a"]`, but the second row is delivered
as `{"a"=>"x", 1=>"y"}`: the key `1` of this mapping is not a name of the
list, so the row is not keyed by the list. -/
theorem explicit_headers_row_with_excess_cell :
    (ragged_named_engine.options.header_array = .ary [ustr "a"] ∧
      ragged_named_engine.options.skip_lines = 0) ∧
    (shift_n 3 ragged_named_engine).1
      = [.ok (.hash [(ustr "a", ustr "a")]),
         .ok (.hash [(ustr "a", ustr "x"), (.fixnum 1, ustr "y")]), .ok Qnil] ∧
    zsv_parser_headers (shift_n 3 ragged_named_engine).2 = .ary [ustr "a"] ∧
    ¬ (∀ key ∈ [ustr "a", Scalar.fixnum 1], key ∈ [ustr "a"]) := by
  decide

/-- C13, amended: an engine constructed with an explicit header list `H` (and
`skip_lines` 0) consumes no row as header: the headers query returns `H` from
the start; whatever rows the tokenizer reports, every one of them is queued,
in order, as its mapping conversion against `H`, and the row count is their
number; after any number of shifts the rows delivered followed by the queue
are the mapping conversions of all rows reported.  The mapping conversion of a
row pairs the names of `H` by column with the cells and puts every cell beyond
the length of `H` under its Integer column index, each with `Hash#[]=`: for
pairwise distinct names and a row with no more cells than names it is exactly
the pairs `H[i] => cell i`, and for pairwise distinct names none of which is
an Integer and a longer row it is these pairs followed by `i => cell i` for
the columns beyond `H`.  After rewind `H` is still what the headers query
returns and the same holds again, every shift returning what it returns on
the fresh engine.  E.g. with `headers: ["n","a"]` the input
`name,age / Ada,36 / Lin,29` is delivered as three mappings, before and after
rewind. -/
theorem explicit_headers_consume_no_row (host : Host) (string : VALUE) (path : List Nat)
    (opts_hash : OptsHash) (p0 : zsv_ruby_parser_t) (H : List Scalar)
    (h0 : zsv_parser_new_from_string host string opts_hash = .ok p0 ∨
      zsv_parser_new_from_path host path opts_hash = .ok p0)
    (ha : p0.options.header_array = .ary H) (hk : p0.options.skip_lines = 0) :
    zsv_parser_headers p0 = .ary H ∧
    (∀ rows : List zsv_row, ∃ q, run_callbacks p0 rows = (q, none) ∧
      q.row_buffer = rows.map (fun r => row_to_hash H (cells_of p0.options.encoding r)) ∧
      zsv_parser_row_count q = rows.length ∧ zsv_parser_headers q = .ary H) ∧
    (∀ n, ∃ z, (shift_n n p0).2.zsv = some z ∧
      delivered (shift_n n p0).1 ++ (shift_n n p0).2.row_buffer
        = z.reported.map (fun r => row_to_hash H (cells_of p0.options.encoding r)) ∧
      zsv_parser_headers (shift_n n p0).2 = .ary H) ∧
    (∀ n, ∃ q, zsv_parser_rewind host (shift_n n p0).2 = (q, none) ∧
      zsv_parser_headers q = .ary H ∧ q.options = p0.options ∧ q.row_buffer = [] ∧
      (∀ rows : List zsv_row, ∃ q1, run_callbacks q rows = (q1, none) ∧
        q1.row_buffer = rows.map (fun r => row_to_hash H (cells_of p0.options.encoding r)) ∧
        zsv_parser_row_count q1 = rows.length ∧ zsv_parser_headers q1 = .ary H) ∧
      (∀ k, (shift_n k q).1 = (shift_n k p0).1) ∧
      (∀ k, ∃ z, (shift_n k q).2.zsv = some z ∧
        delivered (shift_n k q).1 ++ (shift_n k q).2.row_buffer
          = z.reported.map (fun r => row_to_hash H (cells_of p0.options.encoding r)) ∧
        zsv_parser_headers (shift_n k q).2 = .ary H)) ∧
    (∀ r : zsv_row, H.Nodup → r.length ≤ H.length →
      row_to_hash H (cells_of p0.options.encoding r)
        = .hash (H.zip (cells_of p0.options.encoding r))) ∧
    (∀ r : zsv_row,
      row_to_hash H (cells_of p0.options.encoding r)
        = .hash (hash_of_pairs (H.zip (cells_of p0.options.encoding r)
            ++ excess_pairs H.length (cells_of p0.options.encoding r))) ∧
      (excess_pairs H.length (cells_of p0.options.encoding r)).length
        = r.length - H.length ∧
      (∀ i, H.length ≤ i → i < r.length →
        (excess_pairs H.length (cells_of p0.options.encoding r))[i - H.length]?
          = some (.fixnum (Int.ofNat i), (cells_of p0.options.encoding r).getD i .qnil)) ∧
      (H.Nodup → (∀ k ∈ H, ∀ i : Nat, k ≠ .fixnum (Int.ofNat i)) →
        row_to_hash H (cells_of p0.options.encoding r)
          = .hash (H.zip (cells_of p0.options.encoding r)
              ++ excess_pairs H.length (cells_of p0.options.encoding r)))) ∧
    ((shift_n 4 people_named_engine).1
        = [.ok (.hash [(ustr "n", ustr "name"), (ustr "a", ustr "age")]),
           .ok (.hash [(ustr "n", ustr "Ada"), (ustr "a", ustr "36")]),
           .ok (.hash [(ustr "n", ustr "Lin"), (ustr "a", ustr "29")]), .ok Qnil] ∧
      (shift_n 4 (zsv_parser_rewind people_host (shift_n 2 people_named_engine).2).1).1
        = (shift_n 4 people_named_engine).1 ∧
      zsv_parser_headers (zsv_parser_rewind people_host (shift_n 2 people_named_engine).2).1
        = .ary [ustr "n", ustr "a"]) := by
  obtain ⟨content, h0'⟩ := constructed_init host string path opts_hash p0 h0
  obtain ⟨O0, c0, _, _, _, _, hh0, _⟩ := init_common_open host _ opts_hash p0 h0'
  have hrep0 : ∀ z, p0.zsv = some z → z.reported = [] := by
    intro z hz
    have h1 := congrArg (fun c => c.1) c0
    simp only [ctrl] at h1
    rw [hz] at h1
    cases h1
    rfl
  have hcb : ∀ (q : zsv_ruby_parser_t) (z : zsv_scanner), q.zsv = some z → z.reported = [] →
      Track z.reported [] q → q.options = p0.options →
      ∀ rows : List zsv_row, ∃ q1, run_callbacks q rows = (q1, none) ∧
        q1.row_buffer = rows.map (fun r => row_to_hash H (cells_of p0.options.encoding r)) ∧
        zsv_parser_row_count q1 = rows.length ∧ zsv_parser_headers q1 = .ary H := by
    intro q z _ hr T ho rows
    rw [hr] at T
    obtain ⟨q1, h1, T1, sc⟩ := run_callbacks_track rows [] [] q T
    have ho1 : q1.options = p0.options := by rw [sc.2.2.2.1, ho]
    obtain ⟨e1, e2, e3⟩ := track_explicit T1 H (by rw [ho1]; exact ha) (by rw [ho1]; exact hk)
    rw [ho1] at e1
    exact ⟨q1, h1, by simpa using e1, by simpa [zsv_parser_row_count] using e3, e2⟩
  have hsh : ∀ (q : zsv_ruby_parser_t), Sim [] q p0 → ∀ k,
      (shift_n k q).1 = (shift_n k p0).1 ∧
      ∃ z, (shift_n k q).2.zsv = some z ∧
        delivered (shift_n k q).1 ++ (shift_n k q).2.row_buffer
          = z.reported.map (fun r => row_to_hash H (cells_of p0.options.encoding r)) ∧
        zsv_parser_headers (shift_n k q).2 = .ary H := by
    intro q S k
    obtain ⟨hres, Sk, hs, _⟩ := shift_n_sim k [] q p0 S
    rw [List.nil_append] at Sk
    obtain ⟨z, hz, T⟩ := open_out (sim_left Sk)
    have ho : (shift_n k q).2.options = p0.options := by
      have := congrArg Prod.fst hs
      simp only [source] at this
      rw [this]
      exact sim_options S
    obtain ⟨e1, e2, _⟩ := track_explicit T H (by rw [ho]; exact ha) (by rw [ho]; exact hk)
    rw [ho] at e1
    exact ⟨hres, z, hz, e1, e2⟩
  refine ⟨by rw [zsv_parser_headers, hh0, ha], ?_, ?_, ?_, ?_, ?_, by decide⟩
  · obtain ⟨z, hz, T⟩ := open_out O0
    exact hcb p0 z hz (hrep0 z hz) (by rw [hrep0 z hz] at T ⊢; exact T) rfl
  · intro n
    exact (hsh p0 O0 n).2
  · intro n
    obtain ⟨q, hq, S, _, _, _, hb, _⟩ := rewind_sim_fresh host content opts_hash p0 n h0'
    obtain ⟨z, hz, T⟩ := open_out (sim_left S)
    have hzq : p0.zsv = some z := by rw [← sim_zsv S]; exact hz
    have hr := hrep0 z hzq
    have ho := sim_options S
    obtain ⟨_, e2, _⟩ := track_explicit T H (by rw [ho]; exact ha) (by rw [ho]; exact hk)
    refine ⟨q, hq, e2, ho, hb, hcb q z hz hr T ho, fun k => (hsh q S k).1,
      fun k => (hsh q S k).2⟩
  · intro r hd hle
    exact row_to_hash_short H _ hd (by simpa [cells_of] using hle)
  · intro r
    have hlen : (cells_of p0.options.encoding r).length = r.length := by simp [cells_of]
    refine ⟨rfl, by rw [excess_pairs_length, hlen], ?_, ?_⟩
    · intro i h1 h2
      exact excess_pairs_get H.length _ i h1 (by rw [hlen]; exact h2)
    · intro hd hi
      exact row_to_hash_distinct H _ hd hi

/-- C13 at the engine over `name,age / Ada,36 / Lin,29` with
`headers: ["n","a"]`. -/
theorem explicit_headers_consume_no_row_witness :
    ((zsv_parser_new_from_string people_host people_source
          (.hash [(id_headers, .ary [ustr "n", ustr "a"])]) = .ok people_named_engine ∨
        zsv_parser_new_from_path people_host []
          (.hash [(id_headers, .ary [ustr "n", ustr "a"])]) = .ok people_named_engine) ∧
      people_named_engine.options.header_array = .ary [ustr "n", ustr "a"] ∧
      people_named_engine.options.skip_lines = 0) ∧
    zsv_parser_headers people_named_engine = .ary [ustr "n", ustr "a"] ∧
    ∀ rows : List zsv_row, ∃ q, run_callbacks people_named_engine rows = (q, none) ∧
      q.row_buffer = rows.map (fun r =>
        row_to_hash [ustr "n", ustr "a"] (cells_of people_named_engine.options.encoding r)) ∧
      zsv_parser_row_count q = rows.length ∧
      zsv_parser_headers q = .ary [ustr "n", ustr "a"] :=
  ⟨⟨Or.inl (by decide), by decide, by decide⟩,
    (explicit_headers_consume_no_row people_host people_source []
      (.hash [(id_headers, .ary [ustr "n", ustr "a"])]) people_named_engine
      [ustr "n", ustr "a"] (Or.inl (by decide)) (by decide) (by decide)).1,
    (explicit_headers_consume_no_row people_host people_source []
      (.hash [(id_headers, .ary [ustr "n", ustr "a"])]) people_named_engine
      [ustr "n", ustr "a"] (Or.inl (by decide)) (by decide) (by decide)).2.1⟩

/-- C11: the code resolves `liberal_parsing` and never reads it.  The engine
constructed with `liberal_parsing: v` added to a configuration is the engine
constructed without it except for the stored flag: its tokenizer handle is
the same (only the delimiter is copied into the tokenizer options), every
shift call returns the same result, and in particular a shift that raises
`MalformedCSVError` without the option raises it with the option.  E.g. over
a tokenizer that reports `a,b` and fails on the unterminated quote, the first
shift raises with and without `liberal_parsing: true`. -/
theorem liberal_parsing_does_not_change_shift (host : Host) (string : VALUE)
    (kv : List (Scalar × VALUE)) (v : VALUE) (p0 : zsv_ruby_parser_t)
    (h0 : zsv_parser_new_from_string host string (.hash kv) = .ok p0) :
    zsv_parser_new_from_string host string (.hash ((id_liberal_parsing, v) :: kv))
      = .ok (with_quoting p0.options.quote_char (RTEST v) p0) ∧
    (with_quoting p0.options.quote_char (RTEST v) p0).options.liberal_parsing = RTEST v ∧
    (with_quoting p0.options.quote_char (RTEST v) p0).zsv = p0.zsv ∧
    (∃ f, p0.zsv = some (zsv_new host { delimiter := p0.options.delimiter } f)) ∧
    (∀ n, (shift_n n (with_quoting p0.options.quote_char (RTEST v) p0)).1
      = (shift_n n p0).1) ∧
    (∀ n, (zsv_parser_shift (shift_n n p0).2).2 = .error .eMalformedCSVError →
      (zsv_parser_shift (shift_n n (with_quoting p0.options.quote_char (RTEST v) p0)).2).2
        = .error .eMalformedCSVError) ∧
    (∀ path p, zsv_parser_new_from_path host path (.hash kv) = .ok p →
      zsv_parser_new_from_path host path (.hash ((id_liberal_parsing, v) :: kv))
        = .ok (with_quoting p.options.quote_char (RTEST v) p)) ∧
    (liberal_engine.options.liberal_parsing = true ∧
      failing_engine.options.liberal_parsing = false ∧
      liberal_engine.zsv = failing_engine.zsv ∧
      (zsv_parser_shift failing_engine).2 = .error .eMalformedCSVError ∧
      (zsv_parser_shift liberal_engine).2 = .error .eMalformedCSVError) := by
  have hopt := constructed_options host string [] (.hash kv) p0 (Or.inl h0)
  have ho : ∀ o, zsv_options_parse host (.hash kv) = .ok o →
      zsv_options_parse host (.hash ((id_liberal_parsing, v) :: kv))
        = .ok { o with quote_char := p0.options.quote_char, liberal_parsing := RTEST v } := by
    intro o h
    rw [hopt] at h
    cases h
    exact options_parse_cons_liberal host kv v _ hopt
  obtain ⟨content, h0'⟩ := constructed_init host string [] (.hash kv) p0 (Or.inl h0)
  obtain ⟨_, c0, _⟩ := init_common_open host _ (.hash kv) p0 h0'
  refine ⟨new_from_string_quoting host string p0 _ _ _ _ h0 ho, rfl, rfl, ?_, ?_, ?_, ?_,
    by decide⟩
  · refine ⟨⟨content, 0⟩, ?_⟩
    have := congrArg (fun c => c.1) c0
    simpa [ctrl] using this
  · intro n
    rw [shift_n_quoting]
  · intro n h
    rw [shift_n_quoting]
    simp only
    rw [shift_quoting]
    exact h
  · intro path p hp
    have hoptp := constructed_options host (.scalar .qnil) path (.hash kv) p (Or.inr hp)
    apply new_from_path_quoting host path p _ _ _ _ hp
    intro o h
    rw [hoptp] at h
    cases h
    exact options_parse_cons_liberal host kv v _ hoptp

/-- C11 at the input `a,b` / `"c,d` over a tokenizer that fails on the
unterminated quote: the engine with `liberal_parsing: true` is the default
engine with the flag stored, and its first shift raises as well. -/
theorem liberal_parsing_does_not_change_shift_witness :
    zsv_parser_new_from_string failing_host (.scalar (ustr "a,b\n\"c,d")) (.hash [])
        = .ok failing_engine ∧
    zsv_parser_new_from_string failing_host (.scalar (ustr "a,b\n\"c,d"))
        (.hash ((id_liberal_parsing, Qtrue) :: []))
      = .ok (with_quoting failing_engine.options.quote_char (RTEST Qtrue) failing_engine) ∧
    ((zsv_parser_shift (shift_n 0 failing_engine).2).2 = .error .eMalformedCSVError →
      (zsv_parser_shift (shift_n 0
        (with_quoting failing_engine.options.quote_char (RTEST Qtrue) failing_engine)).2).2
        = .error .eMalformedCSVError) :=
  ⟨by decide,
    (liberal_parsing_does_not_change_shift failing_host (.scalar (ustr "a,b\n\"c,d")) [] Qtrue
      failing_engine (by decide)).1,
    (liberal_parsing_does_not_change_shift failing_host (.scalar (ustr "a,b\n\"c,d")) [] Qtrue
      failing_engine (by decide)).2.2.2.2.2.1 0⟩

/-- C12: the tokenizer options the engine builds hold the resolved delimiter
and nothing of the resolved quote character.  The engine constructed with a
one-byte `quote_char` added to a configuration is the engine constructed
without it except for the stored byte: the tokenizer handle built at
construction, and again at rewind, is the one for the delimiter alone, and
every shift call, before and after rewind, returns the same result whatever
the quote character is.  E.g. over a tokenizer for which the apostrophe is an
ordinary byte, the line `'a,b'` parsed with `quote_char: "'"` is delivered as
`["'a", "b'"]`, as without the option, and not as `["a,b"]`. -/
theorem quote_char_does_not_reach_tokenizer (host : Host) (string : VALUE)
    (kv : List (Scalar × VALUE)) (q : Nat) (enc : rb_encoding) (p0 : zsv_ruby_parser_t)
    (h0 : zsv_parser_new_from_string host string (.hash kv) = .ok p0) :
    zsv_parser_new_from_string host string
        (.hash ((id_quote_char, .scalar (.str [q] enc)) :: kv))
      = .ok (with_quoting q p0.options.liberal_parsing p0) ∧
    (with_quoting q p0.options.liberal_parsing p0).options.quote_char = q ∧
    (with_quoting q p0.options.liberal_parsing p0).options.delimiter = p0.options.delimiter ∧
    (∃ f, p0.zsv = some (zsv_new host { delimiter := p0.options.delimiter } f) ∧
      (with_quoting q p0.options.liberal_parsing p0).zsv
        = some (zsv_new host { delimiter := p0.options.delimiter } f)) ∧
    (∀ n, (shift_n n (with_quoting q p0.options.liberal_parsing p0)).1 = (shift_n n p0).1) ∧
    (∀ n, ∃ f,
      (zsv_parser_rewind host (shift_n n p0).2).1.zsv
        = some (zsv_new host { delimiter := p0.options.delimiter } f) ∧
      (zsv_parser_rewind host (shift_n n (with_quoting q p0.options.liberal_parsing p0)).2).1.zsv
        = some (zsv_new host { delimiter := p0.options.delimiter } f)) ∧
    (∀ n k,
      (shift_n k
        (zsv_parser_rewind host
          (shift_n n (with_quoting q p0.options.liberal_parsing p0)).2).1).1
        = (shift_n k (zsv_parser_rewind host (shift_n n p0).2).1).1) ∧
    (∀ path p, zsv_parser_new_from_path host path (.hash kv) = .ok p →
      zsv_parser_new_from_path host path
          (.hash ((id_quote_char, .scalar (.str [q] enc)) :: kv))
        = .ok (with_quoting q p.options.liberal_parsing p)) ∧
    (apostrophe_engine.options.quote_char = 39 ∧
      apostrophe_default_engine.options.quote_char = 34 ∧
      apostrophe_engine.zsv = apostrophe_default_engine.zsv ∧
      (shift_n 2 apostrophe_engine).1 = [.ok (.ary [ustr "'a", ustr "b'"]), .ok Qnil] ∧
      (shift_n 2 apostrophe_default_engine).1
        = [.ok (.ary [ustr "'a", ustr "b'"]), .ok Qnil] ∧
      (shift_n 2 apostrophe_engine).1 ≠ [.ok (.ary [ustr "a,b"]), .ok Qnil]) := by
  have hopt := constructed_options host string [] (.hash kv) p0 (Or.inl h0)
  have ho : ∀ o, zsv_options_parse host (.hash kv) = .ok o →
      zsv_options_parse host (.hash ((id_quote_char, .scalar (.str [q] enc)) :: kv))
        = .ok { o with quote_char := q, liberal_parsing := p0.options.liberal_parsing } := by
    intro o h
    rw [hopt] at h
    cases h
    exact options_parse_cons_quote_char host kv q enc _ hopt
  obtain ⟨content, h0'⟩ := constructed_init host string [] (.hash kv) p0 (Or.inl h0)
  obtain ⟨_, c0, _⟩ := init_common_open host _ (.hash kv) p0 h0'
  have hz0 : p0.zsv = some (zsv_new host { delimiter := p0.options.delimiter } ⟨content, 0⟩) := by
    have := congrArg (fun c => c.1) c0
    simpa [ctrl] using this
  have hrw : ∀ n, (zsv_parser_rewind host (shift_n n p0).2).1.zsv = p0.zsv := by
    intro n
    obtain ⟨r, hr, S, _⟩ := rewind_sim_fresh host content (.hash kv) p0 n h0'
    rw [hr]
    exact sim_zsv S
  refine ⟨new_from_string_quoting host string p0 _ _ _ _ h0 ho, rfl, rfl,
    ⟨⟨content, 0⟩, hz0, hz0⟩, ?_, ?_, ?_, ?_, by decide⟩
  · intro n
    rw [shift_n_quoting]
  · intro n
    refine ⟨⟨content, 0⟩, by rw [hrw n, hz0], ?_⟩
    rw [shift_n_quoting]
    simp only
    rw [rewind_quoting]
    show (zsv_parser_rewind host (shift_n n p0).2).1.zsv = _
    rw [hrw n, hz0]
  · intro n k
    rw [shift_n_quoting]
    simp only
    rw [rewind_quoting]
    simp only
    rw [shift_n_quoting]
  · intro path p hp
    have hoptp := constructed_options host (.scalar .qnil) path (.hash kv) p (Or.inr hp)
    apply new_from_path_quoting host path p _ _ _ _ hp
    intro o h
    rw [hoptp] at h
    cases h
    exact options_parse_cons_quote_char host kv q enc _ hoptp

/-- C12 at the input `'a,b'` with `quote_char: "'"`: the engine is the
default engine with the byte 39 stored, and its shifts return what those of
the default engine return. -/
theorem quote_char_does_not_reach_tokenizer_witness :
    zsv_parser_new_from_string apostrophe_host (.scalar (ustr "'a,b'\n")) (.hash [])
        = .ok apostrophe_default_engine ∧
    zsv_parser_new_from_string apostrophe_host (.scalar (ustr "'a,b'\n"))
        (.hash ((id_quote_char, .scalar (.str [39] rb_utf8_encoding)) :: []))
      = .ok (with_quoting 39 apostrophe_default_engine.options.liberal_parsing
          apostrophe_default_engine) ∧
    ∀ n, (shift_n n (with_quoting 39 apostrophe_default_engine.options.liberal_parsing
        apostrophe_default_engine)).1 = (shift_n n apostrophe_default_engine).1 :=
  ⟨by decide,
    (quote_char_does_not_reach_tokenizer apostrophe_host (.scalar (ustr "'a,b'\n")) [] 39
      rb_utf8_encoding apostrophe_default_engine (by decide)).1,
    (quote_char_does_not_reach_tokenizer apostrophe_host (.scalar (ustr "'a,b'\n")) [] 39
      rb_utf8_encoding apostrophe_default_engine (by decide)).2.2.2.2.1⟩

/-- C23: on an engine with `in_cleanup` set the row callback returns the
engine as it was, for every row: the cells and the count of the row builder,
its header cache, the headers of the engine, the skip counter, the
header-processed flag, the row queue and the row counter are what they were,
and nothing is raised.  The same holds for the callbacks of any sequence of
rows, and `zsv_parser_finish_safe` does not call the tokenizer. -/
theorem row_handler_does_nothing_in_cleanup (p : zsv_ruby_parser_t) (r : zsv_row)
    (h : p.in_cleanup = true) :
    zsv_row_handler p r = (p, none) ∧
    ((zsv_row_handler p r).1.row_builder.cells = p.row_builder.cells ∧
      (zsv_row_handler p r).1.row_builder.count = p.row_builder.count ∧
      (zsv_row_handler p r).1.row_builder.header_cache = p.row_builder.header_cache ∧
      (zsv_row_handler p r).1.headers = p.headers ∧
      (zsv_row_handler p r).1.lines_skipped = p.lines_skipped ∧
      (zsv_row_handler p r).1.header_row_processed = p.header_row_processed ∧
      (zsv_row_handler p r).1.row_buffer = p.row_buffer ∧
      (zsv_row_handler p r).1.row_count = p.row_count) ∧
    (∀ rows, run_callbacks p rows = (p, none)) ∧
    zsv_parser_finish_safe p = (p, none) := by
  have h1 := handler_cleanup p r h
  refine ⟨h1, ?_, fun rows => run_callbacks_cleanup rows p h, ?_⟩
  · rw [h1]
    exact ⟨rfl, rfl, rfl, rfl, rfl, rfl, rfl, rfl⟩
  · unfold zsv_parser_finish_safe
    cases p.zsv with
    | none => rfl
    | some z => simp [h]

/-- C23 at the engine over `name,age / Ada,36 / Lin,29` closed after its first
shift, and the row `x`. -/
theorem row_handler_does_nothing_in_cleanup_witness :
    closed_with_row.in_cleanup = true ∧
    zsv_row_handler closed_with_row [ascii "x"] = (closed_with_row, none) :=
  ⟨by decide, (row_handler_does_nothing_in_cleanup closed_with_row [ascii "x"] (by decide)).1⟩

set_option maxRecDepth 8000 in
/-- C25: a builder made by `zsv_row_builder_new` has 32 slots and no cell.
After any sequence of `reset` and `add_cell` calls on it, the count is at most
the capacity, the storage has exactly `capacity` slots, and the capacity is
32 times a power of two.  From such a builder, `reset` sets the count to 0 and
changes neither the capacity nor the slots; `add_cell` writes the slot at the
old count, which is inside the storage, leaves the capacity as it is while
the count is below it and doubles it (once: that suffices) when the count has
reached it; and no further sequence of calls makes the capacity smaller.
E.g. 33 cells on a new builder give capacity 64, which a reset keeps. -/
theorem builder_capacity_invariant (enc : rb_encoding) (calls : List builder_call)
    (b : zsv_row_builder_t)
    (hb : apply_builder_calls (zsv_row_builder_new enc) calls = b) :
    ((zsv_row_builder_new enc).capacity = 32 ∧ (zsv_row_builder_new enc).count = 0 ∧
      (zsv_row_builder_new enc).cells.length = 32) ∧
    (b.count ≤ b.capacity ∧ b.cells.length = b.capacity ∧ ∃ k, b.capacity = 32 * 2 ^ k) ∧
    ((zsv_row_builder_reset b).count = 0 ∧
      (zsv_row_builder_reset b).capacity = b.capacity ∧
      (zsv_row_builder_reset b).cells = b.cells) ∧
    (∀ data,
      (zsv_row_builder_add_cell b data).count = b.count + 1 ∧
      b.count < (zsv_row_builder_add_cell b data).cells.length ∧
      (zsv_row_builder_add_cell b data).cells.length
        = (zsv_row_builder_add_cell b data).capacity ∧
      (zsv_row_builder_add_cell b data).cells[b.count]? = some (Scalar.str data b.encoding) ∧
      (b.count + 1 ≤ b.capacity → (zsv_row_builder_add_cell b data).capacity = b.capacity) ∧
      (b.capacity < b.count + 1 →
        (zsv_row_builder_add_cell b data).capacity = 2 * b.capacity)) ∧
    (∀ more, b.capacity ≤ (apply_builder_calls b more).capacity) ∧
    ((apply_builder_calls (zsv_row_builder_new rb_utf8_encoding)
        (wide_row.map builder_call.add_cell)).capacity = 64 ∧
      (apply_builder_calls (zsv_row_builder_new rb_utf8_encoding)
        (wide_row.map builder_call.add_cell ++ [builder_call.reset])).capacity = 64 ∧
      (apply_builder_calls (zsv_row_builder_new rb_utf8_encoding)
        (wide_row.map builder_call.add_cell ++ [builder_call.reset])).count = 0) := by
  have hnew : storage_ok (zsv_row_builder_new enc) := (builder_new_ok enc).1
  have hk0 : ∃ k, (zsv_row_builder_new enc).capacity = 32 * 2 ^ k := ⟨0, rfl⟩
  obtain ⟨s, hk, _⟩ := builder_calls_storage calls _ hnew hk0
  rw [hb] at s hk
  refine ⟨⟨rfl, rfl, by simp [zsv_row_builder_new, INITIAL_ROW_CAPACITY]⟩,
    ⟨s.2.2, s.1, hk⟩, ⟨rfl, rfl, rfl⟩, ?_, ?_, by decide⟩
  · intro data
    obtain ⟨s1, a1, a2, a3, a4, a5⟩ := add_cell_capacity b data s
    exact ⟨a1, a2, s1.1, a3, a4, a5⟩
  · intro more
    exact (builder_calls_storage more b s hk).2.2

/-- C25 at a new builder after the 33 cells of `wide_row`. -/
theorem builder_capacity_invariant_witness :
    (apply_builder_calls (zsv_row_builder_new rb_utf8_encoding)
        (wide_row.map builder_call.add_cell)).count
      ≤ (apply_builder_calls (zsv_row_builder_new rb_utf8_encoding)
        (wide_row.map builder_call.add_cell)).capacity ∧
    (apply_builder_calls (zsv_row_builder_new rb_utf8_encoding)
        (wide_row.map builder_call.add_cell)).cells.length
      = (apply_builder_calls (zsv_row_builder_new rb_utf8_encoding)
        (wide_row.map builder_call.add_cell)).capacity ∧
    ∃ k, (apply_builder_calls (zsv_row_builder_new rb_utf8_encoding)
        (wide_row.map builder_call.add_cell)).capacity = 32 * 2 ^ k :=
  (builder_capacity_invariant rb_utf8_encoding (wide_row.map builder_call.add_cell) _ rfl).2.1

/-- C24: one row callback on an engine that is not in cleanup (and whose
builder holds the header array of the engine, as in every constructed engine)
raises nothing and does one of three things.  A row below the skip count
leaves the queue and the row counter as they were; so does the row captured
as header; any other row is exported whole (as sequence when the engine has
no headers, else as mapping) and appended at the back of the queue, and the
row counter goes up by exactly 1.  Consequently, after any number of shifts
on a constructed engine the row counter is the number of rows shift has
returned plus the length of the queue, and after a rewind the counter and the
queue start from 0 and the same holds again. -/
theorem row_callback_enqueues_at_most_one (p : zsv_ruby_parser_t) (r : zsv_row)
    (hl : p.in_cleanup = false) (hs : p.row_builder.headers = p.headers) :
    (zsv_row_handler p r).2 = none ∧
    (p.lines_skipped < skip_count p.options →
      (zsv_row_handler p r).1.row_buffer = p.row_buffer ∧
      (zsv_row_handler p r).1.row_count = p.row_count ∧
      (zsv_row_handler p r).1.lines_skipped = p.lines_skipped + 1) ∧
    (¬ p.lines_skipped < skip_count p.options →
      (p.options.headers && NIL_P p.options.header_array && !p.header_row_processed) = true →
      (zsv_row_handler p r).1.row_buffer = p.row_buffer ∧
      (zsv_row_handler p r).1.row_count = p.row_count ∧
      (zsv_row_handler p r).1.header_row_processed = true ∧
      (zsv_row_handler p r).1.headers
        = zsv_row_builder_to_array (fill_builder p.row_builder r)) ∧
    (¬ p.lines_skipped < skip_count p.options →
      (p.options.headers && NIL_P p.options.header_array && !p.header_row_processed) = false →
      ∃ v, (zsv_row_handler p r).1.row_buffer = p.row_buffer ++ [v] ∧
        (zsv_row_handler p r).1.row_count = p.row_count + 1 ∧
        ((NIL_P p.headers = true ∧
            v = zsv_row_builder_to_array (fill_builder p.row_builder r)) ∨
          (NIL_P p.headers = false ∧
            zsv_row_builder_to_hash (fill_builder p.row_builder r) = .ok v))) ∧
    (((zsv_row_handler p r).1.row_buffer = p.row_buffer ∧
        (zsv_row_handler p r).1.row_count = p.row_count) ∨
      ∃ v, (zsv_row_handler p r).1.row_buffer = p.row_buffer ++ [v] ∧
        (zsv_row_handler p r).1.row_count = p.row_count + 1) ∧
    (∀ (host : Host) (string : VALUE) (path : List Nat) (opts_hash : OptsHash)
        (p0 : zsv_ruby_parser_t) (n : Nat),
      (zsv_parser_new_from_string host string opts_hash = .ok p0 ∨
        zsv_parser_new_from_path host path opts_hash = .ok p0) →
      zsv_parser_row_count p0 = 0 ∧ p0.row_buffer = [] ∧
      zsv_parser_row_count (shift_n n p0).2
        = (delivered (shift_n n p0).1).length + (shift_n n p0).2.row_buffer.length ∧
      ∃ q, zsv_parser_rewind host (shift_n n p0).2 = (q, none) ∧
        zsv_parser_row_count q = 0 ∧ q.row_buffer = [] ∧
        ∀ k, zsv_parser_row_count (shift_n k q).2
          = (delivered (shift_n k q).1).length + (shift_n k q).2.row_buffer.length) := by
  have hraise := (handler_no_raise p r hs).1
  have hskip : p.lines_skipped < skip_count p.options →
      (zsv_row_handler p r).1.row_buffer = p.row_buffer ∧
      (zsv_row_handler p r).1.row_count = p.row_count ∧
      (zsv_row_handler p r).1.lines_skipped = p.lines_skipped + 1 := by
    intro hsk
    rw [handler_skip p r hl hsk]
    exact ⟨rfl, rfl, rfl⟩
  have hcap : ¬ p.lines_skipped < skip_count p.options →
      (p.options.headers && NIL_P p.options.header_array && !p.header_row_processed) = true →
      (zsv_row_handler p r).1.row_buffer = p.row_buffer ∧
      (zsv_row_handler p r).1.row_count = p.row_count ∧
      (zsv_row_handler p r).1.header_row_processed = true ∧
      (zsv_row_handler p r).1.headers
        = zsv_row_builder_to_array (fill_builder p.row_builder r) := by
    intro hsk hc
    simp only [Bool.and_eq_true, Bool.not_eq_true', nil_p_eq_true] at hc
    obtain ⟨⟨hm, ha⟩, hp⟩ := hc
    rw [handler_capture p r hl hsk hm ha hp]
    exact ⟨rfl, rfl, rfl, rfl⟩
  have hother : ¬ p.lines_skipped < skip_count p.options →
      (p.options.headers && NIL_P p.options.header_array && !p.header_row_processed) = false →
      ∃ v, (zsv_row_handler p r).1.row_buffer = p.row_buffer ++ [v] ∧
        (zsv_row_handler p r).1.row_count = p.row_count + 1 ∧
        ((NIL_P p.headers = true ∧
            v = zsv_row_builder_to_array (fill_builder p.row_builder r)) ∨
          (NIL_P p.headers = false ∧
            zsv_row_builder_to_hash (fill_builder p.row_builder r) = .ok v)) := by
    intro hsk hc
    obtain ⟨v, hv, hwhich⟩ := handler_enqueue p r hl hs hsk hc
    rw [hv]
    exact ⟨v, rfl, rfl, hwhich⟩
  refine ⟨hraise, hskip, hcap, hother, ?_, ?_⟩
  · by_cases hsk : p.lines_skipped < skip_count p.options
    · exact Or.inl ⟨(hskip hsk).1, (hskip hsk).2.1⟩
    · cases hc : (p.options.headers && NIL_P p.options.header_array
          && !p.header_row_processed) with
      | true => exact Or.inl ⟨(hcap hsk hc).1, (hcap hsk hc).2.1⟩
      | false =>
        obtain ⟨v, h1, h2, _⟩ := hother hsk hc
        exact Or.inr ⟨v, h1, h2⟩
  · intro host string path opts_hash p0 n h0
    obtain ⟨content, h0'⟩ := constructed_init host string path opts_hash p0 h0
    obtain ⟨_, _, _, hb0, hc0, _⟩ := init_common_open host _ opts_hash p0 h0'
    obtain ⟨z, _, T, _⟩ := fresh_shifts host content opts_hash p0 n h0'
    obtain ⟨q, hq, S, hqc, _, _, hqb, _⟩ := rewind_sim_fresh host content opts_hash p0 n h0'
    refine ⟨hc0, hb0, track_count T, q, hq, hqc, hqb, ?_⟩
    intro k
    obtain ⟨_, Sk, _, _⟩ := shift_n_sim k [] q p0 S
    rw [List.nil_append] at Sk
    obtain ⟨zk, _, Tk⟩ := open_out (sim_left Sk)
    exact track_count Tk

/-- C24 at the fresh engine over `name,age / Ada,36 / Lin,29` with
`headers: true` and the row `name,age`, which is captured as header. -/
theorem row_callback_enqueues_at_most_one_witness :
    (people_engine.in_cleanup = false ∧
      people_engine.row_builder.headers = people_engine.headers) ∧
    (zsv_row_handler people_engine [ascii "name", ascii "age"]).2 = none ∧
    (((zsv_row_handler people_engine [ascii "name", ascii "age"]).1.row_buffer
          = people_engine.row_buffer ∧
        (zsv_row_handler people_engine [ascii "name", ascii "age"]).1.row_count
          = people_engine.row_count) ∨
      ∃ v, (zsv_row_handler people_engine [ascii "name", ascii "age"]).1.row_buffer
          = people_engine.row_buffer ++ [v] ∧
        (zsv_row_handler people_engine [ascii "name", ascii "age"]).1.row_count
          = people_engine.row_count + 1) :=
  ⟨by decide,
    (row_callback_enqueues_at_most_one people_engine [ascii "name", ascii "age"]
      (by decide) (by decide)).1,
    (row_callback_enqueues_at_most_one people_engine [ascii "name", ascii "age"]
      (by decide) (by decide)).2.2.2.2.1⟩

/-- C21: take a constructed engine after any number of shifts, with an empty
queue and EOF not reached, whose next advance step returns "no more input".
The shift runs the finish step on the engine the advance step left, with the
EOF flag still unset and cleanup off, so the rows the finish flushes go
through the row callback; only then is the EOF flag set and the front of the
queue returned.  The rows delivered so far followed by the queue after the
finish are the rows to deliver for everything the tokenizer has reported, the
flushed rows included, and the shift returns the first of the new ones (`nil`
when there is none); a single flushed data row, when the advance step
reported no row, is what this shift returns.  Afterwards the EOF flag is set
and any number of further shifts leave the tokenizer handle, with its call
counters, as it is.  E.g. for `a,b` / `c,d` without a final line end the
shifts return `["a","b"]`, `["c","d"]`, `nil`. -/
theorem finish_runs_before_eof_flag (host : Host) (string : VALUE) (path : List Nat)
    (opts_hash : OptsHash) (p0 p : zsv_ruby_parser_t) (n : Nat) (z : zsv_scanner)
    (h0 : zsv_parser_new_from_string host string opts_hash = .ok p0 ∨
      zsv_parser_new_from_path host path opts_hash = .ok p0)
    (hp : (shift_n n p0).2 = p) (hz : p.zsv = some z) (hb : p.row_buffer = [])
    (he : p.eof_reached = false)
    (hst : (next_step z).status = .zsv_status_no_more_input) :
    (∃ p1 p2, zsv_parse_more p z = (p1, none, .zsv_status_no_more_input) ∧
      p1.eof_reached = false ∧ p1.in_cleanup = false ∧
      zsv_parser_finish_safe p1 = (p2, none) ∧
      zsv_finish p1 (scanner_advance z) = (p2, none) ∧
      p2.eof_reached = false ∧
      zsv_parser_shift p = shift_front { p2 with eof_reached := true } ∧
      delivered (shift_n n p0).1 ++ p2.row_buffer
        = expected_rows p0.options
            (z.reported ++ (next_step z).rows ++ (next_step z).pending)) ∧
    (∃ new, expected_rows p0.options
          (z.reported ++ (next_step z).rows ++ (next_step z).pending)
        = expected_rows p0.options z.reported ++ new ∧
      delivered (shift_n n p0).1 = expected_rows p0.options z.reported ∧
      (zsv_parser_shift p).2 = .ok (new.headD Qnil) ∧
      (zsv_parser_shift p).1.row_buffer = new.tail) ∧
    (∀ r v, (next_step z).rows = [] → (next_step z).pending = [r] →
      expected_rows p0.options (z.reported ++ [r])
        = expected_rows p0.options z.reported ++ [v] →
      (zsv_parser_shift p).2 = .ok v) ∧
    ((zsv_parser_shift p).1.eof_reached = true ∧
      (zsv_parser_shift p).1.zsv = some (scanner_finish (scanner_advance z)) ∧
      (scanner_finish (scanner_advance z)).parse_calls = z.parse_calls + 1 ∧
      (scanner_finish (scanner_advance z)).finish_calls = z.finish_calls + 1) ∧
    (∀ k, (shift_n k (zsv_parser_shift p).1).2.zsv
        = some (scanner_finish (scanner_advance z)) ∧
      (shift_n k (zsv_parser_shift p).1).2.eof_reached = true) ∧
    (shift_n 3 unterminated_engine).1
      = [.ok (.ary [ustr "a", ustr "b"]), .ok (.ary [ustr "c", ustr "d"]), .ok Qnil] := by
  obtain ⟨content, h0'⟩ := constructed_init host string path opts_hash p0 h0
  obtain ⟨O0, _⟩ := init_common_open host _ opts_hash p0 h0'
  obtain ⟨_, Sn, hs, _⟩ := shift_n_sim n [] p0 p0 O0
  rw [List.nil_append, hp] at Sn
  have hopt : p.options = p0.options := by
    have := congrArg Prod.fst hs
    rw [hp] at this
    simpa [source] using this
  obtain ⟨p1, p2, h1, he1, hi1, f1, f2, he2, hz2, ho2, O2, hshift⟩ :=
    shift_at_no_more_input _ p z Sn hz hb he hst
  obtain ⟨z', hz', T⟩ := open_out Sn
  rw [hz] at hz'
  cases hz'
  obtain ⟨z2, hz2', T2⟩ := open_out O2
  rw [hz2] at hz2'
  cases hz2'
  have hout := T.out
  rw [hb, List.append_nil, hopt] at hout
  have hrep : (scanner_finish (scanner_advance z)).reported
      = z.reported ++ (next_step z).rows ++ (next_step z).pending := rfl
  have hout2 := T2.out
  rw [hrep, ho2, hopt] at hout2
  have hfront : (zsv_parser_shift p).2 = .ok (p2.row_buffer.headD Qnil) ∧
      (zsv_parser_shift p).1.row_buffer = p2.row_buffer.tail ∧
      (zsv_parser_shift p).1.eof_reached = true ∧
      (zsv_parser_shift p).1.zsv = p2.zsv := by
    rw [hshift]
    unfold shift_front
    cases hq : p2.row_buffer with
    | nil => simp [hq]
    | cons v rest => simp [hq]
  obtain ⟨g1, g2, g3, g4⟩ := hfront
  refine ⟨⟨p1, p2, h1, he1, hi1, f1, f2, he2, hshift, hout2⟩,
    ⟨p2.row_buffer, by rw [← hout2, hout], hout, g1, g2⟩, ?_,
    ⟨g3, by rw [g4, hz2], rfl, rfl⟩, ?_, by decide⟩
  · intro r v hr hpd hexp
    rw [hr, hpd, List.append_nil, hexp] at hout2
    rw [hout] at hout2
    have hq : p2.row_buffer = [v] := List.append_cancel_left hout2
    rw [g1, hq]
    rfl
  · intro k
    obtain ⟨b1, b2, _⟩ := shift_n_at_eof k (zsv_parser_shift p).1 g3
    exact ⟨by rw [b1, g4, hz2], b2⟩

/-- C21 at the engine over `a,b` / `c,d` without a final line end, after its
first shift: the second shift runs the finish step and returns the flushed
row `["c","d"]`. -/
theorem finish_runs_before_eof_flag_witness :
    ((zsv_parser_new_from_string unterminated_host (.scalar (ustr "a,b\nc,d")) .qnil
          = .ok unterminated_engine ∨
        zsv_parser_new_from_path unterminated_host [] .qnil = .ok unterminated_engine) ∧
      (shift_n 1 unterminated_engine).2.zsv = some unterminated_scanner ∧
      (shift_n 1 unterminated_engine).2.row_buffer = [] ∧
      (shift_n 1 unterminated_engine).2.eof_reached = false ∧
      (next_step unterminated_scanner).status = .zsv_status_no_more_input ∧
      (next_step unterminated_scanner).rows = [] ∧
      (next_step unterminated_scanner).pending = [[ascii "c", ascii "d"]] ∧
      expected_rows unterminated_engine.options
          (unterminated_scanner.reported ++ [[ascii "c", ascii "d"]])
        = expected_rows unterminated_engine.options unterminated_scanner.reported
            ++ [.ary [ustr "c", ustr "d"]]) ∧
    (zsv_parser_shift (shift_n 1 unterminated_engine).2).2
      = .ok (.ary [ustr "c", ustr "d"]) :=
  ⟨by decide,
    (finish_runs_before_eof_flag unterminated_host (.scalar (ustr "a,b\nc,d")) [] .qnil
      unterminated_engine (shift_n 1 unterminated_engine).2 1 unterminated_scanner
      (Or.inl (by decide)) rfl (by decide) (by decide) (by decide) (by decide)).2.2.1
      [ascii "c", ascii "d"] (.ary [ustr "c", ustr "d"]) (by decide) (by decide) (by decide)⟩

/-- C22: let `s` be the state of a constructed engine after any sequence of
shift, each, rewind and close calls (a call that raises included).  If `s` is
closed, its tokenizer handle and its stream are released; if `s` is in
cleanup, it is closed.  If `s` is not closed, its handle is live and cleanup
is off, and a close then runs the finish step on the engine with cleanup off,
sets the cleanup flag only afterwards, and releases the handle and the
stream.  E.g. after shift, close, rewind, shift the engine over
`name,age / Ada,36 / Lin,29` is closed and released. -/
theorem closed_engine_is_released (host : Host) (string : VALUE) (path : List Nat)
    (opts_hash : OptsHash) (p0 s : zsv_ruby_parser_t) (calls : List engine_call)
    (h0 : zsv_parser_new_from_string host string opts_hash = .ok p0 ∨
      zsv_parser_new_from_path host path opts_hash = .ok p0)
    (hs : apply_calls host p0 calls = s) :
    (s.closed = true → s.zsv = none ∧ s.file = none) ∧
    (s.in_cleanup = true → s.closed = true) ∧
    (s.closed = false → ∃ z, s.zsv = some z ∧ s.in_cleanup = false ∧
      zsv_parser_close s
        = ({ (zsv_finish { s with closed := true } z).1 with
              in_cleanup := true, zsv := none, file := none }, none)) ∧
    ((zsv_parser_close s).1.closed = true ∧ (zsv_parser_close s).1.zsv = none ∧
      (zsv_parser_close s).1.file = none ∧ (zsv_parser_close s).1.in_cleanup = true) ∧
    (p0.closed = false ∧ p0.in_cleanup = false) ∧
    ((apply_calls people_host people_engine [.shift, .close, .rewind, .shift]).closed = true ∧
      (apply_calls people_host people_engine [.shift, .close, .rewind, .shift]).zsv = none ∧
      (apply_calls people_host people_engine [.shift, .close, .rewind, .shift]).file = none ∧
      (apply_calls people_host people_engine [.shift, .rewind, .each]).closed = false ∧
      (apply_calls people_host people_engine [.shift, .rewind, .each]).in_cleanup = false) := by
  obtain ⟨content, h0'⟩ := constructed_init host string path opts_hash p0 h0
  obtain ⟨O0, _⟩ := init_common_open host _ opts_hash p0 h0'
  have hS : Settled s := by
    rw [← hs]
    exact apply_calls_settled host calls p0 (Or.inl ⟨[], O0⟩)
  have hopen : ∀ (d : List VALUE) (p : zsv_ruby_parser_t), Open d p →
      p.closed = false ∧ p.in_cleanup = false := by
    intro d p O
    obtain ⟨z, _, T⟩ := open_out O
    exact ⟨O.2.1, T.live⟩
  refine ⟨?_, ?_, ?_, ?_, hopen [] p0 O0, by decide⟩
  · intro hc
    rcases hS with ⟨d, O⟩ | R
    · rw [(hopen d s O).1] at hc; cases hc
    · exact ⟨R.2.1, R.2.2.1⟩
  · intro hi
    rcases hS with ⟨d, O⟩ | R
    · rw [(hopen d s O).2] at hi; cases hi
    · exact R.1
  · intro hc
    rcases hS with ⟨d, O⟩ | R
    · obtain ⟨z, hz, hi, hcl, _⟩ := close_open d s O
      exact ⟨z, hz, hi, hcl⟩
    · rw [R.1] at hc; cases hc
  · rcases hS with ⟨d, O⟩ | R
    · obtain ⟨_, _, _, _, R⟩ := close_open d s O
      exact ⟨R.1, R.2.1, R.2.2.1, R.2.2.2⟩
    · rw [close_of_closed s R.1]
      exact ⟨R.1, R.2.1, R.2.2.1, R.2.2.2⟩

/-- C22 at the engine over `name,age / Ada,36 / Lin,29` after shift, close,
rewind, shift. -/
theorem closed_engine_is_released_witness :
    ((zsv_parser_new_from_string people_host people_source headers_true = .ok people_engine ∨
        zsv_parser_new_from_path people_host [] headers_true = .ok people_engine) ∧
      (apply_calls people_host people_engine [.shift, .close, .rewind, .shift]).closed
        = true) ∧
    ((apply_calls people_host people_engine [.shift, .close, .rewind, .shift]).closed = true →
      (apply_calls people_host people_engine [.shift, .close, .rewind, .shift]).zsv = none ∧
      (apply_calls people_host people_engine [.shift, .close, .rewind, .shift]).file = none) :=
  ⟨⟨Or.inl (by decide), by decide⟩,
    (closed_engine_is_released people_host people_source [] headers_true people_engine _
      [.shift, .close, .rewind, .shift] (Or.inl (by decide)) rfl).1⟩

/-- C26: let a constructed engine hold a negative `skip_lines` value `s`
(necessarily at least `-2^31`).  The skip count the row callback compares
with is `2^64 + s`.  After any number of shifts, as long as the tokenizer has
reported at most `2^64 + s` rows, every row has been counted as skipped and
dropped: no row has been delivered, the queue is empty, the row counter is 0,
the headers query returns what it did at construction (`nil` with header mode
on, where the header-processed flag is still off), and every shift has
returned `nil` or raised `MalformedCSVError` for a tokenizer error.  At the
row callback: for at most `2^64 + s` rows the callbacks change nothing but
the row builder and the skip counter.  E.g. with `skip_lines: -1` and
`headers: true` the input `name,age / Ada,36 / Lin,29` gives `nil` at every
shift. -/
theorem negative_skip_lines_discards_every_row (host : Host) (string : VALUE)
    (path : List Nat) (opts_hash : OptsHash) (p0 : zsv_ruby_parser_t) (s : Int) (n : Nat)
    (z : zsv_scanner)
    (h0 : zsv_parser_new_from_string host string opts_hash = .ok p0 ∨
      zsv_parser_new_from_path host path opts_hash = .ok p0)
    (hs : p0.options.skip_lines = s) (hneg : s < 0)
    (hz : (shift_n n p0).2.zsv = some z)
    (hfew : (z.reported.length : Int) ≤ 2 ^ 64 + s) :
    (-(2 ^ 31 : Int) ≤ s ∧ (skip_count p0.options : Int) = 2 ^ 64 + s) ∧
    (delivered (shift_n n p0).1 = [] ∧ (shift_n n p0).2.row_buffer = [] ∧
      zsv_parser_row_count (shift_n n p0).2 = 0 ∧
      (shift_n n p0).2.lines_skipped = z.reported.length) ∧
    (zsv_parser_headers (shift_n n p0).2 = zsv_parser_headers p0 ∧
      (p0.options.header_array = Qnil → p0.options.headers = true →
        (shift_n n p0).2.header_row_processed = false ∧
        zsv_parser_headers (shift_n n p0).2 = Qnil)) ∧
    (∀ res ∈ (shift_n n p0).1, res = .ok Qnil ∨ res = .error .eMalformedCSVError) ∧
    (∀ rows : List zsv_row, (rows.length : Int) ≤ 2 ^ 64 + s →
      run_callbacks p0 rows
        = ({ p0 with row_builder := rows.foldl fill_builder p0.row_builder,
                     lines_skipped := rows.length }, none)) ∧
    ((shift_n 3 people_minus_one_engine).1 = [.ok Qnil, .ok Qnil, .ok Qnil] ∧
      zsv_parser_row_count (shift_n 3 people_minus_one_engine).2 = 0 ∧
      (shift_n 3 people_minus_one_engine).2.lines_skipped = 3 ∧
      zsv_parser_headers (shift_n 3 people_minus_one_engine).2 = Qnil) := by
  obtain ⟨content, h0'⟩ := constructed_init host string path opts_hash p0 h0
  obtain ⟨O0, _, hparse, _, _, hl0, hh0, _⟩ := init_common_open host _ opts_hash p0 h0'
  have hrange := (options_parse_skip_range host opts_hash p0.options hparse).1
  rw [hs] at hrange
  have hsk : (skip_count p0.options : Int) = 2 ^ 64 + s := by
    unfold skip_count
    rw [hs]
    exact size_t_of_negative s hrange hneg
  obtain ⟨z', hz', T, hopt⟩ := fresh_shifts host content opts_hash p0 n h0'
  rw [hz] at hz'
  cases hz'
  obtain ⟨_, _, _, herr⟩ := shift_n_sim n [] p0 p0 O0
  have hle : z.reported.length ≤ skip_count (shift_n n p0).2.options := by
    rw [hopt]
    have : (z.reported.length : Int) ≤ (skip_count p0.options : Int) := by rw [hsk]; exact hfew
    exact_mod_cast this
  have hexp := expected_rows_skip (shift_n n p0).2.options z.reported hle
  have hout := T.out
  rw [hexp] at hout
  obtain ⟨hd, hq⟩ := List.append_eq_nil.mp hout
  have hcnt := T.cnt
  rw [hexp] at hcnt
  have hskipped := T.skipped
  rw [Nat.min_eq_right hle] at hskipped
  have hp0h : p0.headers = p0.options.header_array := hh0
  have hhead : zsv_parser_headers (shift_n n p0).2 = zsv_parser_headers p0 ∧
      (p0.options.header_array = Qnil → p0.options.headers = true →
        (shift_n n p0).2.header_row_processed = false ∧
        zsv_parser_headers (shift_n n p0).2 = Qnil) := by
    have hon : p0.options.header_array = Qnil → p0.options.headers = true →
        (shift_n n p0).2.header_row_processed = false ∧
        zsv_parser_headers (shift_n n p0).2 = Qnil := by
      intro ha hm
      have h1 := (T.hdr_on (by rw [hopt]; exact ha) (by rw [hopt]; exact hm)).1
      have h2 : (shift_n n p0).2.header_row_processed = false := by
        rw [h1]
        simp only [decide_eq_false_iff_not, not_lt]
        exact hle
      obtain ⟨k1, _⟩ := shift_n_header_kept n p0 h2
      exact ⟨h2, by rw [zsv_parser_headers, k1, hp0h, ha]⟩
    refine ⟨?_, hon⟩
    unfold zsv_parser_headers
    rcases T.arr with ha | ⟨names, ha⟩
    · rw [hopt] at ha
      cases hm : p0.options.headers with
      | true => rw [hp0h, ha]; exact (hon ha hm).2
      | false => rw [T.hdr_off (by rw [hopt]; exact ha) (by rw [hopt]; exact hm), hp0h, ha]
    · rw [T.hdr_explicit names ha, hp0h, ← hopt, ha]
  refine ⟨⟨hrange, hsk⟩, ⟨hd, hq, by simpa [zsv_parser_row_count] using hcnt, hskipped⟩,
    hhead, ?_, ?_, by decide⟩
  · intro res hres
    cases res with
    | error e => exact Or.inr (by rw [herr e hres])
    | ok v =>
      left
      cases hn : NIL_P v with
      | true => rw [nil_p_eq_true.mp hn]
      | false =>
        have := mem_delivered _ v hres hn
        rw [hd] at this
        cases this
  · intro rows hrows
    obtain ⟨z0, _, T0⟩ := open_out O0
    have hle0 : p0.lines_skipped + rows.length ≤ skip_count p0.options := by
      rw [hl0, Nat.zero_add]
      have : (rows.length : Int) ≤ (skip_count p0.options : Int) := by rw [hsk]; exact hrows
      exact_mod_cast this
    rw [run_callbacks_all_skipped rows p0 T0.live hle0, hl0, Nat.zero_add]

/-- C26 at the engine over `name,age / Ada,36 / Lin,29` with `skip_lines: -1`
and `headers: true`, after its first shift: the three rows are reported and
skipped. -/
theorem negative_skip_lines_discards_every_row_witness :
    ((zsv_parser_new_from_string people_host people_source
          (.hash [(id_skip_lines, .scalar (.fixnum (-1))), (id_headers, Qtrue)])
          = .ok people_minus_one_engine ∨
        zsv_parser_new_from_path people_host []
          (.hash [(id_skip_lines, .scalar (.fixnum (-1))), (id_headers, Qtrue)])
          = .ok people_minus_one_engine) ∧
      people_minus_one_engine.options.skip_lines = -1 ∧ (-1 : Int) < 0 ∧
      (shift_n 1 people_minus_one_engine).2.zsv = some people_scanner ∧
      people_scanner.reported.length = 3 ∧
      (people_scanner.reported.length : Int) ≤ 2 ^ 64 + -1) ∧
    (delivered (shift_n 1 people_minus_one_engine).1 = [] ∧
      (shift_n 1 people_minus_one_engine).2.row_buffer = [] ∧
      zsv_parser_row_count (shift_n 1 people_minus_one_engine).2 = 0 ∧
      (shift_n 1 people_minus_one_engine).2.lines_skipped = people_scanner.reported.length) :=
  ⟨by decide,
    (negative_skip_lines_discards_every_row people_host people_source []
      (.hash [(id_skip_lines, .scalar (.fixnum (-1))), (id_headers, Qtrue)])
      people_minus_one_engine (-1) 1 people_scanner (Or.inl (by decide)) (by decide)
      (by decide) (by decide) (by decide)).2.1⟩

end ZSV
